import Mathlib

/-!
Dynamic memory allocator (`mm.c`): shallow embedding and verification.

The allocator of `src/mm.c` is an implicit-free-list allocator with first-fit
placement and boundary-tag coalescing, where footers are kept only on free
blocks and bit 1 of every header records whether the preceding block is
allocated.

Embedding conventions.

* The target is the 64-bit one: `sizeof(void *) = 8`, `size_t` and `uintptr_t`
  are 64-bit, and every `size_t` / pointer computation is done modulo `2 ^ 64`.
* Memory is a map from addresses to 64-bit words.  Every word access of
  `mm.c` is at `heap base + 8 * k`, so one cell per accessed address is
  exact; the byte-granular `memcpy` of `mm_realloc` is modelled little-endian
  on top of the word cells.
* The global `heap_listp` and the break of `mem_sbrk` are fields of the state.
* The only loop, the scan of `find_fit`, is driven by a fuel of `2 ^ 60`: the
  scan only moves `bp` by multiples of 16 and does not write, so a scan that
  has not stopped after `2 ^ 60` steps has revisited an address and never
  stops.  `none` stands for that divergence.
-/

set_option linter.unusedTactic false
set_option linter.unreachableTactic false

namespace MM

/-! ## Constants and macros -/

/-- The number of values of a `size_t` / `uintptr_t`. -/
def U64 : Nat := 18446744073709551616

/-- The constant `WSIZE`: word and header/footer size in bytes, `sizeof(void *)`. -/
def WSIZE : Nat := 8

/-- The constant `DSIZE`: double word size in bytes. -/
def DSIZE : Nat := 2 * WSIZE

/-- The constant `CHUNKSIZE`: the heap is extended by at least this amount. -/
def CHUNKSIZE : Nat := 1 <<< 12

/-- The constant `MINIMUM`, used by the shrink test of `mm_realloc`. -/
def MINIMUM : Nat := 24

/-- The null pointer `NULL`. -/
def NULL : Nat := 0

/-- The pointer `(void *)-1`, the failure value of `mem_sbrk`. -/
def SBRK_FAIL : Nat := U64 - 1

/-- Addition of `size_t` / pointer values. -/
def add64 (a b : Nat) : Nat := (a + b) % U64

/-- Subtraction of `size_t` / pointer values. -/
def sub64 (a b : Nat) : Nat := (a + (U64 - b % U64)) % U64

/-- Multiplication of `size_t` values. -/
def mul64 (a b : Nat) : Nat := (a * b) % U64

/-- The macro `MAX(x, y)`. -/
def MAX (x y : Nat) : Nat := if x > y then x else y

/-- The macro `PACK(size, alloc)`. -/
def PACK (size alloc : Nat) : Nat := size ||| alloc

/-- Memory: one 64-bit word per accessed address. -/
abbrev Mem := Nat → Nat

/-- The macro `GET(p)`: read the word at address `p`. -/
def GET (m : Mem) (p : Nat) : Nat := m p % U64

/-- The macro `PUT(p, val)`: write the word at address `p`. -/
def PUT (m : Mem) (p val : Nat) : Mem := fun a => if a = p then val % U64 else m a

/-- The macro `GET_SIZE(p)`: `GET(p) & ~(DSIZE - 1)`. -/
def GET_SIZE (m : Mem) (p : Nat) : Nat := GET m p &&& (U64 - 1 - (DSIZE - 1))

/-- The macro `GET_ALLOC(p)`: `GET(p) & 0x1`. -/
def GET_ALLOC (m : Mem) (p : Nat) : Nat := GET m p &&& 1

/-- The macro `GET_PREV_ALLOC(p)`: `GET(p) & 0x2`. -/
def GET_PREV_ALLOC (m : Mem) (p : Nat) : Nat := GET m p &&& 2

/-- The macro `HDRP(bp)`. -/
def HDRP (bp : Nat) : Nat := sub64 bp WSIZE

/-- The macro `FTRP(bp)`. -/
def FTRP (m : Mem) (bp : Nat) : Nat := sub64 (add64 bp (GET_SIZE m (HDRP bp))) DSIZE

/-- The macro `NEXT_BLKP(bp)`. -/
def NEXT_BLKP (m : Mem) (bp : Nat) : Nat := add64 bp (GET_SIZE m (sub64 bp WSIZE))

/-- The macro `PREV_BLKP(bp)`. -/
def PREV_BLKP (m : Mem) (bp : Nat) : Nat := sub64 bp (GET_SIZE m (sub64 bp DSIZE))

/-! ## State and the growth primitive -/

/-- The allocator state: memory, the global `heap_listp`, and the state of the
growth primitive (current break and the first address it may not hand out). -/
structure Heap where
  mem : Mem
  heap_listp : Nat
  brk : Nat
  max_addr : Nat

/-- Modelled from the spec: `mem_sbrk` of `memlib.h` is not part of the
sources.  It extends the address range monotonically by `incr` bytes and
returns the base of the new region, or fails with `(void *)-1` on exhaustion,
never touching memory it handed out before. -/
def mem_sbrk (h : Heap) (incr : Nat) : Nat × Heap :=
  if h.brk + incr ≤ h.max_addr then (h.brk, { h with brk := h.brk + incr })
  else (SBRK_FAIL, h)

/-! ## Internal helper routines -/

/-- The routine `coalesce(bp)`: boundary tag coalescing of the newly freed block `bp`. -/
def coalesce (m : Mem) (bp : Nat) : Nat × Mem :=
  let prev_alloc := GET_PREV_ALLOC m (HDRP bp)
  let next_alloc := GET_ALLOC m (HDRP (NEXT_BLKP m bp))
  let size := GET_SIZE m (HDRP bp)
  if prev_alloc ≠ 0 ∧ next_alloc ≠ 0 then
    (bp, m)
  else if prev_alloc ≠ 0 ∧ ¬ next_alloc ≠ 0 then
    let size := add64 size (GET_SIZE m (HDRP (NEXT_BLKP m bp)))
    let m1 := PUT m (HDRP bp) (PACK size 2)
    let m2 := PUT m1 (FTRP m1 bp) (PACK size 2)
    (bp, m2)
  else if ¬ prev_alloc ≠ 0 ∧ next_alloc ≠ 0 then
    let size := add64 size (GET_SIZE m (HDRP (PREV_BLKP m bp)))
    let m1 := PUT m (FTRP m bp) (PACK size 2)
    let m2 := PUT m1 (HDRP (PREV_BLKP m1 bp)) (PACK size 2)
    (PREV_BLKP m2 bp, m2)
  else
    let size := add64 size (add64 (GET_SIZE m (HDRP (PREV_BLKP m bp)))
      (GET_SIZE m (FTRP m (NEXT_BLKP m bp))))
    let m1 := PUT m (HDRP (PREV_BLKP m bp)) (PACK size 2)
    let m2 := PUT m1 (FTRP m1 (NEXT_BLKP m1 bp)) (PACK size 2)
    (PREV_BLKP m2 bp, m2)

/-- The routine `extend_heap(words)`: extend the heap with a free block. -/
def extend_heap (h : Heap) (words : Nat) : Nat × Heap :=
  let size := if words % 2 ≠ 0 then mul64 (add64 words 1) WSIZE else mul64 words WSIZE
  let r := mem_sbrk h size
  let bp := r.1
  if bp = SBRK_FAIL then
    (NULL, r.2)
  else
    let m := r.2.mem
    let prev_alloc := GET_PREV_ALLOC m (HDRP bp)
    let m2 :=
      if ¬ prev_alloc ≠ 0 then
        let m1 := PUT m (HDRP bp) (PACK size 0)
        PUT m1 (FTRP m1 bp) (PACK size 0)
      else
        let m1 := PUT m (HDRP bp) (PACK size 2)
        PUT m1 (FTRP m1 bp) (PACK size 2)
    let m3 := PUT m2 (HDRP (NEXT_BLKP m2 bp)) (PACK 0 1)
    let c := coalesce m3 bp
    (c.1, { r.2 with mem := c.2 })

/-- The bound on the number of iterations of a scan that stops. -/
def FUEL : Nat := 1152921504606846976

/-- The loop of `find_fit`, started at `bp`. -/
def find_fit_loop (m : Mem) (asize : Nat) : Nat → Nat → Option Nat
  | 0, _ => none
  | fuel + 1, bp =>
    if GET_SIZE m (HDRP bp) > 0 then
      if ¬ GET_ALLOC m (HDRP bp) ≠ 0 ∧ asize ≤ GET_SIZE m (HDRP bp) then
        some bp
      else
        find_fit_loop m asize fuel (NEXT_BLKP m bp)
    else
      some NULL

/-- The routine `find_fit(asize)`: first-fit search from `heap_listp`. -/
def find_fit (h : Heap) (asize : Nat) : Option Nat :=
  find_fit_loop h.mem asize FUEL h.heap_listp

/-- The routine `place(bp, asize)`. -/
def place (m : Mem) (bp asize : Nat) : Mem :=
  let csize := GET_SIZE m (HDRP bp)
  if sub64 csize asize ≥ 2 * WSIZE then
    let prev_alloc := GET_PREV_ALLOC m (HDRP bp)
    let m1 := if ¬ prev_alloc ≠ 0 then PUT m (HDRP bp) (PACK asize 1)
              else PUT m (HDRP bp) (PACK asize 3)
    let bp1 := NEXT_BLKP m1 bp
    let m2 := PUT m1 (HDRP bp1) (PACK (sub64 csize asize) 2)
    PUT m2 (FTRP m2 bp1) (PACK (sub64 csize asize) 2)
  else
    let prev_alloc := GET_PREV_ALLOC m (HDRP bp)
    let m1 := if ¬ prev_alloc ≠ 0 then PUT m (HDRP bp) (PACK csize 1)
              else PUT m (HDRP bp) (PACK csize 3)
    let next := NEXT_BLKP m1 bp
    let size_next := GET_SIZE m1 (HDRP next)
    let next_alloc := GET_ALLOC m1 (HDRP next)
    if ¬ next_alloc ≠ 0 then
      let m2 := PUT m1 (HDRP next) (PACK size_next 2)
      PUT m2 (FTRP m2 next) (PACK size_next 2)
    else
      PUT m1 (HDRP next) (PACK size_next 3)

/-! ## Public operations -/

/-- The operation `mm_init()`: returns `0` on success and `-1` otherwise. -/
def mm_init (h : Heap) : Int × Heap :=
  let r := mem_sbrk h (4 * WSIZE)
  let p := r.1
  if p = SBRK_FAIL then
    (-1, { r.2 with heap_listp := p })
  else
    let m1 := PUT r.2.mem p 0
    let m2 := PUT m1 (add64 p (1 * WSIZE)) (PACK DSIZE 1)
    let m3 := PUT m2 (add64 p (2 * WSIZE)) (PACK DSIZE 1)
    let m4 := PUT m3 (add64 p (3 * WSIZE)) (PACK 0 1)
    let h1 : Heap := { r.2 with mem := m4, heap_listp := add64 p (2 * WSIZE) }
    let e := extend_heap h1 (CHUNKSIZE / WSIZE)
    if e.1 = NULL then (-1, e.2) else (0, e.2)

/-- The adjusted block size computed by `mm_malloc` and `mm_realloc` from the
requested size (overhead and alignment), in `size_t` arithmetic. -/
def adjust (size : Nat) : Nat :=
  if add64 size WSIZE % DSIZE = 0 then add64 size WSIZE
  else mul64 (add64 (add64 size WSIZE / DSIZE) 1) DSIZE

/-- The operation `mm_malloc(size)`.  The result `none`: the scan of `find_fit` does
not stop. -/
def mm_malloc (h : Heap) (size : Nat) : Option (Nat × Heap) :=
  if size = 0 then
    some (NULL, h)
  else
    let asize := adjust size
    match find_fit h asize with
    | none => none
    | some bp =>
      if bp ≠ NULL then
        some (bp, { h with mem := place h.mem bp asize })
      else
        let extendsize := MAX asize CHUNKSIZE
        let e := extend_heap h (extendsize / WSIZE)
        if e.1 = NULL then
          some (NULL, e.2)
        else
          some (e.1, { e.2 with mem := place e.2.mem e.1 asize })

/-- The marking phase of `mm_free`, lines 195-212 of `mm.c`: the block gets a
free header and footer that keep its predecessor bit, and the predecessor bit
of the next block is cleared. -/
def free_mark (m : Mem) (bp : Nat) : Mem :=
  let size := GET_SIZE m (HDRP bp)
  let prev_alloc := GET_PREV_ALLOC m (HDRP bp)
  let m2 :=
    if ¬ prev_alloc ≠ 0 then
      let m1 := PUT m (HDRP bp) (PACK size 0)
      PUT m1 (FTRP m1 bp) (PACK size 0)
    else
      let m1 := PUT m (HDRP bp) (PACK size 2)
      PUT m1 (FTRP m1 bp) (PACK size 2)
  let next := NEXT_BLKP m2 bp
  let size_next := GET_SIZE m2 (HDRP next)
  let next_alloc := GET_ALLOC m2 (HDRP next)
  if ¬ next_alloc ≠ 0 then
    let m3 := PUT m2 (HDRP next) (PACK size_next 0)
    PUT m3 (FTRP m3 next) (PACK size_next 0)
  else
    PUT m2 (HDRP next) (PACK size_next 1)

/-- The operation `mm_free(bp)`. -/
def mm_free (h : Heap) (bp : Nat) : Heap :=
  if bp = NULL then
    h
  else
    { h with mem := (coalesce (free_mark h.mem bp) bp).2 }

/-- The call `memcpy(dst, src, n)` on non-overlapping regions: `n / 8` whole words and,
when `n` is not a multiple of 8, the low `n % 8` bytes of the next word
(little-endian), whose high bytes keep the destination's value. -/
def memcpy (m : Mem) (dst src n : Nat) : Mem := fun a =>
  if dst ≤ a ∧ a < dst + n / 8 * 8 ∧ (a - dst) % 8 = 0 then GET m (src + (a - dst))
  else if a = dst + n / 8 * 8 ∧ n % 8 ≠ 0 then
    GET m (src + n / 8 * 8) % 256 ^ (n % 8) + GET m a / 256 ^ (n % 8) * 256 ^ (n % 8)
  else m a

/-- The shrinking branch of `mm_realloc` (`oldsize > asize` and the difference
above `MINIMUM`), lines 254-270 of `mm.c`. -/
def realloc_shrink (m : Mem) (ptr oldsize asize : Nat) : Mem :=
  let prev_alloc := GET_PREV_ALLOC m (HDRP ptr)
  let m1 := if ¬ prev_alloc ≠ 0 then PUT m (HDRP ptr) (PACK asize 1)
            else PUT m (HDRP ptr) (PACK asize 3)
  let m2 := PUT m1 (HDRP ptr) (PACK (sub64 oldsize asize) 2)
  let m3 := PUT m2 (FTRP m2 ptr) (PACK (sub64 oldsize asize) 2)
  let next := NEXT_BLKP m3 ptr
  let next_alloc := GET_ALLOC m3 (HDRP next)
  let size_next := GET_SIZE m3 (HDRP next)
  if ¬ next_alloc ≠ 0 then
    let m4 := PUT m3 (HDRP ptr) (PACK size_next 0)
    PUT m4 (FTRP m4 ptr) (PACK size_next 0)
  else
    PUT m3 (HDRP ptr) (PACK size_next 1)

/-- The in-place growth of `mm_realloc` once the free successor is known to
be large enough, lines 277-305 of `mm.c`; `oldsize` is already the sum. -/
def realloc_absorb (m : Mem) (ptr oldsize asize : Nat) : Mem :=
  if sub64 oldsize asize ≥ 2 * WSIZE then
    let prev_alloc := GET_PREV_ALLOC m (HDRP ptr)
    let m1 := if ¬ prev_alloc ≠ 0 then PUT m (HDRP ptr) (PACK asize 1)
              else PUT m (HDRP ptr) (PACK asize 3)
    let next := NEXT_BLKP m1 ptr
    let m2 := PUT m1 (HDRP next) (PACK (sub64 oldsize asize) 2)
    PUT m2 (FTRP m2 next) (PACK (sub64 oldsize asize) 2)
  else
    let prev_alloc := GET_PREV_ALLOC m (HDRP ptr)
    let m1 := if ¬ prev_alloc ≠ 0 then PUT m (HDRP ptr) (PACK oldsize 1)
              else PUT m (HDRP ptr) (PACK oldsize 3)
    let next := NEXT_BLKP m1 ptr
    let size_next := GET_SIZE m1 (HDRP next)
    let next_alloc := GET_ALLOC m1 (HDRP next)
    if ¬ next_alloc ≠ 0 then
      let m2 := PUT m1 (HDRP next) (PACK size_next 2)
      PUT m2 (FTRP m2 next) (PACK size_next 2)
    else
      PUT m1 (HDRP next) (PACK size_next 3)

/-- The relocating tail of `mm_realloc`, lines 308-322 of `mm.c`. -/
def realloc_move (h : Heap) (ptr size oldsize : Nat) : Option (Nat × Heap) :=
  match mm_malloc h size with
  | none => none
  | some r =>
    let newptr := r.1
    if newptr = NULL then
      some (NULL, r.2)
    else
      let oldsize := if size < oldsize then size else oldsize
      let h1 : Heap := { r.2 with mem := memcpy r.2.mem newptr ptr oldsize }
      some (newptr, mm_free h1 ptr)

/-- The operation `mm_realloc(ptr, size)`. -/
def mm_realloc (h : Heap) (ptr size : Nat) : Option (Nat × Heap) :=
  if size = 0 then
    some (NULL, mm_free h ptr)
  else if ptr = NULL then
    mm_malloc h size
  else
    let oldsize := GET_SIZE h.mem (HDRP ptr)
    let asize := adjust size
    if oldsize = asize then
      some (ptr, h)
    else if oldsize > asize ∧ sub64 oldsize asize ≤ MINIMUM then
      some (ptr, h)
    else
      let m := if oldsize > asize then realloc_shrink h.mem ptr oldsize asize else h.mem
      let next := NEXT_BLKP m ptr
      let next_alloc := GET_ALLOC m (HDRP next)
      let size_next := GET_SIZE m (HDRP next)
      if ¬ next_alloc ≠ 0 ∧ add64 size_next oldsize ≥ asize then
        some (ptr, { h with mem := realloc_absorb m ptr (add64 oldsize size_next) asize })
      else
        realloc_move { h with mem := m } ptr size oldsize

/-! ## Observations used by the statements -/

/-- The blocks met by the address-ordered walk of `find_fit` and `checkheap`,
`for (bp = heap_listp; GET_SIZE(HDRP(bp)) > 0; bp = NEXT_BLKP(bp))`, each as
`(bp, size, allocated bit)`.  `none`: the walk does not stop. -/
def walk (m : Mem) : Nat → Nat → Option (List (Nat × Nat × Nat))
  | 0, _ => none
  | fuel + 1, bp =>
    if GET_SIZE m (HDRP bp) > 0 then
      (walk m fuel (NEXT_BLKP m bp)).map
        (fun l => (bp, GET_SIZE m (HDRP bp), GET_ALLOC m (HDRP bp)) :: l)
    else
      some []

/-- The walk from the heap start to the epilogue. -/
def heap_blocks (h : Heap) : Option (List (Nat × Nat × Nat)) := walk h.mem FUEL h.heap_listp

/-- Whether `p` is the payload pointer of a block of the walk whose allocated
bit is set. -/
def allocated (h : Heap) (p : Nat) : Bool :=
  match heap_blocks h with
  | some l => l.any (fun b => decide (b.1 = p ∧ b.2.2 ≠ 0))
  | none => false

/-- Whether a walk has two consecutive blocks that are both free. -/
def adjacent_free : List (Nat × Nat × Nat) → Bool
  | x :: y :: l => (decide (x.2.2 = 0 ∧ y.2.2 = 0)) || adjacent_free (y :: l)
  | _ => false

/-- The byte at address `x` (little-endian, word cells at multiples of 8). -/
def load_byte (m : Mem) (x : Nat) : Nat := GET m (x - x % 8) / 256 ^ (x % 8) % 256

/-- The caller stores the word `v` at address `x`. -/
def store (h : Heap) (x v : Nat) : Heap := { h with mem := PUT h.mem x v }

/-- The caller stores the word `v` into `k` consecutive words from `x`. -/
def fill (h : Heap) (x v : Nat) : Nat → Heap
  | 0 => h
  | k + 1 => fill (store h x v) (x + WSIZE) v k

/-- The request sizes whose adjusted size is computed without overflow. -/
def Fits (s : Nat) : Prop := s + WSIZE + DSIZE ≤ U64

instance (s : Nat) : Decidable (Fits s) := by unfold Fits; infer_instance

/-- The calls of `mm_realloc` that take the shrinking branch with a split:
a real block, a non-zero size, and an adjusted size more than `MINIMUM` below
the block size. -/
def Shrinks (h : Heap) (ptr size : Nat) : Prop :=
  size ≠ 0 ∧ ptr ≠ NULL ∧ GET_SIZE h.mem (HDRP ptr) > adjust size ∧
    ¬ sub64 (GET_SIZE h.mem (HDRP ptr)) (adjust size) ≤ MINIMUM

instance (h : Heap) (ptr size : Nat) : Decidable (Shrinks h ptr size) := by
  unfold Shrinks; infer_instance

/-! ## Block lists -/

/-- An abstract block: its size and whether it is allocated. -/
structure Blk where
  size : Nat
  alloc : Bool
deriving DecidableEq, Repr

/-- The header word of a block: size, allocated bit, predecessor-allocated bit. -/
def hd (size : Nat) (alloc prev : Bool) : Nat :=
  size + (if alloc then 1 else 0) + (if prev then 2 else 0)

/-- The blocks `bs` are laid out from payload pointer `p` to payload pointer
`e`, the first one preceded by a block whose allocated state is `pa`: sizes are
multiples of 16 and at least 16 (I1), a free block has a footer equal to its
header (I2) and an allocated predecessor (I3), every header records the
allocated state of the predecessor (I4). -/
def Seg (m : Mem) : Nat → Bool → List Blk → Nat → Prop
  | p, _, [], e => p = e
  | p, pa, b :: bs, e =>
    16 ≤ b.size ∧ b.size % 16 = 0 ∧ GET m (p - 8) = hd b.size b.alloc pa ∧
    (b.alloc = false → pa = true ∧ GET m (p + b.size - 16) = hd b.size false true) ∧
    Seg m (p + b.size) b.alloc bs e

/-- The allocated state of the last block of `bs`, `pa` when there is none. -/
def lastA (pa : Bool) : List Blk → Bool
  | [] => pa
  | b :: bs => lastA b.alloc bs

/-- The total size of the blocks. -/
def total : List Blk → Nat
  | [] => 0
  | b :: bs => b.size + total bs

/-- A segment closed by the epilogue header, the word before `e`. -/
def Chain (m : Mem) (p : Nat) (pa : Bool) (bs : List Blk) (e : Nat) : Prop :=
  Seg m p pa bs e ∧ GET m (e - 8) = hd 0 true (lastA pa bs)

/-- The walk that a block list stands for, from payload pointer `bp`. -/
def concr (bp : Nat) : List Blk → List (Nat × Nat × Nat)
  | [] => []
  | b :: bs => (bp, b.size, if b.alloc then 1 else 0) :: concr (bp + b.size) bs

/-- Well-formed heap with block list `bs`: the blocks from `heap_listp` to the
epilogue header satisfy I1-I4, the first one counting as preceded by an
allocated block, and the heap lies below `2 ^ 64`. -/
def WF (h : Heap) (bs : List Blk) : Prop :=
  8 ≤ h.heap_listp ∧ Chain h.mem h.heap_listp true bs h.brk ∧
    h.brk ≤ h.max_addr ∧ h.max_addr < U64

instance Seg.dec (m : Mem) :
    (bs : List Blk) → (p : Nat) → (pa : Bool) → (e : Nat) → Decidable (Seg m p pa bs e)
  | [], p, _, e => inferInstanceAs (Decidable (p = e))
  | b :: bs, p, pa, e =>
    have := Seg.dec m bs (p + b.size) b.alloc e
    inferInstanceAs (Decidable (16 ≤ b.size ∧ b.size % 16 = 0 ∧
      GET m (p - 8) = hd b.size b.alloc pa ∧
      (b.alloc = false → pa = true ∧ GET m (p + b.size - 16) = hd b.size false true) ∧
      Seg m (p + b.size) b.alloc bs e))

instance (m : Mem) (p : Nat) (pa : Bool) (bs : List Blk) (e : Nat) :
    Decidable (Chain m p pa bs e) := by
  unfold Chain; infer_instance

instance (h : Heap) (bs : List Blk) : Decidable (WF h bs) := by
  unfold WF; infer_instance

/-- The states reached from a successful `mm_init` by calls of `mm_malloc`
(size adjusted without overflow), `mm_free` (of `NULL` or an allocated block),
`mm_realloc` (same arguments, not shrinking with a split) and by stores of the
caller into the payload of an allocated block. -/
inductive Reachable : Heap → Prop
  | init (h : Heap) (hmax : h.max_addr < U64) (hok : (mm_init h).1 = 0) :
      Reachable (mm_init h).2
  | malloc {h : Heap} (s p : Nat) (h' : Heap) (hr : Reachable h) (hs : Fits s)
      (hm : mm_malloc h s = some (p, h')) : Reachable h'
  | free {h : Heap} (p : Nat) (hr : Reachable h) (hp : p = NULL ∨ allocated h p = true) :
      Reachable (mm_free h p)
  | realloc {h : Heap} (p s q : Nat) (h' : Heap) (hr : Reachable h)
      (hp : p = NULL ∨ allocated h p = true) (hs : Fits s) (hn : ¬ Shrinks h p s)
      (hm : mm_realloc h p s = some (q, h')) : Reachable h'
  | store {h : Heap} (p x v : Nat) (hr : Reachable h) (hp : allocated h p = true)
      (h1 : p ≤ x) (h2 : x + WSIZE ≤ p + GET_SIZE h.mem (HDRP p) - WSIZE)
      (h3 : (x - p) % WSIZE = 0) : Reachable (store h x v)

/-- The size of the first block of a list, `0` (the epilogue's) when empty. -/
def nsize : List Blk → Nat
  | [] => 0
  | b :: _ => b.size

/-- The allocated state of the first block of a list, the epilogue's when
empty. -/
def headA : List Blk → Bool
  | [] => true
  | b :: _ => b.alloc

/-- First fit as the specification words it, on the address-ordered walk: the
first free block whose size is at least `asize`, `NULL` when there is none. -/
def first_fit (l : List (Nat × Nat × Nat)) (asize : Nat) : Nat :=
  match l.find? (fun b => decide (b.2.2 = 0 ∧ asize ≤ b.2.1)) with
  | some b => b.1
  | none => NULL

/-- The blocks that `place` makes of a free block of size `c` for a request of
adjusted size `s`. -/
def placed (c s : Nat) : List Blk :=
  if s + 16 ≤ c then [⟨s, true⟩, ⟨c - s, false⟩] else [⟨c, true⟩]

/-- A free block of size `c`, no block when `c = 0`. -/
def fr (c : Nat) : List Blk := if c = 0 then [] else [⟨c, false⟩]

/-- The states reached from a successful `mm_init`, on a break that is a
multiple of `DSIZE`, by any calls at all: `mm_malloc`, `mm_free` and
`mm_realloc` with arbitrary arguments, and arbitrary stores of the caller. -/
inductive Called : Heap → Prop
  | init (h : Heap) (hb : h.brk % DSIZE = 0) (hok : (mm_init h).1 = 0) : Called (mm_init h).2
  | malloc {h : Heap} (s p : Nat) (h' : Heap) (hr : Called h)
      (hm : mm_malloc h s = some (p, h')) : Called h'
  | free {h : Heap} (p : Nat) (hr : Called h) : Called (mm_free h p)
  | realloc {h : Heap} (p s q : Nat) (h' : Heap) (hr : Called h)
      (hm : mm_realloc h p s = some (q, h')) : Called h'
  | store {h : Heap} (x v : Nat) (hr : Called h) : Called (store h x v)

/-- The heap start and the break are multiples of `DSIZE`. -/
def Aligned (h : Heap) : Prop := h.heap_listp % DSIZE = 0 ∧ h.brk % DSIZE = 0

/-- The size of the block before `p` when the header of `p` says it is free,
`0` otherwise. -/
def pred_free_size (h : Heap) (p : Nat) : Nat :=
  if GET_PREV_ALLOC h.mem (HDRP p) = 0 then GET_SIZE h.mem (HDRP (PREV_BLKP h.mem p)) else 0

/-- The size of the block after `p` when it is free, `0` otherwise. -/
def succ_free_size (h : Heap) (p : Nat) : Nat :=
  if GET_ALLOC h.mem (HDRP (NEXT_BLKP h.mem p)) = 0 then
    GET_SIZE h.mem (HDRP (NEXT_BLKP h.mem p))
  else 0

/-! ## Concrete states -/

/-- A fresh process: zeroed memory, break at 4096, one megabyte available. -/
def boot : Heap := { mem := fun _ => 0, heap_listp := 0, brk := 4096, max_addr := 1052672 }

/-- The state after `mm_init()`. -/
def heap0 : Heap := (mm_init boot).2

/-- The result of a call that stops, `(NULL, h)` standing for one that does not. -/
def run (h : Heap) (r : Option (Nat × Heap)) : Nat × Heap := r.getD (NULL, h)

/-- The state after `p1 = mm_malloc(100)`. -/
def heap1 : Heap := (run heap0 (mm_malloc heap0 100)).2

/-- The state after the caller zeroes the 104 payload bytes of `p1`. -/
def heap1z : Heap := fill heap1 4112 0 13

/-- Scenario A: the state after `p2 = mm_malloc(200)`. -/
def heapA2 : Heap := (run heap1 (mm_malloc heap1 200)).2

/-- Scenario A: the state after `mm_free(p1)`. -/
def heapA3 : Heap := mm_free heapA2 4112

/-- Scenario B: the state after three calls `mm_malloc(50)`, which return
4112, 4176 and 4240. -/
def heapB3 : Heap :=
  (run heap0 (mm_malloc (run heap0 (mm_malloc (run heap0 (mm_malloc heap0 50)).2 50)).2 50)).2

/-- Scenario B: the state after `mm_free(p2)`. -/
def heapB4 : Heap := mm_free heapB3 4176

/-- The state after `mm_realloc(p1, 200)` on `heap1`, which grows in place. -/
def heapR : Heap := (run heap1 (mm_realloc heap1 4112 200)).2

/-! ## The consistency checker -/

/-- The lines that the consistency checker prints. -/
inductive Msg where
  | heap_line (p : Nat)
  | bad_prologue
  | not_aligned (bp : Nat)
  | mismatch
  | end_of_heap (bp : Nat)
  | block_line (bp hsize halloc fsize falloc : Nat)
  | bad_epilogue
deriving DecidableEq, Repr

/-- The routine `checkblock(bp)`: the alignment test and the comparison of the
header word with the word at the footer position. -/
def checkblock (m : Mem) (bp : Nat) : List Msg :=
  (if bp % DSIZE ≠ 0 then [Msg.not_aligned bp] else []) ++
    (if GET m (HDRP bp) ≠ GET m (FTRP m bp) then [Msg.mismatch] else [])

/-- The loop of `checkheap`, started at `bp`: the lines printed and the block
pointer on which the loop stops.  `pb` stands for `if (verbose) printblock(bp)`. -/
def checkheap_loop (m : Mem) (pb : Nat → Option (List Msg)) :
    Nat → Nat → Option (List Msg × Nat)
  | 0, _ => none
  | fuel + 1, bp =>
    if GET_SIZE m (HDRP bp) > 0 then
      match pb bp, checkheap_loop m pb fuel (NEXT_BLKP m bp) with
      | some o, some r => some (o ++ checkblock m bp ++ r.1, r.2)
      | _, _ => none
    else
      some ([], bp)

/-- The body of `checkheap(verbose)`, the calls of `printblock` being `pb`. -/
def checkheap_body (h : Heap) (verbose : Bool) (pb : Nat → Option (List Msg)) :
    Option (List Msg) :=
  let o1 := if verbose then [Msg.heap_line h.heap_listp] else []
  let o2 :=
    if GET_SIZE h.mem (HDRP h.heap_listp) ≠ DSIZE ∨ ¬ GET_ALLOC h.mem (HDRP h.heap_listp) ≠ 0
    then [Msg.bad_prologue] else []
  let o3 := checkblock h.mem h.heap_listp
  match checkheap_loop h.mem (if verbose then pb else fun _ => some []) FUEL h.heap_listp with
  | none => none
  | some r =>
    match (if verbose then pb r.2 else some []) with
    | none => none
    | some o5 =>
      let o6 :=
        if GET_SIZE h.mem (HDRP r.2) ≠ 0 ∨ ¬ GET_ALLOC h.mem (HDRP r.2) ≠ 0
        then [Msg.bad_epilogue] else []
      some (o1 ++ o2 ++ o3 ++ r.1 ++ o5 ++ o6)

/-- The routine `printblock(bp)`, which first runs `checkheap(false)`. -/
def printblock (h : Heap) (bp : Nat) : Option (List Msg) :=
  (checkheap_body h false (fun _ => some [])).map (fun o =>
    let hsize := GET_SIZE h.mem (HDRP bp)
    let halloc := GET_ALLOC h.mem (HDRP bp)
    let fsize := GET_SIZE h.mem (FTRP h.mem bp)
    let falloc := GET_ALLOC h.mem (FTRP h.mem bp)
    if hsize = 0 then o ++ [Msg.end_of_heap bp]
    else o ++ [Msg.block_line bp hsize halloc fsize falloc])

/-- The routine `checkheap(verbose)`.  It only reads the heap: the result is
the lines printed, `none` when the walk does not stop. -/
def checkheap (h : Heap) (verbose : Bool) : Option (List Msg) :=
  checkheap_body h verbose (printblock h)

/-! ## Further observations -/

/-- The headers met by the walk from `bp`, the header on which the walk stops
(the epilogue header) included, each as `(bp, allocated bit,
predecessor-allocated bit)`. -/
def walk_bits (m : Mem) : Nat → Nat → Option (List (Nat × Nat × Nat))
  | 0, _ => none
  | fuel + 1, bp =>
    if GET_SIZE m (HDRP bp) > 0 then
      (walk_bits m fuel (NEXT_BLKP m bp)).map
        (fun l => (bp, GET_ALLOC m (HDRP bp), GET_PREV_ALLOC m (HDRP bp)) :: l)
    else
      some [(bp, GET_ALLOC m (HDRP bp), GET_PREV_ALLOC m (HDRP bp))]

/-- The headers from the heap start to the epilogue header. -/
def heap_bits (h : Heap) : Option (List (Nat × Nat × Nat)) := walk_bits h.mem FUEL h.heap_listp

/-- Invariant I4 on a list of headers: the predecessor-allocated bit of each
header but the first is set exactly when the allocated bit of the header before
it is set. -/
def prev_bits_ok : List (Nat × Nat × Nat) → Bool
  | x :: y :: l => decide (y.2.2 ≠ 0 ↔ x.2.1 ≠ 0) && prev_bits_ok (y :: l)
  | _ => true

/-- The states reached from a successful `mm_init` on `h0` by calls of
`mm_malloc`, of any size, and of `mm_free`, of `NULL` or of an allocated
block. -/
inductive Served (h0 : Heap) : Heap → Prop
  | init (hmax : h0.max_addr < U64) (hok : (mm_init h0).1 = 0) : Served h0 (mm_init h0).2
  | malloc {h : Heap} (s p : Nat) (h' : Heap) (hr : Served h0 h)
      (hm : mm_malloc h s = some (p, h')) : Served h0 h'
  | free {h : Heap} (p : Nat) (hr : Served h0 h) (hp : p = NULL ∨ allocated h p = true) :
      Served h0 (mm_free h p)

/-- A process whose growth primitive is exhausted by `mm_init`: zeroed memory,
break at 4096, and 4128 bytes available. -/
def tight : Heap := { mem := fun _ => 0, heap_listp := 0, brk := 4096, max_addr := 8224 }

/-- The state after `mm_init()` on `tight`. -/
def heapT0 : Heap := (mm_init tight).2

/-- The state after `p = mm_malloc(100)` on `heapT0`, which returns 4112. -/
def heapT1 : Heap := (run heapT0 (mm_malloc heapT0 100)).2

/-- The state after the caller stores the word 1 at offset 40 of the payload
of `p`. -/
def heapT1s : Heap := store heapT1 4152 1

/-- The headers that a block list stands for, from payload pointer `bp` with
predecessor state `pa`, closed by the epilogue header. -/
def cbits (bp : Nat) (pa : Bool) : List Blk → List (Nat × Nat × Nat)
  | [] => [(bp, 1, if pa then 2 else 0)]
  | b :: bs =>
    (bp, (if b.alloc then 1 else 0), (if pa then 2 else 0)) :: cbits (bp + b.size) b.alloc bs

/-- Whether the walk from the heap start meets the block `bp` with the given
size and allocated bit. -/
def block_at (h : Heap) (bp size alloc : Nat) : Bool :=
  match heap_blocks h with
  | some l => decide ((bp, size, alloc) ∈ l)
  | none => false

/-- The state after `mm_malloc(2^64 - 8)` on `heap1`, a size whose adjusted
size wraps to 0, followed by `mm_free(p1)`. -/
def heapS : Heap := mm_free (run heap1 (mm_malloc heap1 (U64 - 8))).2 4112

/-- The state after `q0 = mm_malloc(2^64 - 8)` on `heap0`, a size whose adjusted
size wraps to 0; the call returns 4112. -/
def heapV0 : Heap := (run heap0 (mm_malloc heap0 (U64 - 8))).2

/-- The state after `mm_free(q0)` on `heapS`, where `q0 = 4224` is the pointer
that `mm_malloc(2^64 - 8)` returned. -/
def heapS2 : Heap := mm_free heapS 4224

/-- The state after `b = mm_malloc(304)` on `heapS`, which returns 4112. -/
def heapW1 : Heap := (run heapS (mm_malloc heapS 304)).2

/-- The state after `c = mm_malloc(100)` on `heapW1`, which returns 4432. -/
def heapW2 : Heap := (run heapW1 (mm_malloc heapW1 100)).2

/-- The state after `mm_free(q0)` on `heapW2`, where `q0 = 4224` is the pointer
that `mm_malloc(2^64 - 8)` returned. -/
def heapW3 : Heap := mm_free heapW2 4224

/-! ## Word arithmetic and the header codec -/

theorem U64_val : U64 = 18446744073709551616 := rfl

theorem U64_pow : U64 = 2 ^ 64 := by decide

theorem WSIZE_val : WSIZE = 8 := rfl

theorem DSIZE_val : DSIZE = 16 := rfl

theorem land_mask (w : Nat) (h : w < U64) : w &&& (U64 - 1 - (DSIZE - 1)) = w / 16 * 16 := by
  have hM : U64 - 1 - (DSIZE - 1) = 2 ^ 4 * (2 ^ 60 - 1) := by decide
  have hR : w / 16 * 16 = 2 ^ 4 * (w >>> 4) := by
    rw [Nat.shiftRight_eq_div_pow]; omega
  rw [hM, hR]
  apply Nat.eq_of_testBit_eq
  intro i
  rw [Nat.testBit_and, Nat.testBit_mul_pow_two, Nat.testBit_mul_pow_two,
    Nat.testBit_two_pow_sub_one, Nat.testBit_shiftRight]
  by_cases h4 : 4 ≤ i
  · have e : 4 + (i - 4) = i := by omega
    rw [e]
    by_cases h64 : i < 64
    · have : i - 4 < 60 := by omega
      simp [h4, this]
    · have hw : w.testBit i = false := by
        apply Nat.testBit_lt_two_pow
        calc w < 2 ^ 64 := by rw [U64_pow] at h; exact h
          _ ≤ 2 ^ i := Nat.pow_le_pow_right (by decide) (by omega)
      simp [hw]
  · simp [h4]

theorem land_two (w : Nat) : w &&& 2 = w / 2 % 2 * 2 := by
  have hR : w / 2 % 2 * 2 = 2 ^ 1 * ((w >>> 1) % 2 ^ 1) := by
    rw [Nat.shiftRight_eq_div_pow]; omega
  have h2 : (2 : Nat) = 2 ^ 1 := by decide
  rw [hR]
  nth_rewrite 1 [h2]
  apply Nat.eq_of_testBit_eq
  intro i
  rw [Nat.testBit_and, Nat.testBit_two_pow, Nat.testBit_mul_pow_two, Nat.testBit_mod_two_pow,
    Nat.testBit_shiftRight]
  by_cases h1 : i = 1
  · subst h1; simp
  · by_cases h0 : i = 0
    · subst h0; simp
    · have : ¬ (i - 1 < 1) := by omega
      simp [this, Ne.symm h1]

theorem lor_add (s k : Nat) (hs : s % 16 = 0) (hk : k < 16) : s ||| k = s + k := by
  have e : s = 2 ^ 4 * (s / 16) := by omega
  rw [e]
  exact (Nat.mul_add_lt_is_or (by omega) _).symm

theorem GET_lt (m : Mem) (p : Nat) : GET m p < U64 := Nat.mod_lt _ (by decide)

theorem add64_eq {a b : Nat} (h : a + b < U64) : add64 a b = a + b := Nat.mod_eq_of_lt h

theorem sub64_eq {a b : Nat} (hb : b ≤ a) (ha : a < U64) : sub64 a b = a - b := by
  unfold sub64; rw [U64_val] at *; omega

theorem mul64_eq {a b : Nat} (h : a * b < U64) : mul64 a b = a * b := Nat.mod_eq_of_lt h

theorem GET_PUT_same (m : Mem) (p v : Nat) : GET (PUT m p v) p = v % U64 := by
  simp [GET, PUT]

theorem GET_PUT_ne (m : Mem) {p q : Nat} (v : Nat) (h : q ≠ p) :
    GET (PUT m p v) q = GET m q := by
  simp [GET, PUT, h]

theorem GET_SIZE_eq (m : Mem) (p : Nat) : GET_SIZE m p = GET m p / 16 * 16 :=
  land_mask _ (GET_lt m p)

theorem GET_ALLOC_eq (m : Mem) (p : Nat) : GET_ALLOC m p = GET m p % 2 := Nat.and_one_is_mod _

theorem GET_PREV_ALLOC_eq (m : Mem) (p : Nat) : GET_PREV_ALLOC m p = GET m p / 2 % 2 * 2 :=
  land_two _

theorem PACK_eq {s k : Nat} (hs : s % 16 = 0) (hk : k < 16) : PACK s k = s + k :=
  lor_add s k hs hk

theorem size_of_word {s k : Nat} (hs : s % 16 = 0) (hk : k < 16) : (s + k) / 16 * 16 = s := by
  omega

theorem PUT_congr {m m' : Mem} {p p' v v' : Nat} (hm : m = m') (hp : p = p') (hv : v = v') :
    PUT m p v = PUT m' p' v' := by rw [hm, hp, hv]

theorem pair_congr {α β : Type} {a a' : α} {b b' : β} (ha : a = a') (hb : b = b') :
    (a, b) = (a', b') := by rw [ha, hb]

theorem size_of_word0 {s : Nat} (hs : s % 16 = 0) : s / 16 * 16 = s := by omega

/-! ## Symbolic execution of the helper routines on a described neighbourhood -/

theorem place_split (m : Mem) (bp c s : Nat) (hB : GET m (bp - 8) = c + 2) (hc : c % 16 = 0)
    (hs : s % 16 = 0) (h2 : s + 16 ≤ c) (h0 : 8 ≤ bp) (h3 : bp + c < U64) :
    place m bp s =
      PUT (PUT (PUT m (bp - 8) (s + 3)) (bp + s - 8) (c - s + 2)) (bp + c - 16) (c - s + 2) := by
  have hU := U64_val
  simp (disch := omega) only [place, HDRP, FTRP, NEXT_BLKP, WSIZE_val, DSIZE_val, add64_eq,
    sub64_eq, GET_SIZE_eq, GET_ALLOC_eq, GET_PREV_ALLOC_eq, GET_PUT_same, GET_PUT_ne, PACK_eq,
    Nat.mod_eq_of_lt, hB, if_pos, if_neg, size_of_word, size_of_word0, Nat.add_zero]
  repeat (first | rfl | apply PUT_congr)
  all_goals omega

theorem place_whole (m : Mem) (bp c n : Nat) (hB : GET m (bp - 8) = c + 2) (hc : c % 16 = 0)
    (h1 : 16 ≤ c) (hN : GET m (bp + c - 8) = n + 1) (hn : n % 16 = 0) (h0 : 8 ≤ bp)
    (h3 : bp + c < U64) :
    place m bp c = PUT (PUT m (bp - 8) (c + 3)) (bp + c - 8) (n + 3) := by
  have hU := U64_val
  have := GET_lt m (bp + c - 8)
  simp (disch := omega) only [place, HDRP, FTRP, NEXT_BLKP, WSIZE_val, DSIZE_val, add64_eq,
    sub64_eq, GET_SIZE_eq, GET_ALLOC_eq, GET_PREV_ALLOC_eq, GET_PUT_same, GET_PUT_ne, PACK_eq,
    Nat.mod_eq_of_lt, hB, hN, if_pos, if_neg, size_of_word, size_of_word0, Nat.add_zero]

theorem coalesce_case1 (m : Mem) (bp c n : Nat) (hB : GET m (bp - 8) = c + 2)
    (hc : c % 16 = 0) (hN : GET m (bp + c - 8) = n + 1) (hn : n % 16 = 0)
    (h0 : 8 ≤ bp) (h3 : bp + c < U64) : coalesce m bp = (bp, m) := by
  have hU := U64_val
  simp (disch := omega) only [coalesce, HDRP, NEXT_BLKP, WSIZE_val, add64_eq, sub64_eq,
    GET_SIZE_eq, GET_ALLOC_eq, GET_PREV_ALLOC_eq, hB, hN, if_pos, size_of_word, size_of_word0, Nat.add_zero]

theorem coalesce_case2 (m : Mem) (bp c n : Nat) (hB : GET m (bp - 8) = c + 2)
    (hc : c % 16 = 0) (hN : GET m (bp + c - 8) = n) (hn : n % 16 = 0) (h1 : 16 ≤ c + n)
    (h0 : 8 ≤ bp) (h3 : bp + c + n < U64) :
    coalesce m bp = (bp, PUT (PUT m (bp - 8) (c + n + 2)) (bp + c + n - 16) (c + n + 2)) := by
  have hU := U64_val
  simp (disch := omega) only [coalesce, HDRP, FTRP, NEXT_BLKP, WSIZE_val, DSIZE_val, add64_eq,
    sub64_eq, GET_SIZE_eq, GET_ALLOC_eq, GET_PREV_ALLOC_eq, GET_PUT_same, PACK_eq,
    Nat.mod_eq_of_lt, hB, hN, if_pos, if_neg, size_of_word, size_of_word0, Nat.add_zero]
  repeat (first | rfl | apply pair_congr | apply PUT_congr)
  all_goals omega

theorem coalesce_case3 (m : Mem) (bp c n psz k k' : Nat) (hB : GET m (bp - 8) = c)
    (hc : c % 16 = 0) (h1 : 16 ≤ c) (hN : GET m (bp + c - 8) = n + 1) (hn : n % 16 = 0)
    (hPf : GET m (bp - 16) = psz + k') (hP : GET m (bp - psz - 8) = psz + k)
    (hk : k < 16) (hk' : k' < 16) (hp : psz % 16 = 0) (hp1 : 16 ≤ psz) (h0 : psz + 8 ≤ bp) (h3 : bp + c < U64) :
    coalesce m bp =
      (bp - psz, PUT (PUT m (bp + c - 16) (c + psz + 2)) (bp - psz - 8) (c + psz + 2)) := by
  have hU := U64_val
  have e : c / 16 * 16 = c := by omega
  simp (disch := omega) only [coalesce, HDRP, FTRP, NEXT_BLKP, PREV_BLKP, WSIZE_val, DSIZE_val,
    add64_eq, sub64_eq, GET_SIZE_eq, GET_ALLOC_eq, GET_PREV_ALLOC_eq, GET_PUT_same, GET_PUT_ne,
    PACK_eq, Nat.mod_eq_of_lt, hB, hN, hPf, hP, if_pos, if_neg, size_of_word, e]

theorem coalesce_case4 (m : Mem) (bp c n psz k k' : Nat) (hB : GET m (bp - 8) = c)
    (hc : c % 16 = 0) (h1 : 16 ≤ c) (hN : GET m (bp + c - 8) = n) (hn : n % 16 = 0)
    (hn1 : 16 ≤ n) (hNf : GET m (bp + c + n - 16) = n)
    (hPf : GET m (bp - 16) = psz + k') (hP : GET m (bp - psz - 8) = psz + k)
    (hk : k < 16) (hk' : k' < 16) (hp : psz % 16 = 0) (hp1 : 16 ≤ psz) (h0 : psz + 8 ≤ bp)
    (h3 : bp + c + n < U64) :
    coalesce m bp =
      (bp - psz,
        PUT (PUT m (bp - psz - 8) (c + psz + n + 2)) (bp + c + n - 16) (c + psz + n + 2)) := by
  have hU := U64_val
  have e : c / 16 * 16 = c := by omega
  have e' : n / 16 * 16 = n := by omega
  simp (disch := omega) only [coalesce, HDRP, FTRP, NEXT_BLKP, PREV_BLKP, WSIZE_val, DSIZE_val,
    add64_eq, sub64_eq, GET_SIZE_eq, GET_ALLOC_eq, GET_PREV_ALLOC_eq, GET_PUT_same, GET_PUT_ne,
    PACK_eq, Nat.mod_eq_of_lt, hB, hN, hNf, hPf, hP, if_pos, if_neg, size_of_word, e, e']
  repeat (first | rfl | apply pair_congr | apply PUT_congr)
  all_goals omega

theorem free_mark_next_alloc (m : Mem) (bp c n f : Nat) (hf : f = 0 ∨ f = 2)
    (hB : GET m (bp - 8) = c + 1 + f) (hc : c % 16 = 0) (h1 : 16 ≤ c)
    (hN : GET m (bp + c - 8) = n + 3) (hn : n % 16 = 0) (h0 : 8 ≤ bp) (h3 : bp + c < U64) :
    free_mark m bp =
      PUT (PUT (PUT m (bp - 8) (c + f)) (bp + c - 16) (c + f)) (bp + c - 8) (n + 1) := by
  have hU := U64_val
  have := GET_lt m (bp + c - 8)
  have e1 : (c + 1 + f) / 16 * 16 = c := by omega
  rcases hf with rfl | rfl <;>
  simp (disch := omega) only [free_mark, HDRP, FTRP, NEXT_BLKP, WSIZE_val, DSIZE_val, add64_eq,
    sub64_eq, GET_SIZE_eq, GET_ALLOC_eq, GET_PREV_ALLOC_eq, GET_PUT_same, GET_PUT_ne, PACK_eq,
    Nat.mod_eq_of_lt, hB, hN, if_pos, if_neg, size_of_word, size_of_word0, e1, Nat.add_zero]
  all_goals repeat (first | rfl | apply pair_congr | apply PUT_congr)
  all_goals omega

theorem free_mark_next_free (m : Mem) (bp c n f : Nat) (hf : f = 0 ∨ f = 2)
    (hB : GET m (bp - 8) = c + 1 + f) (hc : c % 16 = 0) (h1 : 16 ≤ c)
    (hN : GET m (bp + c - 8) = n + 2) (hn : n % 16 = 0) (hn1 : 16 ≤ n) (h0 : 8 ≤ bp)
    (h3 : bp + c + n < U64) :
    free_mark m bp =
      PUT (PUT (PUT (PUT m (bp - 8) (c + f)) (bp + c - 16) (c + f)) (bp + c - 8) n)
        (bp + c + n - 16) n := by
  have hU := U64_val
  have e1 : (c + 1 + f) / 16 * 16 = c := by omega
  rcases hf with rfl | rfl <;>
  simp (disch := omega) only [free_mark, HDRP, FTRP, NEXT_BLKP, WSIZE_val, DSIZE_val, add64_eq,
    sub64_eq, GET_SIZE_eq, GET_ALLOC_eq, GET_PREV_ALLOC_eq, GET_PUT_same, GET_PUT_ne, PACK_eq,
    Nat.mod_eq_of_lt, hB, hN, if_pos, if_neg, size_of_word, size_of_word0, e1, Nat.add_zero]
  all_goals repeat (first | rfl | apply pair_congr | apply PUT_congr)
  all_goals omega


/-! ## Block lists: layout lemmas -/

theorem hd_ff (s : Nat) : hd s false false = s := by simp [hd]

theorem hd_tf (s : Nat) : hd s true false = s + 1 := by simp [hd]

theorem hd_ft (s : Nat) : hd s false true = s + 2 := by simp [hd]

theorem hd_tt (s : Nat) : hd s true true = s + 3 := by simp [hd]

theorem total_append (l1 l2 : List Blk) : total (l1 ++ l2) = total l1 + total l2 := by
  induction l1 with
  | nil => simp [total]
  | cons b l ih => simp [total, ih]; omega

theorem lastA_append (pa : Bool) (l1 l2 : List Blk) :
    lastA pa (l1 ++ l2) = lastA (lastA pa l1) l2 := by
  induction l1 generalizing pa with
  | nil => rfl
  | cons b l ih => simp [lastA, ih]

theorem Seg_end {m : Mem} {p : Nat} {pa : Bool} {bs : List Blk} {e : Nat}
    (h : Seg m p pa bs e) : e = p + total bs := by
  induction bs generalizing p pa with
  | nil => simpa [Seg, total] using h.symm
  | cons b l ih =>
    have := ih h.2.2.2.2
    simp only [total]; omega

theorem Seg_frame {m m' : Mem} {p : Nat} {pa : Bool} {bs : List Blk} {e : Nat}
    (h : Seg m p pa bs e) (hf : ∀ x, p ≤ x + 8 → x + 16 ≤ e → GET m' x = GET m x) :
    Seg m' p pa bs e := by
  induction bs generalizing p pa with
  | nil => exact h
  | cons b l ih =>
    obtain ⟨h1, h2, h3, h4, h5⟩ := h
    have he := Seg_end h5
    refine ⟨h1, h2, ?_, ?_, ?_⟩
    · rw [hf _ (by omega) (by omega)]; exact h3
    · intro hb
      refine ⟨(h4 hb).1, ?_⟩
      rw [hf _ (by omega) (by omega)]; exact (h4 hb).2
    · exact ih h5 (fun x hx1 hx2 => hf x (by omega) hx2)

theorem Seg_cons_iff {m : Mem} {p : Nat} {pa : Bool} {b : Blk} {bs : List Blk} {e : Nat} :
    Seg m p pa (b :: bs) e ↔
      16 ≤ b.size ∧ b.size % 16 = 0 ∧ GET m (p - 8) = hd b.size b.alloc pa ∧
      (b.alloc = false → pa = true ∧ GET m (p + b.size - 16) = hd b.size false true) ∧
      Seg m (p + b.size) b.alloc bs e := Iff.rfl

theorem Seg_append {m : Mem} {p : Nat} {pa : Bool} {l1 l2 : List Blk} {e : Nat} :
    Seg m p pa (l1 ++ l2) e ↔
      Seg m p pa l1 (p + total l1) ∧ Seg m (p + total l1) (lastA pa l1) l2 e := by
  induction l1 generalizing p pa with
  | nil => simp [Seg, total, lastA]
  | cons b l ih =>
    show Seg m p pa (b :: (l ++ l2)) e ↔ _
    simp only [Seg_cons_iff, total, lastA]
    rw [ih, Nat.add_assoc]
    tauto

/-- A segment whose last block is free ends with that block. -/
theorem Seg_last_free {m : Mem} {p : Nat} {l1 : List Blk} {q : Nat}
    (h : Seg m p true l1 q) (hl : lastA true l1 = false) :
    ∃ l psz, l1 = l ++ [⟨psz, false⟩] ∧ 16 ≤ psz ∧ psz % 16 = 0 ∧ q = p + total l + psz ∧
      Seg m p true l (p + total l) ∧ lastA true l = true ∧
      GET m (p + total l - 8) = psz + 2 ∧ GET m (q - 16) = psz + 2 := by
  rcases List.eq_nil_or_concat l1 with rfl | ⟨l, b, rfl⟩
  · simp [lastA] at hl
  · rw [List.concat_eq_append] at h hl ⊢
    rw [lastA_append] at hl
    simp only [lastA] at hl
    rw [Seg_append] at h
    obtain ⟨hs, h1, h2, h3, h4, h5⟩ := h
    obtain ⟨hpa, hft⟩ := h4 hl
    simp only [Seg] at h5
    obtain ⟨sz, al⟩ := b
    simp only at hl h1 h2 h3 hft h5
    subst hl
    rw [hpa, hd_ft] at h3
    rw [hd_ft] at hft
    refine ⟨l, sz, rfl, h1, h2, by omega, hs, hpa, h3, ?_⟩
    rw [← hft]; congr 1; omega


theorem hd_size {s : Nat} (al pa : Bool) (hs : s % 16 = 0) : hd s al pa / 16 * 16 = s := by
  cases al <;> cases pa <;> simp [hd] <;> omega

theorem hd_alloc {s : Nat} (al pa : Bool) (hs : s % 16 = 0) :
    hd s al pa % 2 = if al then 1 else 0 := by
  cases al <;> cases pa <;> simp [hd] <;> omega

theorem hd_prev {s : Nat} (al pa : Bool) (hs : s % 16 = 0) :
    hd s al pa / 2 % 2 * 2 = if pa then 2 else 0 := by
  cases al <;> cases pa <;> simp [hd] <;> omega

theorem Chain_frame {m m' : Mem} {p : Nat} {pa : Bool} {bs : List Blk} {e : Nat}
    (h : Chain m p pa bs e) (hp : 8 ≤ p)
    (hf : ∀ x, p ≤ x + 8 → x + 8 ≤ e → GET m' x = GET m x) : Chain m' p pa bs e := by
  have he := Seg_end h.1
  refine ⟨Seg_frame h.1 (fun x h1 h2 => hf x h1 (by omega)), ?_⟩
  rw [hf _ (by omega) (by omega)]; exact h.2

theorem Chain_append {m : Mem} {p : Nat} {pa : Bool} {l1 l2 : List Blk} {e : Nat} :
    Chain m p pa (l1 ++ l2) e ↔
      Seg m p pa l1 (p + total l1) ∧ Chain m (p + total l1) (lastA pa l1) l2 e := by
  unfold Chain
  rw [Seg_append, lastA_append]
  tauto

theorem Seg_head_alloc {m : Mem} {q : Nat} {bs : List Blk} {e : Nat}
    (h : Seg m q false bs e) : headA bs = true := by
  cases bs with
  | nil => rfl
  | cons b l =>
    cases hb : b.alloc with
    | true => simpa [headA] using hb
    | false => exact absurd (h.2.2.2.1 hb).1 (by simp)

theorem Chain_head {m : Mem} {q : Nat} {pa : Bool} {bs : List Blk} {e : Nat}
    (h : Chain m q pa bs e) (ha : headA bs = true) :
    GET m (q - 8) = hd (nsize bs) true pa ∧ nsize bs % 16 = 0 ∧ q + nsize bs ≤ e := by
  cases bs with
  | nil =>
    obtain ⟨h1, h2⟩ := h
    simp only [Seg] at h1
    subst h1
    exact ⟨h2, rfl, by simp [nsize]⟩
  | cons b l =>
    obtain ⟨⟨h1, h2, h3, _, h5⟩, _⟩ := h
    simp only [headA] at ha
    have := Seg_end h5
    rw [ha] at h3
    exact ⟨h3, h2, by simp only [nsize]; omega⟩

/-- Rewriting the header of an allocated first block (or the epilogue) with
another predecessor bit. -/
theorem Chain_set_prev {m m' : Mem} {q : Nat} {pa pa' : Bool} {bs : List Blk} {e : Nat}
    (h : Chain m q pa bs e) (ha : headA bs = true) (hq : 8 ≤ q)
    (hw : GET m' (q - 8) = hd (nsize bs) true pa')
    (hf : ∀ x, q ≤ x → x + 8 ≤ e → GET m' x = GET m x) : Chain m' q pa' bs e := by
  cases bs with
  | nil =>
    obtain ⟨h1, _⟩ := h
    simp only [Seg] at h1
    subst h1
    exact ⟨rfl, hw⟩
  | cons b l =>
    obtain ⟨⟨h1, h2, h3, h4, h5⟩, h6⟩ := h
    simp only [headA] at ha
    simp only [nsize] at hw
    have he := Seg_end h5
    refine ⟨⟨h1, h2, ?_, ?_, ?_⟩, ?_⟩
    · rw [ha]; exact hw
    · intro hb; rw [ha] at hb; exact absurd hb (by simp)
    · exact Seg_frame h5 (fun x hx1 hx2 => hf x (by omega) (by omega))
    · simp only [lastA] at h6 ⊢
      rw [hf _ (by omega) (by omega)]; exact h6

theorem Seg_length {m : Mem} {p : Nat} {pa : Bool} {bs : List Blk} {e : Nat}
    (h : Seg m p pa bs e) : 16 * bs.length ≤ total bs := by
  induction bs generalizing p pa with
  | nil => simp [total]
  | cons b l ih =>
    have := ih h.2.2.2.2
    have := h.1
    simp only [total, List.length_cons]; omega

theorem walk_of_Chain {m : Mem} {bs : List Blk} {e : Nat} (he : e < U64) :
    ∀ {p : Nat} {pa : Bool} {fuel : Nat}, Chain m p pa bs e → 8 ≤ p → bs.length < fuel →
      walk m fuel p = some (concr p bs) := by
  have hU := U64_val
  induction bs with
  | nil =>
    intro p pa fuel h hp hfuel
    obtain ⟨h1, h2⟩ := h
    simp only [Seg] at h1
    subst h1
    obtain ⟨f, rfl⟩ : ∃ f, fuel = f + 1 := ⟨fuel - 1, by simp at hfuel; omega⟩
    have e1 : HDRP p = p - 8 := by unfold HDRP; rw [WSIZE_val, sub64_eq] <;> omega
    have e2 : GET_SIZE m (p - 8) = 0 := by
      rw [GET_SIZE_eq, h2, hd_size _ _ (by rfl)]
    simp [walk, e1, e2, concr]
  | cons b l ih =>
    intro p pa fuel h hp hfuel
    obtain ⟨⟨h1, h2, h3, h4, h5⟩, h6⟩ := h
    have hend := Seg_end h5
    obtain ⟨f, rfl⟩ : ∃ f, fuel = f + 1 := ⟨fuel - 1, by simp at hfuel; omega⟩
    have e1 : HDRP p = p - 8 := by unfold HDRP; rw [WSIZE_val, sub64_eq] <;> omega
    have e2 : GET_SIZE m (p - 8) = b.size := by
      rw [GET_SIZE_eq, h3, hd_size _ _ h2]
    have e3 : GET_ALLOC m (p - 8) = if b.alloc then 1 else 0 := by
      rw [GET_ALLOC_eq, h3, hd_alloc _ _ h2]
    have e4 : NEXT_BLKP m p = p + b.size := by
      unfold NEXT_BLKP; rw [WSIZE_val, sub64_eq (by omega) (by omega), e2, add64_eq]; omega
    have hrec := @ih (p + b.size) b.alloc f ⟨h5, h6⟩ (by omega)
      (by simp at hfuel; omega)
    simp [walk, e1, e2, e3, e4, hrec, concr]
    omega

theorem heap_blocks_of_WF {h : Heap} {bs : List Blk} (hw : WF h bs) :
    heap_blocks h = some (concr h.heap_listp bs) := by
  obtain ⟨h1, h2, h3, h4⟩ := hw
  have hU := U64_val
  have hl := Seg_length h2.1
  have he := Seg_end h2.1
  exact walk_of_Chain (by omega) h2 h1 (by unfold FUEL; omega)


/-! ## `find_fit` on a well-formed heap -/

theorem first_fit_nil (s : Nat) : first_fit [] s = NULL := rfl

theorem first_fit_cons (x : Nat × Nat × Nat) (l : List (Nat × Nat × Nat)) (s : Nat) :
    first_fit (x :: l) s = if x.2.2 = 0 ∧ s ≤ x.2.1 then x.1 else first_fit l s := by
  unfold first_fit
  by_cases hx : x.2.2 = 0 ∧ s ≤ x.2.1
  · simp [List.find?, hx]
  · rw [if_neg hx]
    simp [List.find?, hx]

theorem find_fit_loop_of_Chain {m : Mem} {bs : List Blk} {e : Nat} (s : Nat) (he : e < U64) :
    ∀ {p : Nat} {pa : Bool} {fuel : Nat}, Chain m p pa bs e → 8 ≤ p → bs.length < fuel →
      find_fit_loop m s fuel p = some (first_fit (concr p bs) s) := by
  have hU := U64_val
  induction bs with
  | nil =>
    intro p pa fuel h hp hfuel
    obtain ⟨h1, h2⟩ := h
    simp only [Seg] at h1
    subst h1
    obtain ⟨f, rfl⟩ : ∃ f, fuel = f + 1 := ⟨fuel - 1, by simp at hfuel; omega⟩
    have e1 : HDRP p = p - 8 := by unfold HDRP; rw [WSIZE_val, sub64_eq] <;> omega
    have e2 : GET_SIZE m (p - 8) = 0 := by
      rw [GET_SIZE_eq, h2, hd_size _ _ (by rfl)]
    simp [find_fit_loop, e1, e2, concr, first_fit_nil]
  | cons b l ih =>
    intro p pa fuel h hp hfuel
    obtain ⟨⟨h1, h2, h3, h4, h5⟩, h6⟩ := h
    have hend := Seg_end h5
    obtain ⟨f, rfl⟩ : ∃ f, fuel = f + 1 := ⟨fuel - 1, by simp at hfuel; omega⟩
    have e1 : HDRP p = p - 8 := by unfold HDRP; rw [WSIZE_val, sub64_eq] <;> omega
    have e2 : GET_SIZE m (p - 8) = b.size := by
      rw [GET_SIZE_eq, h3, hd_size _ _ h2]
    have e3 : GET_ALLOC m (p - 8) = if b.alloc then 1 else 0 := by
      rw [GET_ALLOC_eq, h3, hd_alloc _ _ h2]
    have e4 : NEXT_BLKP m p = p + b.size := by
      unfold NEXT_BLKP; rw [WSIZE_val, sub64_eq (by omega) (by omega), e2, add64_eq]; omega
    have hrec := @ih (p + b.size) b.alloc f ⟨h5, h6⟩ (by omega)
      (by simp at hfuel; omega)
    simp only [find_fit_loop, e1, e2, e3, e4, hrec, concr, first_fit_cons]
    rw [if_pos (by omega)]
    cases hb : b.alloc <;> simp
    split <;> rfl

theorem find_fit_of_WF {h : Heap} {bs : List Blk} (hw : WF h bs) (s : Nat) :
    find_fit h s = some (first_fit (concr h.heap_listp bs) s) := by
  obtain ⟨h1, h2, h3, h4⟩ := hw
  have hU := U64_val
  have hl := Seg_length h2.1
  have he := Seg_end h2.1
  exact find_fit_loop_of_Chain s (by omega) h2 h1 (by unfold FUEL; omega)

/-- What first fit returns on the walk of a block list. -/
theorem first_fit_concr (s : Nat) (bs : List Blk) : ∀ (p : Nat), 8 ≤ p →
    (first_fit (concr p bs) s = NULL ∧ ∀ b ∈ bs, b.alloc = true ∨ b.size < s) ∨
    (∃ l1 c l2, bs = l1 ++ ⟨c, false⟩ :: l2 ∧ s ≤ c ∧ first_fit (concr p bs) s = p + total l1 ∧
      ∀ b ∈ l1, b.alloc = true ∨ b.size < s) := by
  induction bs with
  | nil => intro p _; left; exact ⟨rfl, by simp⟩
  | cons b l ih =>
    intro p hp
    simp only [concr, first_fit_cons]
    by_cases hb : b.alloc = false ∧ s ≤ b.size
    · right
      refine ⟨[], b.size, l, ?_, hb.2, ?_, by simp⟩
      · obtain ⟨sz, al⟩ := b
        simp only at hb
        simp [hb.1]
      · simp [hb.1, hb.2, total]
    · have hc : ¬ ((if b.alloc then 1 else 0) = 0 ∧ s ≤ b.size) := by
        cases hal : b.alloc <;> simp_all
      rw [if_neg hc]
      have hb' : b.alloc = true ∨ b.size < s := by
        cases hal : b.alloc <;> simp_all
      rcases ih (p + b.size) (by omega) with ⟨h1, h2⟩ | ⟨l1, c, l2, h1, h2, h3, h4⟩
      · left
        refine ⟨h1, ?_⟩
        intro x hx
        rcases List.mem_cons.1 hx with rfl | hx
        · exact hb'
        · exact h2 x hx
      · right
        refine ⟨b :: l1, c, l2, by simp [h1], h2, ?_, ?_⟩
        · rw [h3]; simp only [total]; omega
        · intro x hx
          rcases List.mem_cons.1 hx with rfl | hx
          · exact hb'
          · exact h4 x hx


/-! ## `place` on a block list -/

theorem place_Chain {m : Mem} {p0 : Nat} {l1 : List Blk} {c : Nat} {l2 : List Blk} {e s : Nat}
    (h : Chain m p0 true (l1 ++ ⟨c, false⟩ :: l2) e) (hp : 8 ≤ p0) (he : e < U64)
    (hs1 : 16 ≤ s) (hs2 : s % 16 = 0) (hs3 : s ≤ c) :
    Chain (place m (p0 + total l1) s) p0 true (l1 ++ (placed c s ++ l2)) e ∧
    ∀ x, x + 8 < p0 + total l1 ∨ p0 + total l1 + c < x + 8 →
      GET (place m (p0 + total l1) s) x = GET m x := by
  have hU := U64_val
  rw [Chain_append] at h
  obtain ⟨hs, ⟨hc1, hc2, hc3, hc4, hc5⟩, hep⟩ := h
  simp only at hc1 hc2 hc3 hc4 hc5
  obtain ⟨hpa, hft⟩ := hc4 trivial
  rw [hpa, hd_ft] at hc3
  have hend := Seg_end hc5
  simp only [lastA] at hep
  generalize hbp : p0 + total l1 = bp at *
  by_cases hsplit : s + 16 ≤ c
  · rw [place_split m bp c s hc3 hc2 hs2 hsplit (by omega) (by omega)]
    refine ⟨?_, ?_⟩
    · rw [Chain_append, hbp, hpa]
      refine ⟨Seg_frame hs (fun x h1 h2 => ?_), ?_⟩
      · simp (disch := omega) only [GET_PUT_ne]
      · simp only [placed, if_pos hsplit, List.cons_append, List.nil_append]
        refine ⟨⟨hs1, hs2, ?_, by simp, ⟨?_, ?_, ?_, ?_, ?_⟩⟩, ?_⟩
        · simp (disch := omega) only [GET_PUT_ne, GET_PUT_same, hd_tt, Nat.mod_eq_of_lt]
        · show 16 ≤ c - s; omega
        · show (c - s) % 16 = 0; omega
        · simp (disch := omega) only [GET_PUT_ne, GET_PUT_same, hd_ft, Nat.mod_eq_of_lt]
        · intro _
          refine ⟨rfl, ?_⟩
          have e1 : bp + s + (c - s) - 16 = bp + c - 16 := by omega
          simp (disch := omega) only [e1, GET_PUT_same, hd_ft, Nat.mod_eq_of_lt]
        · have e1 : bp + s + (c - s) = bp + c := by omega
          rw [e1]
          refine Seg_frame hc5 (fun x h1 h2 => ?_)
          simp (disch := omega) only [GET_PUT_ne]
        · simp only [lastA]
          simp (disch := omega) only [GET_PUT_ne]
          exact hep
    · intro x hx
      simp (disch := omega) only [GET_PUT_ne]
  · have hcs : s = c := by omega
    subst hcs
    have hch : Chain m (bp + s) false l2 e := ⟨hc5, hep⟩
    have hha := Seg_head_alloc hc5
    obtain ⟨hn1, hn2, hn3⟩ := Chain_head hch hha
    rw [hd_tf] at hn1
    have e0 : bp + s - 8 = bp + s - 8 := rfl
    rw [place_whole m bp s (nsize l2) hc3 hc2 hc1 hn1 hn2 (by omega) (by omega)]
    refine ⟨?_, ?_⟩
    · rw [Chain_append, hbp, hpa]
      refine ⟨Seg_frame hs (fun x h1 h2 => ?_), ?_⟩
      · simp (disch := omega) only [GET_PUT_ne]
      · simp only [placed, if_neg hsplit, List.cons_append, List.nil_append]
        have hch' : Chain (PUT (PUT m (bp - 8) (s + 3)) (bp + s - 8) (nsize l2 + 3)) (bp + s) true
            l2 e := by
          refine Chain_set_prev hch hha (by omega) ?_ (fun x h1 h2 => ?_)
          · simp (disch := omega) only [GET_PUT_same, hd_tt, Nat.mod_eq_of_lt]
          · simp (disch := omega) only [GET_PUT_ne]
        refine ⟨⟨hc1, hc2, ?_, by simp, hch'.1⟩, hch'.2⟩
        simp (disch := omega) only [GET_PUT_ne, GET_PUT_same, hd_tt, Nat.mod_eq_of_lt]
    · intro x hx
      simp (disch := omega) only [GET_PUT_ne]


/-! ## `extend_heap` -/

theorem extend_heap_fail (h : Heap) (words : Nat) (hw : words % 2 = 0) (hw8 : words * 8 < U64)
    (hfit : ¬ h.brk + words * 8 ≤ h.max_addr) : extend_heap h words = (NULL, h) := by
  simp (disch := omega) only [extend_heap, mem_sbrk, WSIZE_val, mul64_eq, if_pos, if_neg,
    hfit]
  simp

theorem extend_heap_eq (h : Heap) (words f : Nat) (hw : words % 2 = 0)
    (hs : 16 ≤ words * 8) (hfit : h.brk + words * 8 ≤ h.max_addr) (hmax : h.max_addr < U64)
    (h8 : 8 ≤ h.brk) (hf : f = 0 ∨ f = 2) (hE : GET h.mem (h.brk - 8) = 1 + f) :
    extend_heap h words =
      ((coalesce (PUT (PUT (PUT h.mem (h.brk - 8) (words * 8 + f)) (h.brk + words * 8 - 16)
          (words * 8 + f)) (h.brk + words * 8 - 8) 1) h.brk).1,
        { mem := (coalesce (PUT (PUT (PUT h.mem (h.brk - 8) (words * 8 + f))
            (h.brk + words * 8 - 16) (words * 8 + f)) (h.brk + words * 8 - 8) 1) h.brk).2,
          heap_listp := h.heap_listp, brk := h.brk + words * 8, max_addr := h.max_addr }) := by
  have hU := U64_val
  have hne : ¬ h.brk = SBRK_FAIL := by unfold SBRK_FAIL; omega
  have e0 : PACK 0 1 = 1 := by decide
  rcases hf with rfl | rfl <;>
  simp (disch := omega) only [extend_heap, mem_sbrk, HDRP, FTRP, NEXT_BLKP, WSIZE_val, DSIZE_val,
    add64_eq, sub64_eq, mul64_eq, GET_SIZE_eq, GET_ALLOC_eq, GET_PREV_ALLOC_eq, GET_PUT_same,
    GET_PUT_ne, PACK_eq, Nat.mod_eq_of_lt, hE, if_pos, if_neg, size_of_word, size_of_word0,
    Nat.add_zero, hfit, hne, e0, reduceIte]

theorem extend_heap_WF {h : Heap} {bs : List Blk} {words : Nat} (hw : WF h bs)
    (hw2 : words % 2 = 0) (hs : 16 ≤ words * 8) (hfit : h.brk + words * 8 ≤ h.max_addr) :
    ∃ l psz, (extend_heap h words).1 = h.heap_listp + total l ∧
      h.heap_listp + total l + psz = h.brk ∧
      ((psz = 0 ∧ bs = l) ∨ (16 ≤ psz ∧ bs = l ++ [⟨psz, false⟩])) ∧
      WF (extend_heap h words).2 (l ++ [⟨psz + words * 8, false⟩]) ∧
      (extend_heap h words).2.heap_listp = h.heap_listp ∧
      (extend_heap h words).2.brk = h.brk + words * 8 ∧
      (extend_heap h words).2.max_addr = h.max_addr ∧
      ∀ x, x + 8 < h.heap_listp + total l ∨ h.brk + words * 8 < x + 8 →
        GET (extend_heap h words).2.mem x = GET h.mem x := by
  have hU := U64_val
  obtain ⟨h1, ⟨hseg, hep⟩, h3, h4⟩ := hw
  have hend := Seg_end hseg
  cases hla : lastA true bs with
  | true =>
    rw [hla, hd_tt] at hep
    rw [extend_heap_eq h words 2 hw2 hs hfit h4 (by omega) (Or.inr rfl) (by rw [hep])]
    rw [coalesce_case1 _ h.brk (words * 8) 0
      (by simp (disch := omega) only [GET_PUT_ne, GET_PUT_same, Nat.mod_eq_of_lt])
      (by omega)
      (by simp (disch := omega) only [GET_PUT_same, Nat.mod_eq_of_lt])
      (by rfl) (by omega) (by omega)]
    refine ⟨bs, 0, by simp only; omega, by omega, Or.inl ⟨rfl, rfl⟩, ⟨h1, ?_, ?_, h4⟩, rfl, rfl,
      rfl, ?_⟩
    · show Chain _ h.heap_listp true (bs ++ [⟨0 + words * 8, false⟩]) (h.brk + words * 8)
      rw [Chain_append, ← hend, hla]
      refine ⟨Seg_frame hseg (fun x hx1 hx2 => ?_), ⟨?_, ?_, ?_, ?_, ?_⟩, ?_⟩
      · simp (disch := omega) only [GET_PUT_ne]
      · show 16 ≤ 0 + words * 8; omega
      · show (0 + words * 8) % 16 = 0; omega
      · show GET _ (h.brk - 8) = hd (0 + words * 8) false true
        simp (disch := omega) only [GET_PUT_ne, GET_PUT_same, Nat.mod_eq_of_lt, hd_ft,
          Nat.zero_add]
      · intro _
        refine ⟨rfl, ?_⟩
        show GET _ (h.brk + (0 + words * 8) - 16) = hd (0 + words * 8) false true
        simp (disch := omega) only [GET_PUT_ne, GET_PUT_same, Nat.mod_eq_of_lt, hd_ft,
          Nat.zero_add]
      · show h.brk + (0 + words * 8) = h.brk + words * 8
        omega
      · show GET _ (h.brk + words * 8 - 8) = hd 0 true false
        simp (disch := omega) only [GET_PUT_same, Nat.mod_eq_of_lt, hd_tf]
    · show h.brk + words * 8 ≤ h.max_addr
      exact hfit
    · intro x hx
      show GET (PUT _ _ _) x = GET h.mem x
      simp (disch := omega) only [GET_PUT_ne]
  | false =>
    rw [hla, hd_tf] at hep
    obtain ⟨l, psz, rfl, hp1, hp2, hq, hsl, hll, hph, hpf⟩ := Seg_last_free hseg hla
    rw [extend_heap_eq h words 0 hw2 hs hfit h4 (by omega) (Or.inl rfl) (by rw [hep])]
    have e1 : h.heap_listp + total l - 8 = h.brk - psz - 8 := by omega
    rw [e1] at hph
    rw [coalesce_case3 _ h.brk (words * 8) 0 psz 2 2
      (by simp (disch := omega) only [GET_PUT_ne, GET_PUT_same, Nat.mod_eq_of_lt, Nat.add_zero])
      (by omega) (by omega)
      (by simp (disch := omega) only [GET_PUT_same, Nat.mod_eq_of_lt])
      (by rfl)
      (by simp (disch := omega) only [GET_PUT_ne, hpf])
      (by simp (disch := omega) only [GET_PUT_ne, hph])
      (by omega) (by omega) hp2 hp1 (by omega) (by omega)]
    refine ⟨l, psz, by simp only; omega, by omega, Or.inr ⟨hp1, rfl⟩, ⟨h1, ?_, ?_, h4⟩, rfl, rfl,
      rfl, ?_⟩
    · show Chain _ h.heap_listp true (l ++ [⟨psz + words * 8, false⟩]) (h.brk + words * 8)
      rw [Chain_append, hll]
      refine ⟨Seg_frame hsl (fun x hx1 hx2 => ?_), ⟨?_, ?_, ?_, ?_, ?_⟩, ?_⟩
      · simp (disch := omega) only [GET_PUT_ne]
      · show 16 ≤ psz + words * 8; omega
      · show (psz + words * 8) % 16 = 0; omega
      · show GET _ (h.heap_listp + total l - 8) = hd (psz + words * 8) false true
        rw [e1]
        simp (disch := omega) only [GET_PUT_same, Nat.mod_eq_of_lt, hd_ft]
        omega
      · intro _
        refine ⟨rfl, ?_⟩
        show GET _ (h.heap_listp + total l + (psz + words * 8) - 16) = hd (psz + words * 8) false true
        have e2 : h.heap_listp + total l + (psz + words * 8) - 16 = h.brk + words * 8 - 16 := by
          omega
        rw [e2]
        simp (disch := omega) only [GET_PUT_ne, GET_PUT_same, Nat.mod_eq_of_lt, hd_ft]
        omega
      · show h.heap_listp + total l + (psz + words * 8) = h.brk + words * 8
        omega
      · show GET _ (h.brk + words * 8 - 8) = hd 0 true false
        simp (disch := omega) only [GET_PUT_ne, GET_PUT_same, Nat.mod_eq_of_lt, hd_tf]
    · show h.brk + words * 8 ≤ h.max_addr
      exact hfit
    · intro x hx
      show GET (PUT _ _ _) x = GET h.mem x
      simp (disch := omega) only [GET_PUT_ne]


/-! ## `mm_init` -/

theorem mm_init_fail (h : Heap) (hmax : h.max_addr < U64)
    (hfit : ¬ h.brk + 4128 ≤ h.max_addr) : (mm_init h).1 = -1 := by
  have hU := U64_val
  have e : CHUNKSIZE / 8 = 512 := by decide
  by_cases h1 : h.brk + 32 ≤ h.max_addr
  · have hne : ¬ h.brk = SBRK_FAIL := by unfold SBRK_FAIL; omega
    simp only [mm_init, mem_sbrk, WSIZE_val, h1, hne, e, reduceIte, Nat.reduceMul]
    rw [extend_heap_fail _ 512 (by rfl) (by omega) (by simp only; omega)]
    simp
  · simp only [mm_init, mem_sbrk, WSIZE_val, h1, reduceIte, Nat.reduceMul]

theorem extend_heap_prev_free (h : Heap) (words psz k k' : Nat) (hw : words % 2 = 0)
    (hs : 16 ≤ words * 8) (hfit : h.brk + words * 8 ≤ h.max_addr) (hmax : h.max_addr < U64)
    (hE : GET h.mem (h.brk - 8) = 1) (hPf : GET h.mem (h.brk - 16) = psz + k')
    (hP : GET h.mem (h.brk - psz - 8) = psz + k) (hk : k < 16) (hk' : k' < 16)
    (hp : psz % 16 = 0) (hp1 : 16 ≤ psz) (h0 : psz + 8 ≤ h.brk) :
    extend_heap h words = (h.brk - psz,
      { mem := PUT (PUT (PUT (PUT (PUT h.mem (h.brk - 8) (words * 8)) (h.brk + words * 8 - 16)
          (words * 8)) (h.brk + words * 8 - 8) 1) (h.brk + words * 8 - 16) (words * 8 + psz + 2))
          (h.brk - psz - 8) (words * 8 + psz + 2),
        heap_listp := h.heap_listp, brk := h.brk + words * 8, max_addr := h.max_addr }) := by
  have hU := U64_val
  rw [extend_heap_eq h words 0 hw hs hfit hmax (by omega) (Or.inl rfl) (by rw [hE])]
  rw [coalesce_case3 _ h.brk (words * 8) 0 psz k k'
    (by simp (disch := omega) only [GET_PUT_ne, GET_PUT_same, Nat.mod_eq_of_lt, Nat.add_zero])
    (by omega) (by omega)
    (by simp (disch := omega) only [GET_PUT_same, Nat.mod_eq_of_lt])
    (by rfl)
    (by simp (disch := omega) only [GET_PUT_ne, hPf])
    (by simp (disch := omega) only [GET_PUT_ne, hP])
    hk hk' hp hp1 h0 (by omega)]
  simp only [Nat.add_zero]

theorem mm_init_eq (h : Heap) (hmax : h.max_addr < U64) (hfit : h.brk + 4128 ≤ h.max_addr) :
    mm_init h = (0,
      { mem := PUT (PUT (PUT (PUT (PUT (PUT (PUT (PUT (PUT h.mem h.brk 0) (h.brk + 8) 17)
          (h.brk + 16) 17) (h.brk + 24) 1) (h.brk + 24) 4096) (h.brk + 4112) 4096)
          (h.brk + 4120) 1) (h.brk + 4112) 4114) (h.brk + 8) 4114,
        heap_listp := h.brk + 16, brk := h.brk + 4128, max_addr := h.max_addr }) := by
  have hU := U64_val
  have e : CHUNKSIZE / 8 = 512 := by decide
  have e1 : PACK DSIZE 1 = 17 := by decide
  have e2 : PACK 0 1 = 1 := by decide
  have h1 : h.brk + 32 ≤ h.max_addr := by omega
  have hne : ¬ h.brk = SBRK_FAIL := by unfold SBRK_FAIL; omega
  have a1 : h.brk + 32 - 8 = h.brk + 24 := by omega
  have a2 : h.brk + 32 - 16 = h.brk + 16 := by omega
  have a3 : h.brk + 32 - 16 - 8 = h.brk + 8 := by omega
  simp (disch := omega) only [mm_init, mem_sbrk, WSIZE_val, h1, hne, e, e1, e2, reduceIte,
    Nat.reduceMul, add64_eq]
  have key := extend_heap_prev_free
    ({ mem := PUT (PUT (PUT (PUT h.mem h.brk 0) (h.brk + 8) 17) (h.brk + 16) 17) (h.brk + 24) 1,
       heap_listp := h.brk + 16, brk := h.brk + 32, max_addr := h.max_addr } : Heap)
    512 16 1 1 (by rfl) (by omega) (by simp only; omega) hmax
    (by simp (disch := omega) only [a1, GET_PUT_same, Nat.mod_eq_of_lt])
    (by simp (disch := omega) only [a2, GET_PUT_ne, GET_PUT_same, Nat.mod_eq_of_lt])
    (by simp (disch := omega) only [a3, GET_PUT_ne, GET_PUT_same, Nat.mod_eq_of_lt])
    (by omega) (by omega) (by rfl) (by omega) (by simp only; omega)
  rw [key]
  have hnn : ¬ (h.brk + 32 - 16 = NULL) := by unfold NULL; omega
  simp only [hnn, reduceIte]
  refine pair_congr rfl ?_
  congr 1
  repeat (first | rfl | apply PUT_congr)
  all_goals omega

theorem mm_init_WF (h : Heap) (hmax : h.max_addr < U64) (hok : (mm_init h).1 = 0) :
    WF (mm_init h).2 [⟨4112, false⟩] := by
  have hU := U64_val
  by_cases hfit : h.brk + 4128 ≤ h.max_addr
  · rw [mm_init_eq h hmax hfit]
    refine ⟨by simp only; omega, ⟨⟨by simp, by simp, ?_, ?_, ?_⟩, ?_⟩, hfit, hmax⟩
    · show GET _ (h.brk + 16 - 8) = hd 4112 false true
      have e3 : h.brk + 16 - 8 = h.brk + 8 := by omega
      simp (disch := omega) only [e3, GET_PUT_same, Nat.mod_eq_of_lt, hd_ft]
    · intro _
      refine ⟨rfl, ?_⟩
      show GET _ (h.brk + 16 + 4112 - 16) = hd 4112 false true
      have e3 : h.brk + 16 + 4112 - 16 = h.brk + 4112 := by omega
      simp (disch := omega) only [e3, GET_PUT_ne, GET_PUT_same, Nat.mod_eq_of_lt, hd_ft]
    · show h.brk + 16 + 4112 = h.brk + 4128
      omega
    · show GET _ (h.brk + 4128 - 8) = hd 0 true false
      have e3 : h.brk + 4128 - 8 = h.brk + 4120 := by omega
      simp (disch := omega) only [e3, GET_PUT_ne, GET_PUT_same, Nat.mod_eq_of_lt, hd_tf]
  · rw [mm_init_fail h hmax hfit] at hok
    exact absurd hok (by decide)


/-! ## `mm_malloc` on a well-formed heap -/

theorem adjust_eq {s : Nat} (hs : Fits s) : adjust s = (s + 8 + 15) / 16 * 16 := by
  have hU := U64_val
  unfold Fits at hs
  rw [WSIZE_val, DSIZE_val] at hs
  unfold adjust
  rw [WSIZE_val, DSIZE_val, add64_eq (by omega)]
  split
  · omega
  · rw [add64_eq (by omega), mul64_eq (by omega)]; omega

theorem adjust_fits {s : Nat} (hs : Fits s) (h0 : s ≠ 0) :
    16 ≤ adjust s ∧ adjust s % 16 = 0 ∧ adjust s < U64 ∧ s + 8 ≤ adjust s ∧
      adjust s < s + 24 := by
  have hU := U64_val
  rw [adjust_eq hs]
  unfold Fits at hs
  rw [WSIZE_val, DSIZE_val] at hs
  omega

theorem adjust_lt (s : Nat) : adjust s < U64 := by
  unfold adjust add64 mul64
  split <;> exact Nat.mod_lt _ (by decide)

theorem extend_words (a : Nat) (ha : a % 16 = 0) :
    (MAX a CHUNKSIZE / WSIZE) % 2 = 0 ∧ MAX a CHUNKSIZE / WSIZE * 8 = MAX a CHUNKSIZE ∧
      a ≤ MAX a CHUNKSIZE ∧ 4096 ≤ MAX a CHUNKSIZE ∧
      (MAX a CHUNKSIZE = a ∨ MAX a CHUNKSIZE = 4096) := by
  have e : CHUNKSIZE = 4096 := by decide
  unfold MAX
  rw [e, WSIZE_val]
  split <;> omega

theorem mm_malloc_WF {h : Heap} {bs : List Blk} {s p : Nat} {h' : Heap} (hw : WF h bs)
    (ha1 : 16 ≤ adjust s) (ha2 : adjust s % 16 = 0) (ha3 : adjust s < U64)
    (hm : mm_malloc h s = some (p, h')) :
    (p = NULL ∧ h' = h) ∨
    (s ≠ 0 ∧ ∃ l1 c0 c l2, bs = l1 ++ (fr c0 ++ l2) ∧ c0 ≤ c ∧ (l2 = [] ∨ c0 = c) ∧
      adjust s ≤ c ∧ p = h.heap_listp + total l1 ∧
      WF h' (l1 ++ (placed c (adjust s) ++ l2)) ∧
      h'.heap_listp = h.heap_listp ∧ h'.max_addr = h.max_addr ∧
      (∀ x, x + 8 < p ∨ p + c < x + 8 → GET h'.mem x = GET h.mem x)) := by
  have hU := U64_val
  unfold mm_malloc at hm
  by_cases hs0 : s = 0
  · rw [if_pos hs0] at hm
    simp only [Option.some.injEq, Prod.mk.injEq] at hm
    exact Or.inl ⟨hm.1.symm, hm.2.symm⟩
  rw [if_neg hs0] at hm
  simp only [find_fit_of_WF hw] at hm
  obtain ⟨hl8, hch, hbm, hmax⟩ := hw
  rcases first_fit_concr (adjust s) bs h.heap_listp hl8 with ⟨hnull, _⟩ | ⟨l1, c, l2, hbs, hc, hff, _⟩
  · -- no fit: extend the heap
    rw [hnull] at hm
    simp only [ne_eq, not_true_eq_false, reduceIte] at hm
    obtain ⟨hw1, hw2, hw3, hw4, hw5⟩ := extend_words (adjust s) ha2
    by_cases hfit : h.brk + MAX (adjust s) CHUNKSIZE / WSIZE * 8 ≤ h.max_addr
    · obtain ⟨l, psz, he1, he2, he3, he4, he5, he6, he7, he8⟩ :=
        @extend_heap_WF h bs (MAX (adjust s) CHUNKSIZE / WSIZE) ⟨hl8, hch, hbm, hmax⟩ hw1
          (by omega) hfit
      generalize extend_heap h (MAX (adjust s) CHUNKSIZE / WSIZE) = E at *
      have hne : ¬ E.1 = NULL := by
        rw [he1]; unfold NULL; omega
      rw [if_neg hne] at hm
      simp only [Option.some.injEq, Prod.mk.injEq] at hm
      obtain ⟨hp, hh'⟩ := hm
      obtain ⟨g1, g2, g3, g4⟩ := he4
      have hpl := @place_Chain _ _ _ _ [] _ (adjust s) g2 g1 (by omega) ha1 ha2 (by omega)
      have he1' : E.2.heap_listp + total l = E.1 := by rw [he5, he1]
      rw [he1'] at hpl
      subst hp hh'
      right
      refine ⟨hs0, l, psz, psz + MAX (adjust s) CHUNKSIZE / WSIZE * 8, [], ?_, by omega, Or.inl rfl,
        by omega, he1, ⟨g1, hpl.1, g3, g4⟩, he5, he7, ?_⟩
      · rcases he3 with ⟨h0, rfl⟩ | ⟨h0, rfl⟩
        · simp [fr, h0]
        · have : psz ≠ 0 := by omega
          simp [fr, this]
      · intro x hx
        show GET (place _ _ _) x = _
        rw [hpl.2 x (by omega)]
        exact he8 x (by omega)
    · rw [extend_heap_fail h _ hw1 (by omega) hfit] at hm
      simp only [reduceIte, Option.some.injEq, Prod.mk.injEq] at hm
      exact Or.inl ⟨hm.1.symm, hm.2.symm⟩
  · -- a fit was found
    rw [hff] at hm
    have hne : h.heap_listp + total l1 ≠ NULL := by unfold NULL; omega
    rw [if_pos hne] at hm
    simp only [Option.some.injEq, Prod.mk.injEq] at hm
    obtain ⟨hp, hh'⟩ := hm
    subst hbs
    have hend := Seg_end hch.1
    rw [total_append] at hend
    simp only [total] at hend
    have hpl := place_Chain (s := adjust s) hch hl8 (by omega) ha1 ha2 hc
    right
    have hc0 : c ≠ 0 := by omega
    refine ⟨hs0, l1, c, c, l2, by simp [fr, hc0], le_refl _, Or.inr rfl, hc, hp.symm, ?_,
      by rw [← hh'], by rw [← hh'], ?_⟩
    · rw [← hh']
      exact ⟨hl8, hpl.1, hbm, hmax⟩
    · intro x hx
      rw [← hh', ← hp] at *
      exact hpl.2 x hx


/-! ## `mm_free` on a well-formed heap -/

theorem GET_PUT_eq (m : Mem) {p q : Nat} (v : Nat) (h : q = p) :
    GET (PUT m p v) q = v % U64 := by
  rw [h]; exact GET_PUT_same m p v

theorem mm_free_eq (h : Heap) (bp : Nat) (hbp : bp ≠ NULL) :
    mm_free h bp = { h with mem := (coalesce (free_mark h.mem bp) bp).2 } := by
  unfold mm_free; rw [if_neg hbp]

theorem fr_zero : fr 0 = [] := rfl

theorem fr_pos {c : Nat} (hc : 16 ≤ c) : fr c = [⟨c, false⟩] := by
  have : c ≠ 0 := by omega
  simp [fr, this]

theorem mm_free_WF {h : Heap} {l1 : List Blk} {c : Nat} {l2 : List Blk}
    (hw : WF h (l1 ++ ⟨c, true⟩ :: l2)) :
    ∃ l1' psz n l2', l1 = l1' ++ fr psz ∧ l2 = fr n ++ l2' ∧ lastA true l1' = true ∧
      headA l2' = true ∧ (psz = 0 ∨ 16 ≤ psz) ∧ (n = 0 ∨ 16 ≤ n) ∧
      WF (mm_free h (h.heap_listp + total l1)) (l1' ++ ⟨psz + c + n, false⟩ :: l2') ∧
      (mm_free h (h.heap_listp + total l1)).heap_listp = h.heap_listp ∧
      (mm_free h (h.heap_listp + total l1)).brk = h.brk ∧
      (mm_free h (h.heap_listp + total l1)).max_addr = h.max_addr ∧
      ∀ x, x + 8 < h.heap_listp + total l1' ∨ h.heap_listp + total l1 + c + n < x + 8 →
        GET (mm_free h (h.heap_listp + total l1)).mem x = GET h.mem x := by
  have hU := U64_val
  obtain ⟨hl8, hch, hbm, hmax⟩ := hw
  have hend := Seg_end hch.1
  rw [total_append] at hend
  simp only [total] at hend
  rw [Chain_append] at hch
  obtain ⟨hs1, ⟨hc1, hc2, hc3, _, hc5⟩, hep⟩ := hch
  simp only [lastA] at hep
  simp only at hc1 hc2 hc3 hc5
  have hch2 : Chain h.mem (h.heap_listp + total l1 + c) true l2 h.brk := ⟨hc5, hep⟩
  have hend2 := Seg_end hc5
  generalize hbp : h.heap_listp + total l1 = bp at *
  have hnn : bp ≠ NULL := by unfold NULL; omega
  rw [mm_free_eq h bp hnn]
  cases hpa : lastA true l1 with
  | true =>
    rw [hpa, hd_tt] at hc3
    cases hha : headA l2 with
    | true =>
      -- case 1: both neighbours allocated
      obtain ⟨hn1, hn2, hn3⟩ := Chain_head hch2 hha
      rw [hd_tt] at hn1
      rw [free_mark_next_alloc h.mem bp c (nsize l2) 2 (Or.inr rfl) hc3 hc2 hc1 hn1 hn2 (by omega)
        (by omega)]
      rw [coalesce_case1 _ bp c (nsize l2)
        (by simp (disch := omega) only [GET_PUT_ne, GET_PUT_eq, Nat.mod_eq_of_lt])
        hc2 (by simp (disch := omega) only [GET_PUT_eq, Nat.mod_eq_of_lt]) hn2 (by omega)
        (by omega)]
      refine ⟨l1, 0, 0, l2, by simp [fr_zero], by simp [fr_zero], hpa, hha, Or.inl rfl, Or.inl rfl,
        ⟨hl8, ?_, hbm, hmax⟩, rfl, rfl, rfl, ?_⟩
      · show Chain _ h.heap_listp true (l1 ++ ⟨0 + c + 0, false⟩ :: l2) h.brk
        rw [Chain_append, hbp, hpa]
        refine ⟨Seg_frame hs1 (fun x hx1 hx2 => ?_), ?_⟩
        · simp (disch := omega) only [GET_PUT_ne]
        · have hch' : Chain (PUT (PUT (PUT h.mem (bp - 8) (c + 2)) (bp + c - 16) (c + 2))
              (bp + c - 8) (nsize l2 + 1)) (bp + c) false l2 h.brk := by
            refine Chain_set_prev hch2 hha (by omega) ?_ (fun x h1 h2 => ?_)
            · simp (disch := omega) only [GET_PUT_eq, hd_tf, Nat.mod_eq_of_lt]
            · simp (disch := omega) only [GET_PUT_ne]
          have e0 : 0 + c + 0 = c := by omega
          rw [e0]
          refine ⟨⟨hc1, hc2, ?_, ?_, hch'.1⟩, hch'.2⟩
          · show GET _ (bp - 8) = hd c false true
            simp (disch := omega) only [GET_PUT_ne, GET_PUT_eq, hd_ft, Nat.mod_eq_of_lt]
          · intro _
            refine ⟨rfl, ?_⟩
            show GET _ (bp + c - 16) = hd c false true
            simp (disch := omega) only [GET_PUT_ne, GET_PUT_eq, hd_ft, Nat.mod_eq_of_lt]
      · intro x hx
        show GET (PUT _ _ _) x = _
        simp (disch := omega) only [GET_PUT_ne]
    | false =>
      -- case 2: the successor is free
      cases l2 with
      | nil => simp [headA] at hha
      | cons N l2' =>
        obtain ⟨n, nal⟩ := N
        simp only [headA] at hha
        subst hha
        obtain ⟨⟨hn1, hn2, hn3, hn4, hn5⟩, hnep⟩ := hch2
        simp only [lastA] at hnep
        simp only at hn1 hn2 hn3 hn5
        rw [hd_ft] at hn3
        have hend3 := Seg_end hn5
        rw [free_mark_next_free h.mem bp c n 2 (Or.inr rfl) hc3 hc2 hc1 hn3 hn2 hn1 (by omega)
          (by omega)]
        rw [coalesce_case2 _ bp c n
          (by simp (disch := omega) only [GET_PUT_ne, GET_PUT_eq, Nat.mod_eq_of_lt])
          hc2 (by simp (disch := omega) only [GET_PUT_ne, GET_PUT_eq, Nat.mod_eq_of_lt]) hn2
          (by omega) (by omega) (by omega)]
        refine ⟨l1, 0, n, l2', by simp [fr_zero], by simp [fr_pos hn1], hpa, Seg_head_alloc hn5,
          Or.inl rfl, Or.inr hn1, ⟨hl8, ?_, hbm, hmax⟩, rfl, rfl, rfl, ?_⟩
        · show Chain _ h.heap_listp true (l1 ++ ⟨0 + c + n, false⟩ :: l2') h.brk
          rw [Chain_append, hbp, hpa]
          refine ⟨Seg_frame hs1 (fun x hx1 hx2 => ?_), ⟨?_, ?_, ?_, ?_, ?_⟩, ?_⟩
          · simp (disch := omega) only [GET_PUT_ne]
          · show 16 ≤ 0 + c + n; omega
          · show (0 + c + n) % 16 = 0; omega
          · show GET _ (bp - 8) = hd (0 + c + n) false true
            simp (disch := omega) only [GET_PUT_ne, GET_PUT_eq, hd_ft, Nat.mod_eq_of_lt,
              Nat.zero_add]
          · intro _
            refine ⟨rfl, ?_⟩
            show GET _ (bp + (0 + c + n) - 16) = hd (0 + c + n) false true
            have e1 : bp + (0 + c + n) - 16 = bp + c + n - 16 := by omega
            simp (disch := omega) only [e1, GET_PUT_eq, hd_ft, Nat.mod_eq_of_lt, Nat.zero_add]
          · show Seg _ (bp + (0 + c + n)) false l2' h.brk
            have e1 : bp + (0 + c + n) = bp + c + n := by omega
            rw [e1]
            refine Seg_frame hn5 (fun x hx1 hx2 => ?_)
            simp (disch := omega) only [GET_PUT_ne]
          · simp only [lastA]
            simp (disch := omega) only [GET_PUT_ne]
            exact hnep
        · intro x hx
          show GET (PUT _ _ _) x = _
          simp (disch := omega) only [GET_PUT_ne]
  | false =>
    rw [hpa, hd_tf] at hc3
    obtain ⟨l, psz, rfl, hp1, hp2, hq, hsl, hll, hph, hpf⟩ := Seg_last_free hs1 hpa
    have e1 : h.heap_listp + total l - 8 = bp - psz - 8 := by omega
    rw [e1] at hph
    cases hha : headA l2 with
    | true =>
      -- case 3: the predecessor is free
      obtain ⟨hn1, hn2, hn3⟩ := Chain_head hch2 hha
      rw [hd_tt] at hn1
      rw [free_mark_next_alloc h.mem bp c (nsize l2) 0 (Or.inl rfl) hc3 hc2 hc1 hn1 hn2 (by omega)
        (by omega)]
      rw [coalesce_case3 _ bp c (nsize l2) psz 2 2
        (by simp (disch := omega) only [GET_PUT_ne, GET_PUT_eq, Nat.mod_eq_of_lt, Nat.add_zero])
        hc2 hc1 (by simp (disch := omega) only [GET_PUT_eq, Nat.mod_eq_of_lt]) hn2
        (by simp (disch := omega) only [GET_PUT_ne, hpf])
        (by simp (disch := omega) only [GET_PUT_ne, hph])
        (by omega) (by omega) hp2 hp1 (by omega) (by omega)]
      refine ⟨l, psz, 0, l2, by simp [fr_pos hp1], by simp [fr_zero], hll, hha, Or.inr hp1,
        Or.inl rfl, ⟨hl8, ?_, hbm, hmax⟩, rfl, rfl, rfl, ?_⟩
      · show Chain _ h.heap_listp true (l ++ ⟨psz + c + 0, false⟩ :: l2) h.brk
        rw [Chain_append, hll]
        refine ⟨Seg_frame hsl (fun x hx1 hx2 => ?_), ?_⟩
        · simp (disch := omega) only [GET_PUT_ne]
        · have hch' : Chain (PUT (PUT (PUT (PUT (PUT h.mem (bp - 8) (c + 0)) (bp + c - 16) (c + 0))
              (bp + c - 8) (nsize l2 + 1)) (bp + c - 16) (c + psz + 2)) (bp - psz - 8)
              (c + psz + 2)) (bp + c) false l2 h.brk := by
            refine Chain_set_prev hch2 hha (by omega) ?_ (fun x h1 h2 => ?_)
            · simp (disch := omega) only [GET_PUT_ne, GET_PUT_eq, hd_tf, Nat.mod_eq_of_lt]
            · simp (disch := omega) only [GET_PUT_ne]
          have e2 : h.heap_listp + total l + (psz + c + 0) = bp + c := by omega
          refine ⟨⟨?_, ?_, ?_, ?_, ?_⟩, hch'.2⟩
          · show 16 ≤ psz + c + 0; omega
          · show (psz + c + 0) % 16 = 0; omega
          · show GET _ (h.heap_listp + total l - 8) = hd (psz + c + 0) false true
            simp (disch := omega) only [GET_PUT_ne, GET_PUT_eq, hd_ft, Nat.mod_eq_of_lt]
            omega
          · intro _
            refine ⟨rfl, ?_⟩
            show GET _ (h.heap_listp + total l + (psz + c + 0) - 16) = hd (psz + c + 0) false true
            simp (disch := omega) only [GET_PUT_ne, GET_PUT_eq, hd_ft, Nat.mod_eq_of_lt]
            omega
          · show Seg _ (h.heap_listp + total l + (psz + c + 0)) false l2 h.brk
            rw [e2]; exact hch'.1
      · intro x hx
        show GET (PUT _ _ _) x = _
        simp (disch := omega) only [GET_PUT_ne]
    | false =>
      -- case 4: both neighbours are free
      cases l2 with
      | nil => simp [headA] at hha
      | cons N l2' =>
        obtain ⟨n, nal⟩ := N
        simp only [headA] at hha
        subst hha
        obtain ⟨⟨hn1, hn2, hn3, hn4, hn5⟩, hnep⟩ := hch2
        simp only [lastA] at hnep
        simp only at hn1 hn2 hn3 hn5
        rw [hd_ft] at hn3
        have hend3 := Seg_end hn5
        rw [free_mark_next_free h.mem bp c n 0 (Or.inl rfl) hc3 hc2 hc1 hn3 hn2 hn1 (by omega)
          (by omega)]
        rw [coalesce_case4 _ bp c n psz 2 2
          (by simp (disch := omega) only [GET_PUT_ne, GET_PUT_eq, Nat.mod_eq_of_lt, Nat.add_zero])
          hc2 hc1 (by simp (disch := omega) only [GET_PUT_ne, GET_PUT_eq, Nat.mod_eq_of_lt]) hn2
          hn1 (by simp (disch := omega) only [GET_PUT_eq, Nat.mod_eq_of_lt])
          (by simp (disch := omega) only [GET_PUT_ne, hpf])
          (by simp (disch := omega) only [GET_PUT_ne, hph])
          (by omega) (by omega) hp2 hp1 (by omega) (by omega)]
        refine ⟨l, psz, n, l2', by simp [fr_pos hp1], by simp [fr_pos hn1], hll,
          Seg_head_alloc hn5, Or.inr hp1, Or.inr hn1, ⟨hl8, ?_, hbm, hmax⟩, rfl, rfl, rfl, ?_⟩
        · show Chain _ h.heap_listp true (l ++ ⟨psz + c + n, false⟩ :: l2') h.brk
          rw [Chain_append, hll]
          refine ⟨Seg_frame hsl (fun x hx1 hx2 => ?_), ⟨?_, ?_, ?_, ?_, ?_⟩, ?_⟩
          · simp (disch := omega) only [GET_PUT_ne]
          · show 16 ≤ psz + c + n; omega
          · show (psz + c + n) % 16 = 0; omega
          · show GET _ (h.heap_listp + total l - 8) = hd (psz + c + n) false true
            simp (disch := omega) only [GET_PUT_ne, GET_PUT_eq, hd_ft, Nat.mod_eq_of_lt]
            omega
          · intro _
            refine ⟨rfl, ?_⟩
            show GET _ (h.heap_listp + total l + (psz + c + n) - 16) = hd (psz + c + n) false true
            simp (disch := omega) only [GET_PUT_ne, GET_PUT_eq, hd_ft, Nat.mod_eq_of_lt]
            omega
          · show Seg _ (h.heap_listp + total l + (psz + c + n)) false l2' h.brk
            have e2 : h.heap_listp + total l + (psz + c + n) = bp + c + n := by omega
            rw [e2]
            refine Seg_frame hn5 (fun x hx1 hx2 => ?_)
            simp (disch := omega) only [GET_PUT_ne]
          · simp only [lastA]
            simp (disch := omega) only [GET_PUT_ne]
            exact hnep
        · intro x hx
          show GET (PUT _ _ _) x = _
          simp (disch := omega) only [GET_PUT_ne]


/-! ## The walk of a block list -/

theorem concr_append (p : Nat) (l1 l2 : List Blk) :
    concr p (l1 ++ l2) = concr p l1 ++ concr (p + total l1) l2 := by
  induction l1 generalizing p with
  | nil => simp [concr, total]
  | cons b l ih => simp [concr, total, ih, Nat.add_assoc]

theorem mem_concr {q sz a : Nat} {bs : List Blk} : ∀ {p : Nat}, (q, sz, a) ∈ concr p bs →
    ∃ l1 al l2, bs = l1 ++ ⟨sz, al⟩ :: l2 ∧ q = p + total l1 ∧ a = if al then 1 else 0 := by
  induction bs with
  | nil => intro p h; simp [concr] at h
  | cons b l ih =>
    intro p h
    simp only [concr, List.mem_cons, Prod.mk.injEq] at h
    rcases h with ⟨h1, h2, h3⟩ | h
    · exact ⟨[], b.alloc, l, by subst h2; rfl, by simp [total, h1], h3⟩
    · obtain ⟨l1, al, l2, e1, e2, e3⟩ := ih h
      exact ⟨b :: l1, al, l2, by simp [e1], by simp only [total]; omega, e3⟩

theorem concr_mem (p : Nat) (l1 : List Blk) (sz : Nat) (al : Bool) (l2 : List Blk) :
    (p + total l1, sz, if al then 1 else 0) ∈ concr p (l1 ++ ⟨sz, al⟩ :: l2) := by
  rw [concr_append]
  simp [concr]

theorem total_fr (c : Nat) : total (fr c) = c := by
  unfold fr; split <;> simp_all [total]

theorem total_placed (c s : Nat) : total (placed c s) = c := by
  unfold placed; split <;> simp [total]; omega

theorem not_mem_fr {q sz c p : Nat} : (q, sz, 1) ∉ concr p (fr c) := by
  unfold fr; split <;> simp [concr]

theorem allocated_iff {h : Heap} {bs : List Blk} (hw : WF h bs) (p : Nat) :
    allocated h p = true ↔ ∃ sz, (p, sz, 1) ∈ concr h.heap_listp bs := by
  unfold allocated
  rw [heap_blocks_of_WF hw]
  simp only [List.any_eq_true, decide_eq_true_eq]
  constructor
  · rintro ⟨⟨q, sz, a⟩, hm, h1, h2⟩
    simp only at h1 h2
    obtain ⟨l1, al, l2, e1, e2, e3⟩ := mem_concr hm
    cases al with
    | true => simp only [reduceIte] at e3; subst h1 e3; exact ⟨sz, hm⟩
    | false => simp at e3; exact absurd e3 h2
  · rintro ⟨sz, hm⟩
    exact ⟨(p, sz, 1), hm, rfl, by simp⟩

theorem allocated_split {h : Heap} {bs : List Blk} (hw : WF h bs) {p : Nat}
    (hp : allocated h p = true) :
    ∃ l1 c l2, bs = l1 ++ ⟨c, true⟩ :: l2 ∧ p = h.heap_listp + total l1 := by
  obtain ⟨sz, hm⟩ := (allocated_iff hw p).1 hp
  obtain ⟨l1, al, l2, e1, e2, e3⟩ := mem_concr hm
  cases al with
  | true => exact ⟨l1, sz, l2, e1, e2⟩
  | false => simp at e3

/-- The size field of a block of a well-formed heap. -/
theorem GET_SIZE_block {h : Heap} {l1 : List Blk} {c : Nat} {al : Bool} {l2 : List Blk}
    (hw : WF h (l1 ++ ⟨c, al⟩ :: l2)) :
    HDRP (h.heap_listp + total l1) = h.heap_listp + total l1 - 8 ∧
    GET h.mem (h.heap_listp + total l1 - 8) = hd c al (lastA true l1) ∧
    GET_SIZE h.mem (HDRP (h.heap_listp + total l1)) = c ∧ 16 ≤ c ∧ c % 16 = 0 ∧
    h.heap_listp + total l1 + c ≤ h.brk := by
  have hU := U64_val
  obtain ⟨hl8, hch, hbm, hmax⟩ := hw
  have hend := Seg_end hch.1
  rw [total_append] at hend
  simp only [total] at hend
  rw [Chain_append] at hch
  obtain ⟨_, ⟨hc1, hc2, hc3, _, _⟩, _⟩ := hch
  simp only at hc1 hc2 hc3
  have e1 : HDRP (h.heap_listp + total l1) = h.heap_listp + total l1 - 8 := by
    unfold HDRP; rw [WSIZE_val, sub64_eq] <;> omega
  refine ⟨e1, hc3, ?_, hc1, hc2, by omega⟩
  rw [e1, GET_SIZE_eq, hc3, hd_size _ _ hc2]

/-! ## Stores of the caller -/

/-- Writes inside the payload of an allocated block keep the block list. -/
theorem Chain_payload {m m' : Mem} {p0 : Nat} {l1 : List Blk} {c : Nat} {l2 : List Blk}
    {e : Nat} (h : Chain m p0 true (l1 ++ ⟨c, true⟩ :: l2) e) (hp : 8 ≤ p0)
    (hf : ∀ y, y < p0 + total l1 ∨ p0 + total l1 + c ≤ y + 8 → GET m' y = GET m y) :
    Chain m' p0 true (l1 ++ ⟨c, true⟩ :: l2) e := by
  rw [Chain_append] at h ⊢
  obtain ⟨hs1, ⟨hc1, hc2, hc3, _, hc5⟩, hep⟩ := h
  simp only at hc1 hc2 hc3 hc5
  have hend := Seg_end hc5
  refine ⟨Seg_frame hs1 (fun x h1 h2 => hf x (by omega)), ⟨hc1, hc2, ?_, by simp, ?_⟩, ?_⟩
  · show GET m' (p0 + total l1 - 8) = _
    rw [hf _ (by omega)]; exact hc3
  · show Seg m' (p0 + total l1 + c) true l2 e
    exact Seg_frame hc5 (fun x h1 h2 => hf x (by omega))
  · rw [hf _ (by omega)]; exact hep

theorem store_WF {h : Heap} {bs : List Blk} (hw : WF h bs) {p x : Nat} (v : Nat)
    (hp : allocated h p = true) (h1 : p ≤ x)
    (h2 : x + WSIZE ≤ p + GET_SIZE h.mem (HDRP p) - WSIZE) : WF (store h x v) bs := by
  obtain ⟨l1, c, l2, rfl, rfl⟩ := allocated_split hw hp
  obtain ⟨_, _, e3, e4, _, _⟩ := GET_SIZE_block hw
  rw [e3, WSIZE_val] at h2
  obtain ⟨hl8, hch, hbm, hmax⟩ := hw
  refine ⟨hl8, ?_, hbm, hmax⟩
  show Chain (PUT h.mem x v) h.heap_listp true (l1 ++ ⟨c, true⟩ :: l2) h.brk
  exact Chain_payload hch hl8 (fun y hy => GET_PUT_ne _ _ (by omega))


/-! ## Allocated blocks across `mm_malloc` -/

theorem mem_concr_bounds {q sz a : Nat} {l : List Blk} {p : Nat} (h : (q, sz, a) ∈ concr p l) :
    p ≤ q ∧ q + sz ≤ p + total l := by
  obtain ⟨l1, al, l2, e1, e2, _⟩ := mem_concr h
  subst e1 e2
  rw [total_append]
  simp only [total]
  omega

theorem placed_cons (c s : Nat) (h : s ≤ c) :
    ∃ cn rest, placed c s = ⟨cn, true⟩ :: rest ∧ s ≤ cn ∧ cn ≤ c := by
  unfold placed
  split
  · exact ⟨s, _, rfl, le_refl _, h⟩
  · exact ⟨c, _, rfl, h, le_refl _⟩

/-- The allocated blocks of the list before `mm_malloc` are blocks of the list
after it, and lie outside the chosen free block. -/
theorem malloc_keeps {hl : Nat} {l1 : List Blk} {c0 c a : Nat} {l2 : List Blk}
    (h2 : l2 = [] ∨ c0 = c) {q sz : Nat}
    (hm : (q, sz, 1) ∈ concr hl (l1 ++ (fr c0 ++ l2))) :
    (q, sz, 1) ∈ concr hl (l1 ++ (placed c a ++ l2)) ∧
      (q + sz ≤ hl + total l1 ∨ hl + total l1 + c ≤ q) := by
  rw [concr_append, concr_append, List.mem_append, List.mem_append] at hm
  rw [concr_append, concr_append, List.mem_append, List.mem_append]
  rcases hm with hm | hm | hm
  · exact ⟨Or.inl hm, Or.inl (mem_concr_bounds hm).2⟩
  · exact absurd hm not_mem_fr
  · rcases h2 with rfl | rfl
    · simp [concr] at hm
    · rw [total_fr] at hm
      rw [total_placed]
      exact ⟨Or.inr (Or.inr hm), Or.inr (mem_concr_bounds hm).1⟩

/-! ## `memcpy` -/

theorem memcpy_frame (m : Mem) (dst src n y : Nat)
    (hy : y < dst ∨ dst + (n + 7) / 8 * 8 ≤ y) : GET (memcpy m dst src n) y = GET m y := by
  unfold GET memcpy
  rw [if_neg (by omega), if_neg (by omega)]

/-! ## `mm_realloc` on a well-formed heap -/

theorem realloc_absorb_split (m : Mem) (bp t s f : Nat) (hf : f = 0 ∨ f = 2)
    (hB : GET m (bp - 8) / 2 % 2 * 2 = f) (hs : s % 16 = 0) (ht : t % 16 = 0)
    (h2 : s + 16 ≤ t) (h0 : 8 ≤ bp) (h3 : bp + t < U64) :
    realloc_absorb m bp t s =
      PUT (PUT (PUT m (bp - 8) (s + 1 + f)) (bp + s - 8) (t - s + 2)) (bp + t - 16)
        (t - s + 2) := by
  have hU := U64_val
  rcases hf with rfl | rfl <;>
  simp (disch := omega) only [realloc_absorb, HDRP, FTRP, NEXT_BLKP, WSIZE_val, DSIZE_val,
    add64_eq, sub64_eq, GET_SIZE_eq, GET_ALLOC_eq, GET_PREV_ALLOC_eq, GET_PUT_eq, GET_PUT_ne,
    PACK_eq, Nat.mod_eq_of_lt, hB, if_pos, if_neg, size_of_word, size_of_word0, Nat.add_zero,
    reduceIte, Nat.reduceMul]
  all_goals repeat (first | rfl | apply PUT_congr)
  all_goals omega

theorem realloc_absorb_whole (m : Mem) (bp t n f : Nat) (hf : f = 0 ∨ f = 2)
    (hB : GET m (bp - 8) / 2 % 2 * 2 = f) (ht : t % 16 = 0) (ht1 : 16 ≤ t)
    (hN : GET m (bp + t - 8) = n + 1) (hn : n % 16 = 0) (h0 : 8 ≤ bp) (h3 : bp + t < U64) :
    realloc_absorb m bp t t = PUT (PUT m (bp - 8) (t + 1 + f)) (bp + t - 8) (n + 3) := by
  have hU := U64_val
  have := GET_lt m (bp + t - 8)
  rcases hf with rfl | rfl <;>
  simp (disch := omega) only [realloc_absorb, HDRP, FTRP, NEXT_BLKP, WSIZE_val, DSIZE_val,
    add64_eq, sub64_eq, GET_SIZE_eq, GET_ALLOC_eq, GET_PREV_ALLOC_eq, GET_PUT_eq, GET_PUT_ne,
    PACK_eq, Nat.mod_eq_of_lt, hB, hN, if_pos, if_neg, size_of_word, size_of_word0, Nat.add_zero,
    reduceIte, Nat.reduceMul]
  all_goals repeat (first | rfl | apply PUT_congr)
  all_goals omega

theorem absorb_Chain {m : Mem} {p0 : Nat} {l1 : List Blk} {c n : Nat} {l2 : List Blk} {e s : Nat}
    (h : Chain m p0 true (l1 ++ ⟨c, true⟩ :: ⟨n, false⟩ :: l2) e) (hp : 8 ≤ p0) (he : e < U64)
    (hs2 : s % 16 = 0) (hs1 : c < s) (hs3 : s ≤ c + n) :
    Chain (realloc_absorb m (p0 + total l1) (c + n) s) p0 true (l1 ++ (placed (c + n) s ++ l2)) e ∧
    ∀ x, (x + 8 < p0 + total l1 ∨ p0 + total l1 + c + n < x + 8) ∨
        (p0 + total l1 ≤ x ∧ x + 8 ≤ p0 + total l1 + c) →
      GET (realloc_absorb m (p0 + total l1) (c + n) s) x = GET m x := by
  have hU := U64_val
  rw [Chain_append] at h
  obtain ⟨hs, ⟨hc1, hc2, hc3, _, ⟨hn1, hn2, hn3, hn4, hn5⟩⟩, hep⟩ := h
  simp only at hc1 hc2 hc3 hn1 hn2 hn3 hn5
  rw [hd_ft] at hn3
  have hend := Seg_end hn5
  simp only [lastA] at hep
  generalize hbp : p0 + total l1 = bp at *
  have hf : (if lastA true l1 then 2 else 0) = 0 ∨ (if lastA true l1 then 2 else 0) = 2 := by
    cases lastA true l1 <;> simp
  have hB : GET m (bp - 8) / 2 % 2 * 2 = if lastA true l1 then 2 else 0 := by
    rw [hc3, hd_prev _ _ hc2]
  have hhd : ∀ z, z + 1 + (if lastA true l1 then 2 else 0) = hd z true (lastA true l1) := by
    intro z; cases lastA true l1 <;> simp [hd]
  by_cases hsplit : s + 16 ≤ c + n
  · rw [realloc_absorb_split m bp (c + n) s _ hf hB hs2 (by omega) hsplit (by omega) (by omega)]
    refine ⟨?_, ?_⟩
    · rw [Chain_append, hbp]
      refine ⟨Seg_frame hs (fun x h1 h2 => ?_), ?_⟩
      · simp (disch := omega) only [GET_PUT_ne]
      · simp only [placed, if_pos hsplit, List.cons_append, List.nil_append]
        refine ⟨⟨?_, hs2, ?_, by simp, ⟨?_, ?_, ?_, ?_, ?_⟩⟩, ?_⟩
        · show 16 ≤ s; omega
        · show GET _ (bp - 8) = hd s true (lastA true l1)
          simp (disch := omega) only [GET_PUT_ne, GET_PUT_eq]
          rw [hhd, Nat.mod_eq_of_lt]
          cases lastA true l1 <;> simp [hd] <;> omega
        · show 16 ≤ c + n - s; omega
        · show (c + n - s) % 16 = 0; omega
        · show GET _ (bp + s - 8) = hd (c + n - s) false true
          simp (disch := omega) only [GET_PUT_ne, GET_PUT_eq, hd_ft, Nat.mod_eq_of_lt]
        · intro _
          refine ⟨rfl, ?_⟩
          show GET _ (bp + s + (c + n - s) - 16) = hd (c + n - s) false true
          simp (disch := omega) only [GET_PUT_eq, hd_ft, Nat.mod_eq_of_lt]
        · show Seg _ (bp + s + (c + n - s)) false l2 e
          have e1 : bp + s + (c + n - s) = bp + c + n := by omega
          rw [e1]
          refine Seg_frame hn5 (fun x h1 h2 => ?_)
          simp (disch := omega) only [GET_PUT_ne]
        · simp only [lastA]
          simp (disch := omega) only [GET_PUT_ne]
          exact hep
    · intro x hx
      simp (disch := omega) only [GET_PUT_ne]
  · have hcs : s = c + n := by omega
    subst hcs
    have hch : Chain m (bp + c + n) false l2 e := ⟨hn5, hep⟩
    have hha := Seg_head_alloc hn5
    obtain ⟨g1, g2, g3⟩ := Chain_head hch hha
    rw [hd_tf] at g1
    have e1 : bp + (c + n) - 8 = bp + c + n - 8 := by omega
    rw [realloc_absorb_whole m bp (c + n) (nsize l2) _ hf hB hs2 (by omega) (by rw [e1]; exact g1)
      g2 (by omega) (by omega)]
    rw [e1]
    refine ⟨?_, ?_⟩
    · rw [Chain_append, hbp]
      refine ⟨Seg_frame hs (fun x h1 h2 => ?_), ?_⟩
      · simp (disch := omega) only [GET_PUT_ne]
      · simp only [placed, if_neg hsplit, List.cons_append, List.nil_append]
        have hch' : Chain (PUT (PUT m (bp - 8) (c + n + 1 + (if lastA true l1 then 2 else 0)))
            (bp + c + n - 8) (nsize l2 + 3)) (bp + c + n) true l2 e := by
          refine Chain_set_prev hch hha (by omega) ?_ (fun x h1 h2 => ?_)
          · simp (disch := omega) only [GET_PUT_eq, hd_tt, Nat.mod_eq_of_lt]
          · simp (disch := omega) only [GET_PUT_ne]
        refine ⟨⟨?_, hs2, ?_, by simp, ?_⟩, hch'.2⟩
        · show 16 ≤ c + n; omega
        · show GET _ (bp - 8) = hd (c + n) true (lastA true l1)
          simp (disch := omega) only [GET_PUT_ne, GET_PUT_eq]
          rw [hhd, Nat.mod_eq_of_lt]
          cases lastA true l1 <;> simp [hd] <;> omega
        · show Seg _ (bp + (c + n)) true l2 e
          have e2 : bp + (c + n) = bp + c + n := by omega
          rw [e2]; exact hch'.1
    · intro x hx
      simp (disch := omega) only [GET_PUT_ne]

theorem realloc_move_WF {h : Heap} {bs : List Blk} {p s c q : Nat} {h' : Heap} (hw : WF h bs)
    (hp : allocated h p = true) (hs : Fits s) (hs0 : s ≠ 0)
    (hm : realloc_move h p s c = some (q, h')) : ∃ bs', WF h' bs' := by
  have hU := U64_val
  obtain ⟨ha1, ha2, ha3, ha4, ha5⟩ := adjust_fits hs hs0
  unfold realloc_move at hm
  cases hmal : mm_malloc h s with
  | none => rw [hmal] at hm; simp at hm
  | some r =>
    obtain ⟨np, h1⟩ := r
    rw [hmal] at hm
    simp only at hm
    rcases mm_malloc_WF hw ha1 ha2 ha3 hmal with ⟨hnull, hh⟩ |
      ⟨_, l1, c0, cc, l2, hbs, hc0, hl2, hcc, hnp, hw1, hhl, hmx, hfr⟩
    · rw [if_pos hnull] at hm
      simp only [Option.some.injEq, Prod.mk.injEq] at hm
      rw [← hm.2, hh]
      exact ⟨bs, hw⟩
    · have hnn : ¬ np = NULL := by
        have := hw.1
        rw [hnp]; unfold NULL; omega
      rw [if_neg hnn] at hm
      simp only [Option.some.injEq, Prod.mk.injEq] at hm
      obtain ⟨_, hh'⟩ := hm
      -- the copy stays inside the payload of the new block
      obtain ⟨cn, rest, hpl, hcn1, hcn2⟩ := placed_cons cc (adjust s) hcc
      rw [hpl] at hw1
      have hblk := GET_SIZE_block hw1
      rw [hhl] at hblk
      have hw2 : WF { h1 with mem := memcpy h1.mem np p (if s < c then s else c) }
          (l1 ++ (⟨cn, true⟩ :: rest ++ l2)) := by
        obtain ⟨g1, g2, g3, g4⟩ := hw1
        refine ⟨g1, ?_, g3, g4⟩
        show Chain (memcpy h1.mem np p (if s < c then s else c)) h1.heap_listp true
          (l1 ++ ⟨cn, true⟩ :: (rest ++ l2)) h1.brk
        refine Chain_payload g2 g1 (fun y hy => memcpy_frame _ _ _ _ _ ?_)
        rw [hhl, ← hnp] at hy
        have : (if s < c then s else c) ≤ s := by split <;> omega
        omega
      -- the old block is still allocated
      have hp2 : allocated { h1 with mem := memcpy h1.mem np p (if s < c then s else c) } p
          = true := by
        rw [allocated_iff hw2]
        obtain ⟨sz, hsz⟩ := (allocated_iff hw p).1 hp
        rw [hbs] at hsz
        have := (malloc_keeps (c := cc) (a := adjust s) hl2 hsz).1
        rw [hpl] at this
        exact ⟨sz, by rw [show ({ h1 with mem := memcpy h1.mem np p (if s < c then s else c) } :
          Heap).heap_listp = h.heap_listp from hhl]; exact this⟩
      generalize ({ h1 with mem := memcpy h1.mem np p (if s < c then s else c) } : Heap) = H2
        at hw2 hp2 hh'
      obtain ⟨k1, kc, k2, hk, hkp⟩ := allocated_split hw2 hp2
      rw [hk] at hw2
      obtain ⟨_, _, _, _, _, _, _, _, _, _, hfw, _⟩ := mm_free_WF hw2
      subst hkp
      rw [← hh']
      exact ⟨_, hfw⟩

theorem mm_free_NULL (h : Heap) : mm_free h NULL = h := by
  unfold mm_free; rw [if_pos rfl]

theorem mm_realloc_WF {h : Heap} {bs : List Blk} {p s q : Nat} {h' : Heap} (hw : WF h bs)
    (hp : p = NULL ∨ allocated h p = true) (hs : Fits s) (hn : ¬ Shrinks h p s)
    (hm : mm_realloc h p s = some (q, h')) : ∃ bs', WF h' bs' := by
  have hU := U64_val
  unfold mm_realloc at hm
  by_cases hs0 : s = 0
  · rw [if_pos hs0] at hm
    simp only [Option.some.injEq, Prod.mk.injEq] at hm
    rw [← hm.2]
    rcases hp with rfl | hp
    · rw [mm_free_NULL]; exact ⟨bs, hw⟩
    · obtain ⟨l1, c, l2, rfl, rfl⟩ := allocated_split hw hp
      obtain ⟨_, _, _, _, _, _, _, _, _, _, hfw, _⟩ := mm_free_WF hw
      exact ⟨_, hfw⟩
  rw [if_neg hs0] at hm
  obtain ⟨ha1, ha2, ha3, ha4, ha5⟩ := adjust_fits hs hs0
  by_cases hp0 : p = NULL
  · rw [if_pos hp0] at hm
    rcases mm_malloc_WF hw ha1 ha2 ha3 hm with ⟨_, hh⟩ | ⟨_, l1, c0, cc, l2, _, _, _, _, _, hw1, _⟩
    · rw [hh]; exact ⟨bs, hw⟩
    · exact ⟨_, hw1⟩
  rw [if_neg hp0] at hm
  have hpa : allocated h p = true := by
    rcases hp with hp | hp
    · exact absurd hp hp0
    · exact hp
  obtain ⟨l1, c, l2, rfl, rfl⟩ := allocated_split hw hpa
  obtain ⟨e1, e2, e3, e4, e5, e6⟩ := GET_SIZE_block hw
  simp only [e3] at hm
  by_cases hc1 : c = adjust s
  · rw [if_pos hc1] at hm
    simp only [Option.some.injEq, Prod.mk.injEq] at hm
    rw [← hm.2]; exact ⟨_, hw⟩
  rw [if_neg hc1] at hm
  by_cases hc2 : c > adjust s ∧ sub64 c (adjust s) ≤ MINIMUM
  · rw [if_pos hc2] at hm
    simp only [Option.some.injEq, Prod.mk.injEq] at hm
    rw [← hm.2]; exact ⟨_, hw⟩
  rw [if_neg hc2] at hm
  have hlt : ¬ c > adjust s := by
    intro hgt
    apply hn
    refine ⟨hs0, hp0, by rw [e3]; exact hgt, ?_⟩
    rw [e3]
    intro hle
    exact hc2 ⟨hgt, hle⟩
  rw [if_neg hlt] at hm
  have hmem : ({ h with mem := h.mem } : Heap) = h := rfl
  rw [hmem] at hm
  obtain ⟨hl8, hch, hbm, hmax⟩ := hw
  have hend := Seg_end hch.1
  rw [total_append] at hend
  simp only [total] at hend
  have hnx : NEXT_BLKP h.mem (h.heap_listp + total l1) = h.heap_listp + total l1 + c := by
    show add64 (h.heap_listp + total l1) (GET_SIZE h.mem (HDRP (h.heap_listp + total l1))) = _
    rw [e3, add64_eq (by omega)]
  have hnh : HDRP (h.heap_listp + total l1 + c) = h.heap_listp + total l1 + c - 8 := by
    unfold HDRP; rw [WSIZE_val, sub64_eq] <;> omega
  rw [hnx, hnh] at hm
  have hch0 := hch
  rw [Chain_append] at hch
  obtain ⟨hs1, ⟨_, _, _, _, hc5⟩, hep⟩ := hch
  simp only [lastA] at hep
  simp only at hc5
  have hch2 : Chain h.mem (h.heap_listp + total l1 + c) true l2 h.brk := ⟨hc5, hep⟩
  cases hha : headA l2 with
  | true =>
    obtain ⟨hn1, hn2, hn3⟩ := Chain_head hch2 hha
    have ga : GET_ALLOC h.mem (h.heap_listp + total l1 + c - 8) = 1 := by
      rw [GET_ALLOC_eq, hn1, hd_alloc _ _ hn2]; rfl
    rw [ga] at hm
    simp only [ne_eq, one_ne_zero, not_false_eq_true, not_true_eq_false, false_and,
      reduceIte] at hm
    exact realloc_move_WF ⟨hl8, hch0, hbm, hmax⟩ hpa hs hs0 hm
  | false =>
    cases l2 with
    | nil => simp [headA] at hha
    | cons N l2' =>
      obtain ⟨n, nal⟩ := N
      simp only [headA] at hha
      subst hha
      obtain ⟨g1, g2, g3, _, _⟩ := hc5
      simp only at g1 g2 g3
      have ga : GET_ALLOC h.mem (h.heap_listp + total l1 + c - 8) = 0 := by
        rw [GET_ALLOC_eq, g3, hd_alloc _ _ g2]; rfl
      have gs : GET_SIZE h.mem (h.heap_listp + total l1 + c - 8) = n := by
        rw [GET_SIZE_eq, g3, hd_size _ _ g2]
      simp only [total] at hend
      rw [ga, gs, add64_eq (by omega), add64_eq (by omega)] at hm
      by_cases hfit : n + c ≥ adjust s
      · rw [if_pos ⟨by simp, hfit⟩] at hm
        simp only [Option.some.injEq, Prod.mk.injEq] at hm
        rw [← hm.2]
        have hab := absorb_Chain (s := adjust s) hch0 hl8 (by omega) ha2 (by omega) (by omega)
        exact ⟨_, hl8, hab.1, hbm, hmax⟩
      · rw [if_neg (fun hc => hfit hc.2)] at hm
        exact realloc_move_WF ⟨hl8, hch0, hbm, hmax⟩ hpa hs hs0 hm


/-! ## Reachable states are well-formed -/

theorem Reachable_WF {h : Heap} (hr : Reachable h) : ∃ bs, WF h bs := by
  induction hr with
  | init h hmax hok => exact ⟨_, mm_init_WF h hmax hok⟩
  | malloc s p h' _ hs hm ih =>
    obtain ⟨bs, hw⟩ := ih
    by_cases hs0 : s = 0
    · subst hs0
      simp only [mm_malloc, reduceIte, Option.some.injEq, Prod.mk.injEq] at hm
      rw [← hm.2]; exact ⟨bs, hw⟩
    · obtain ⟨ha1, ha2, ha3, _, _⟩ := adjust_fits hs hs0
      rcases mm_malloc_WF hw ha1 ha2 ha3 hm with ⟨_, hh⟩ | ⟨_, _, _, _, _, _, _, _, _, _, hw1, _⟩
      · rw [hh]; exact ⟨bs, hw⟩
      · exact ⟨_, hw1⟩
  | free p _ hp ih =>
    obtain ⟨bs, hw⟩ := ih
    rcases hp with rfl | hp
    · rw [mm_free_NULL]; exact ⟨bs, hw⟩
    · obtain ⟨l1, c, l2, rfl, rfl⟩ := allocated_split hw hp
      obtain ⟨_, _, _, _, _, _, _, _, _, _, hfw, _⟩ := mm_free_WF hw
      exact ⟨_, hfw⟩
  | realloc p s q h' _ hp hs hn hm ih =>
    obtain ⟨bs, hw⟩ := ih
    exact mm_realloc_WF hw hp hs hn hm
  | store p x v _ hp h1 h2 _ ih =>
    obtain ⟨bs, hw⟩ := ih
    exact ⟨bs, store_WF hw v hp h1 h2⟩

/-! ## No two adjacent free blocks -/

theorem adjacent_free_concr {m : Mem} {bs : List Blk} {e : Nat} :
    ∀ {p : Nat} {pa : Bool}, Seg m p pa bs e → adjacent_free (concr p bs) = false := by
  induction bs with
  | nil => intro p pa _; rfl
  | cons b l ih =>
    intro p pa h
    obtain ⟨_, _, _, _, h5⟩ := h
    cases l with
    | nil => rfl
    | cons b2 l' =>
      have := ih h5
      obtain ⟨_, _, _, g4, _⟩ := h5
      simp only [concr, adjacent_free, Bool.or_eq_false_iff, decide_eq_false_iff_not] at this ⊢
      refine ⟨?_, this⟩
      rintro ⟨hb, hb2⟩
      cases hal2 : b2.alloc with
      | true => simp [hal2] at hb2
      | false =>
        have := (g4 hal2).1
        simp [this] at hb


/-! ## Alignment -/

theorem GET_SIZE_mod (m : Mem) (p : Nat) : GET_SIZE m p % 16 = 0 := by
  rw [GET_SIZE_eq]; omega

theorem add64_mod {a b : Nat} (ha : a % 16 = 0) (hb : b % 16 = 0) : add64 a b % 16 = 0 := by
  unfold add64; rw [U64_val]; omega

theorem sub64_mod {a b : Nat} (ha : a % 16 = 0) (hb : b % 16 = 0) : sub64 a b % 16 = 0 := by
  unfold sub64; rw [U64_val]; omega

theorem mul64_mod (a : Nat) : mul64 a 16 % 16 = 0 := by
  unfold mul64; rw [U64_val]; omega

theorem NEXT_BLKP_mod (m : Mem) {bp : Nat} (h : bp % 16 = 0) : NEXT_BLKP m bp % 16 = 0 :=
  add64_mod h (GET_SIZE_mod _ _)

theorem PREV_BLKP_mod (m : Mem) {bp : Nat} (h : bp % 16 = 0) : PREV_BLKP m bp % 16 = 0 :=
  sub64_mod h (GET_SIZE_mod _ _)

theorem coalesce_mod (m : Mem) {bp : Nat} (h : bp % 16 = 0) : (coalesce m bp).1 % 16 = 0 := by
  unfold coalesce
  simp only
  split
  · exact h
  · split
    · exact h
    · split
      · exact PREV_BLKP_mod _ h
      · exact PREV_BLKP_mod _ h

theorem extend_heap_cases (h : Heap) (words : Nat) :
    extend_heap h words = (NULL, h) ∨ h.brk = SBRK_FAIL ∨
    ∃ size M, size % 16 = 0 ∧ extend_heap h words =
      ((coalesce M h.brk).1,
        { mem := (coalesce M h.brk).2, heap_listp := h.heap_listp, brk := h.brk + size,
          max_addr := h.max_addr }) := by
  have hsz : (if words % 2 ≠ 0 then mul64 (add64 words 1) WSIZE else mul64 words WSIZE) % 16
      = 0 := by
    unfold mul64 add64
    rw [WSIZE_val, U64_val]
    split <;> omega
  unfold extend_heap
  simp only
  generalize (if words % 2 ≠ 0 then mul64 (add64 words 1) WSIZE else mul64 words WSIZE) = size
    at hsz ⊢
  unfold mem_sbrk
  by_cases hfit : h.brk + size ≤ h.max_addr
  · rw [if_pos hfit]
    simp only
    by_cases hf : h.brk = SBRK_FAIL
    · exact Or.inr (Or.inl hf)
    · rw [if_neg hf]
      exact Or.inr (Or.inr ⟨size, _, hsz, rfl⟩)
  · rw [if_neg hfit, if_pos rfl]
    exact Or.inl rfl

theorem extend_heap_aligned {h : Heap} (words : Nat) (ha : Aligned h) :
    (extend_heap h words).1 % 16 = 0 ∧ Aligned (extend_heap h words).2 := by
  obtain ⟨ha1, ha2⟩ := ha
  unfold Aligned
  rw [DSIZE_val] at ha1 ha2 ⊢
  rcases extend_heap_cases h words with he | hf | ⟨size, M, hsz, he⟩
  · rw [he]; exact ⟨rfl, ha1, ha2⟩
  · rw [hf] at ha2
    exact absurd ha2 (by decide)
  · rw [he]
    exact ⟨coalesce_mod M ha2, ha1, by show (h.brk + size) % 16 = 0; omega⟩

theorem find_fit_loop_mod (m : Mem) (s : Nat) : ∀ (fuel bp r : Nat), bp % 16 = 0 →
    find_fit_loop m s fuel bp = some r → r % 16 = 0 := by
  intro fuel
  induction fuel with
  | zero => intro bp r _ h; simp [find_fit_loop] at h
  | succ f ih =>
    intro bp r hbp h
    unfold find_fit_loop at h
    split at h
    · split at h
      · simp only [Option.some.injEq] at h; rw [← h]; exact hbp
      · exact ih _ r (NEXT_BLKP_mod m hbp) h
    · simp only [Option.some.injEq] at h; rw [← h]; rfl

theorem mm_malloc_aligned {h : Heap} (ha : Aligned h) {s p : Nat} {h' : Heap}
    (hm : mm_malloc h s = some (p, h')) : p % 16 = 0 ∧ Aligned h' := by
  unfold mm_malloc at hm
  split at hm
  · simp only [Option.some.injEq, Prod.mk.injEq] at hm
    rw [← hm.1, ← hm.2]; exact ⟨rfl, ha⟩
  · simp only at hm
    split at hm
    · exact absurd hm (by simp)
    · rename_i bp hff
      have hbp : bp % 16 = 0 := by
        have := ha.1
        rw [DSIZE_val] at this
        exact find_fit_loop_mod _ _ _ _ _ this hff
      split at hm
      · simp only [Option.some.injEq, Prod.mk.injEq] at hm
        rw [← hm.1, ← hm.2]; exact ⟨hbp, ha⟩
      · obtain ⟨e1, e2⟩ := extend_heap_aligned (MAX (adjust s) CHUNKSIZE / WSIZE) ha
        split at hm
        · simp only [Option.some.injEq, Prod.mk.injEq] at hm
          rw [← hm.1, ← hm.2]; exact ⟨rfl, e2⟩
        · simp only [Option.some.injEq, Prod.mk.injEq] at hm
          rw [← hm.1, ← hm.2]; exact ⟨e1, e2⟩

theorem mm_free_aligned {h : Heap} (ha : Aligned h) (p : Nat) : Aligned (mm_free h p) := by
  unfold mm_free; split
  · exact ha
  · exact ha

theorem realloc_move_aligned {h : Heap} (ha : Aligned h) {p s c q : Nat} {h' : Heap}
    (hm : realloc_move h p s c = some (q, h')) : Aligned h' := by
  unfold realloc_move at hm
  cases hmal : mm_malloc h s with
  | none => rw [hmal] at hm; exact absurd hm (by simp)
  | some r =>
    rw [hmal] at hm
    have har : Aligned r.2 := (@mm_malloc_aligned h ha s r.1 r.2 hmal).2
    simp only at hm
    by_cases hn : r.1 = NULL
    · rw [if_pos hn] at hm
      simp only [Option.some.injEq, Prod.mk.injEq] at hm
      rw [← hm.2]; exact har
    · rw [if_neg hn] at hm
      simp only [Option.some.injEq, Prod.mk.injEq] at hm
      rw [← hm.2]
      exact mm_free_aligned (show Aligned ({ r.2 with
        mem := memcpy r.2.mem r.1 p (if s < c then s else c) } : Heap) from ⟨har.1, har.2⟩) p

theorem mm_realloc_aligned {h : Heap} (ha : Aligned h) {p s q : Nat} {h' : Heap}
    (hm : mm_realloc h p s = some (q, h')) : Aligned h' := by
  unfold mm_realloc at hm
  by_cases h1 : s = 0
  · rw [if_pos h1] at hm
    simp only [Option.some.injEq, Prod.mk.injEq] at hm
    rw [← hm.2]; exact mm_free_aligned ha p
  rw [if_neg h1] at hm
  by_cases h2 : p = NULL
  · rw [if_pos h2] at hm
    exact (mm_malloc_aligned ha hm).2
  rw [if_neg h2] at hm
  simp only at hm
  by_cases h3 : GET_SIZE h.mem (HDRP p) = adjust s
  · rw [if_pos h3] at hm
    simp only [Option.some.injEq, Prod.mk.injEq] at hm
    rw [← hm.2]; exact ha
  rw [if_neg h3] at hm
  by_cases h4 : GET_SIZE h.mem (HDRP p) > adjust s ∧
      sub64 (GET_SIZE h.mem (HDRP p)) (adjust s) ≤ MINIMUM
  · rw [if_pos h4] at hm
    simp only [Option.some.injEq, Prod.mk.injEq] at hm
    rw [← hm.2]; exact ha
  rw [if_neg h4] at hm
  generalize (if GET_SIZE h.mem (HDRP p) > adjust s then
    realloc_shrink h.mem p (GET_SIZE h.mem (HDRP p)) (adjust s) else h.mem) = m at hm
  by_cases h5 : ¬ GET_ALLOC m (HDRP (NEXT_BLKP m p)) ≠ 0 ∧
      add64 (GET_SIZE m (HDRP (NEXT_BLKP m p))) (GET_SIZE h.mem (HDRP p)) ≥ adjust s
  · rw [if_pos h5] at hm
    simp only [Option.some.injEq, Prod.mk.injEq] at hm
    rw [← hm.2]; exact ⟨ha.1, ha.2⟩
  · rw [if_neg h5] at hm
    exact realloc_move_aligned (show Aligned ({ h with mem := m } : Heap) from ⟨ha.1, ha.2⟩) hm

theorem mm_init_aligned (h : Heap) (hb : h.brk % DSIZE = 0) (hok : (mm_init h).1 = 0) :
    Aligned (mm_init h).2 := by
  rw [DSIZE_val] at hb
  unfold mm_init mem_sbrk at hok ⊢
  simp only at hok ⊢
  by_cases hfit : h.brk + 4 * WSIZE ≤ h.max_addr
  · rw [if_pos hfit] at hok ⊢
    simp only at hok ⊢
    by_cases hf : h.brk = SBRK_FAIL
    · rw [if_pos hf] at hok
      simp only at hok
      exact absurd hok (by decide)
    · rw [if_neg hf] at hok ⊢
      have ha : Aligned
          { mem := PUT (PUT (PUT (PUT h.mem h.brk 0) (add64 h.brk (1 * WSIZE)) (PACK DSIZE 1))
              (add64 h.brk (2 * WSIZE)) (PACK DSIZE 1)) (add64 h.brk (3 * WSIZE)) (PACK 0 1),
            heap_listp := add64 h.brk (2 * WSIZE), brk := h.brk + 4 * WSIZE,
            max_addr := h.max_addr } := by
        unfold Aligned
        rw [DSIZE_val, WSIZE_val]
        exact ⟨add64_mod hb (by rfl), by simp only; omega⟩
      have := (extend_heap_aligned (CHUNKSIZE / WSIZE) ha).2
      split
      · exact this
      · exact this
  · rw [if_neg hfit] at hok
    simp only [reduceIte] at hok
    exact absurd hok (by decide)

theorem Called_aligned {h : Heap} (hc : Called h) : Aligned h := by
  induction hc with
  | init h hb hok => exact mm_init_aligned h hb hok
  | malloc s p h' _ hm ih => exact (mm_malloc_aligned ih hm).2
  | free p _ ih => exact mm_free_aligned ih p
  | realloc p s q h' _ hm ih => exact mm_realloc_aligned ih hm
  | store x v _ ih => exact ih


/-! ## The claims -/

theorem run_eq {h : Heap} {o : Option (Nat × Heap)} (hs : o.isSome = true) :
    o = some ((run h o).1, (run h o).2) := by
  cases o with
  | none => simp at hs
  | some r => rfl

theorem Reachable_heap1 : Reachable heap1 :=
  Reachable.malloc 100 _ _ (Reachable.init boot (by decide) (by decide)) (by decide)
    (run_eq (by decide))

/-- C1 (payload sufficiency), evaluated at overflowing sizes after `mm_init` on
a fresh heap.  `mm_malloc(2^64 - 7)` returns the non-null pointer 4112 of a
block marked allocated whose payload, header size minus `WSIZE`, is 8 bytes;
`mm_malloc(2^64 - 8)` returns the non-null pointer 4112 of a block whose
header is marked free and whose payload is 4104 bytes. -/
theorem malloc_overflow_undersized :
    (mm_init boot).1 = 0 ∧
    (mm_malloc heap0 (U64 - 7)).map
        (fun r => (r.1, GET_ALLOC r.2.mem (HDRP r.1), GET_SIZE r.2.mem (HDRP r.1) - WSIZE))
      = some (4112, 1, 8) ∧
    (mm_malloc heap0 (U64 - 8)).map
        (fun r => (r.1, GET_ALLOC r.2.mem (HDRP r.1), GET_SIZE r.2.mem (HDRP r.1) - WSIZE))
      = some (4112, 0, 4104) := by decide

/-- C3 (alignment): when the break that `mm_init` starts from is a multiple of
`DSIZE`, then after a successful `mm_init` and any sequence of calls (of
`mm_malloc`, `mm_free`, `mm_realloc` with any arguments, and of stores of the
caller), every pointer that `mm_malloc` returns is a multiple of `DSIZE`. -/
theorem malloc_aligned {h : Heap} (hc : Called h) {s p : Nat} {h' : Heap}
    (hm : mm_malloc h s = some (p, h')) : p % DSIZE = 0 :=
  (mm_malloc_aligned (Called_aligned hc) hm).1

theorem malloc_aligned_witness :
    (run heap0 (mm_malloc heap0 100)).1 = 4112 ∧
      (run heap0 (mm_malloc heap0 100)).1 % DSIZE = 0 :=
  ⟨by decide, malloc_aligned (Called.init boot (by decide) (by decide)) (run_eq (by decide))⟩

/-- C4 (resize preserves data), evaluated at an overflowing size.  The block
at 4112 is allocated with a payload of 104 bytes, all zero.  `mm_realloc(4112,
2^64 - 8)`, a size above the payload length, returns the non-null pointer
4112, and the byte at offset 96 of the result is 114. -/
theorem realloc_overflow_corrupts :
    allocated heap1z 4112 = true ∧ GET_SIZE heap1z.mem (HDRP 4112) - WSIZE = 104 ∧
    (∀ i < 104, load_byte heap1z.mem (4112 + i) = 0) ∧ 104 ≤ U64 - 8 ∧
    (mm_realloc heap1z 4112 (U64 - 8)).map (fun r => (r.1, load_byte r.2.mem (r.1 + 96)))
      = some (4112, 114) := by decide

/-- C5 (shrink then grow keeps the prefix), evaluated.  The block at 4112 is
allocated with a payload of 104 bytes, all zero.  `mm_realloc(4112, 50)`
returns 4112, then `mm_realloc(4112, 104)` returns 4112, and the byte at
offset 32, below 50, of the result is 50. -/
theorem shrink_then_grow_corrupts :
    allocated heap1z 4112 = true ∧ GET_SIZE heap1z.mem (HDRP 4112) - WSIZE = 104 ∧
    (∀ i < 104, load_byte heap1z.mem (4112 + i) = 0) ∧
    (mm_realloc heap1z 4112 50).map Prod.fst = some 4112 ∧
    (mm_realloc (run heap1z (mm_realloc heap1z 4112 50)).2 4112 104).map
      (fun r => (r.1, load_byte r.2.mem (r.1 + 32))) = some (4112, 50) := by decide

/-- C6 (no adjacent free blocks), evaluated: after `mm_init`, `p = mm_malloc(100)` and
`mm_realloc(p, 50)`, the walk from the heap start meets the free block of size
48 at 4176 directly followed by the free block of size 4000 at 4224. -/
theorem resize_shrink_adjacent_free :
    (mm_init boot).1 = 0 ∧ (mm_malloc heap0 100).map Prod.fst = some 4112 ∧
    allocated heap1 4112 = true ∧
    (mm_realloc heap1 4112 50).map (fun r => heap_blocks r.2)
      = some (some [(4112, 64, 1), (4176, 48, 0), (4224, 4000, 0)]) ∧
    adjacent_free [(4112, 64, 1), (4176, 48, 0), (4224, 4000, 0)] = true := by decide

/-- Invariant I3 when no call shrinks with a split: after a successful
`mm_init` followed by any finite sequence
of calls of `mm_malloc(s)`, `mm_free(p)` and `mm_realloc(p, s)` (`p` null or
an allocated block, sizes adjusted without overflow) none of which is a
`mm_realloc` that shrinks a block by more than `MINIMUM` bytes, and of stores
of the caller into allocated payloads, the walk from the heap start reaches
the epilogue and never meets two consecutive free blocks. -/
theorem no_adjacent_free {h : Heap} (hr : Reachable h) :
    ∃ l, heap_blocks h = some l ∧ adjacent_free l = false := by
  obtain ⟨bs, hw⟩ := Reachable_WF hr
  exact ⟨_, heap_blocks_of_WF hw, adjacent_free_concr hw.2.1.1⟩

theorem no_adjacent_free_witness :
    heap_blocks heapR = some [(4112, 208, 1), (4320, 3904, 0)] ∧
      ∃ l, heap_blocks heapR = some l ∧ adjacent_free l = false :=
  ⟨by decide, no_adjacent_free (Reachable.realloc 4112 200 _ _ Reachable_heap1
    (Or.inr (by decide)) (by decide) (by decide) (run_eq (by decide)))⟩

/-- C9 (sentinels), evaluated: after a successful `mm_init` on a fresh heap the
header word before the heap start encodes size 4112 with the allocated bit
clear, not the prologue's `DSIZE` with the allocated bit set. -/
theorem init_overwrites_prologue :
    (mm_init boot).1 = 0 ∧ heap0.heap_listp = 4112 ∧
    GET_SIZE heap0.mem (heap0.heap_listp - WSIZE) = 4112 ∧
    GET_ALLOC heap0.mem (heap0.heap_listp - WSIZE) = 0 ∧
    heap_blocks heap0 = some [(4112, 4112, 0)] := by decide

/-- C10 (shrink in place splits like `place`), evaluated.  The block at 4112
is allocated with size 112 and its predecessor-allocated bit set, followed by
the block at 4224 whose header is the word at 4216.  `mm_realloc(4112, 50)`
has adjusted size 64, 48 below 112.  It returns 4112, leaves the header
`PACK(64, 1)`, predecessor-allocated bit clear, and the header at 4216 keeps
its predecessor-allocated bit set. -/
theorem shrink_in_place_header :
    allocated heap1 4112 = true ∧ GET heap1.mem (HDRP 4112) = PACK 112 3 ∧
    adjust 50 = 64 ∧ NEXT_BLKP heap1.mem 4112 = 4224 ∧ HDRP 4224 = 4216 ∧
    (mm_realloc heap1 4112 50).map
      (fun r => (r.1, GET r.2.mem (HDRP r.1), GET_PREV_ALLOC r.2.mem 4216))
      = some (4112, PACK 64 1, 2) := by decide

/-- C2 (disjointness of live allocations), evaluated.  After `mm_init`,
`mm_malloc(2^64 - 8)`, whose adjusted size wraps to 0, returns the non-null
pointer 4112 and leaves the block marked free.  The next call
`mm_malloc(100)`, whose adjusted size 112 does not overflow, returns 4112
again, with block size 112: the pointer of the live allocation. -/
theorem malloc_returns_live_pointer :
    (mm_init boot).1 = 0 ∧ (mm_malloc heap0 (U64 - 8)).map Prod.fst = some 4112 ∧
    Fits 100 ∧ adjust 100 = 112 ∧
    (mm_malloc heapV0 100).map (fun r => (r.1, GET_SIZE r.2.mem (HDRP r.1)))
      = some (4112, 112) := by decide

/-- Disjointness after well-formed calls: in a state reached from a
successful `mm_init` by well-formed calls, a successful `mm_malloc(s)`, with
`s > 0` adjusted without overflow, returns a pointer `p` such that the span
`[p - WSIZE, p - WSIZE + size)` of its block does not meet the span of any
block `q` that is allocated when the call is made, and `p ≠ q`. -/
theorem malloc_disjoint {h : Heap} (hr : Reachable h) {s p : Nat} {h' : Heap} (hs : Fits s)
    (hs0 : 0 < s) (hm : mm_malloc h s = some (p, h')) (hp : p ≠ NULL) (q : Nat)
    (hq : allocated h q = true) :
    (p - WSIZE + GET_SIZE h'.mem (HDRP p) ≤ q - WSIZE ∨
      q - WSIZE + GET_SIZE h.mem (HDRP q) ≤ p - WSIZE) ∧ p ≠ q := by
  obtain ⟨bs, hw⟩ := Reachable_WF hr
  obtain ⟨ha1, ha2, ha3, _, _⟩ := adjust_fits hs (by omega)
  rcases mm_malloc_WF hw ha1 ha2 ha3 hm with ⟨hnull, _⟩ |
    ⟨_, l1, c0, cc, l2, hbs, hc0, hl2, hcc, hnp, hw1, hhl, _, _⟩
  · exact absurd hnull hp
  · obtain ⟨cn, rest, hpl, hcn1, hcn2⟩ := placed_cons cc (adjust s) hcc
    rw [hpl] at hw1
    obtain ⟨_, _, e3, e4, _, _⟩ := GET_SIZE_block hw1
    rw [hhl, ← hnp] at e3
    obtain ⟨sz, hsz⟩ := (allocated_iff hw q).1 hq
    obtain ⟨k1, al, k2, hk, hkq, _⟩ := mem_concr hsz
    have hw' := hw
    rw [hk] at hw'
    obtain ⟨_, _, f3, f4, _, _⟩ := GET_SIZE_block hw'
    rw [← hkq] at f3
    rw [hbs] at hsz
    have hb := (malloc_keeps (c := cc) (a := adjust s) hl2 hsz).2
    have hl8 := hw.1
    rw [e3, f3, WSIZE_val]
    omega

theorem malloc_disjoint_witness :
    (run heap1 (mm_malloc heap1 200)).1 = 4224 ∧
    ((run heap1 (mm_malloc heap1 200)).1 - WSIZE +
        GET_SIZE (run heap1 (mm_malloc heap1 200)).2.mem (HDRP (run heap1 (mm_malloc heap1 200)).1)
        ≤ 4112 - WSIZE ∨
      4112 - WSIZE + GET_SIZE heap1.mem (HDRP 4112) ≤ (run heap1 (mm_malloc heap1 200)).1 - WSIZE) ∧
      (run heap1 (mm_malloc heap1 200)).1 ≠ 4112 :=
  ⟨by decide, malloc_disjoint Reachable_heap1 (by decide) (by decide) (run_eq (by decide))
    (by decide) 4112 (by decide)⟩

/-! ### Coalescing -/

/-- What `mm_free` reads about the predecessor of a block. -/
theorem prev_read {h : Heap} {l1 : List Blk} {c : Nat} {al : Bool} {l2 : List Blk}
    (hw : WF h (l1 ++ ⟨c, al⟩ :: l2)) :
    (lastA true l1 = true → GET_PREV_ALLOC h.mem (HDRP (h.heap_listp + total l1)) ≠ 0) ∧
    ∀ l psz, l1 = l ++ [⟨psz, false⟩] →
      GET_PREV_ALLOC h.mem (HDRP (h.heap_listp + total l1)) = 0 ∧
      GET_SIZE h.mem (HDRP (PREV_BLKP h.mem (h.heap_listp + total l1))) = psz := by
  have hU := U64_val
  obtain ⟨e1, e2, e3, e4, e5, e6⟩ := GET_SIZE_block hw
  obtain ⟨hl8, hch, hbm, hmax⟩ := hw
  rw [Chain_append] at hch
  obtain ⟨hs1, _, _⟩ := hch
  refine ⟨fun hla => ?_, fun l psz hl => ?_⟩
  · rw [e1, GET_PREV_ALLOC_eq, e2, hd_prev _ _ e5, hla]; simp
  · have hla : lastA true l1 = false := by rw [hl, lastA_append]; rfl
    obtain ⟨l', psz', hl', hp1, hp2, hq, hsl, hll, hph, hpf⟩ := Seg_last_free hs1 hla
    have : psz' = psz := by
      rw [hl] at hl'
      have := List.append_inj_right' hl' rfl
      simpa using this.symm
    subst this
    refine ⟨by rw [e1, GET_PREV_ALLOC_eq, e2, hd_prev _ _ e5, hla]; simp, ?_⟩
    have ep : PREV_BLKP h.mem (h.heap_listp + total l1) = h.heap_listp + total l1 - psz' := by
      have ea : sub64 (h.heap_listp + total l1) 16 = h.heap_listp + total l1 - 16 :=
        sub64_eq (by omega) (by omega)
      unfold PREV_BLKP
      rw [DSIZE_val, ea, GET_SIZE_eq, hpf, size_of_word hp2 (by omega),
        sub64_eq (by omega) (by omega)]
    have eh : HDRP (h.heap_listp + total l1 - psz') = h.heap_listp + total l' - 8 := by
      unfold HDRP
      rw [WSIZE_val, sub64_eq (by omega) (by omega)]
      omega
    rw [ep, eh, GET_SIZE_eq, hph, size_of_word hp2 (by omega)]

/-- What `mm_free` reads about the successor of a block. -/
theorem next_read {h : Heap} {l1 : List Blk} {c : Nat} {al : Bool} {l2 : List Blk}
    (hw : WF h (l1 ++ ⟨c, al⟩ :: l2)) :
    (headA l2 = true → GET_ALLOC h.mem (HDRP (NEXT_BLKP h.mem (h.heap_listp + total l1))) ≠ 0) ∧
    ∀ n l2', l2 = ⟨n, false⟩ :: l2' →
      GET_ALLOC h.mem (HDRP (NEXT_BLKP h.mem (h.heap_listp + total l1))) = 0 ∧
      GET_SIZE h.mem (HDRP (NEXT_BLKP h.mem (h.heap_listp + total l1))) = n := by
  have hU := U64_val
  obtain ⟨e1, e2, e3, e4, e5, e6⟩ := GET_SIZE_block hw
  obtain ⟨hl8, hch, hbm, hmax⟩ := hw
  rw [Chain_append] at hch
  obtain ⟨_, ⟨_, _, _, _, hc5⟩, hep⟩ := hch
  simp only [lastA] at hep
  simp only at hc5
  have hch2 : Chain h.mem (h.heap_listp + total l1 + c) al l2 h.brk := ⟨hc5, hep⟩
  have hnx : NEXT_BLKP h.mem (h.heap_listp + total l1) = h.heap_listp + total l1 + c := by
    show add64 (h.heap_listp + total l1) (GET_SIZE h.mem (HDRP (h.heap_listp + total l1))) = _
    rw [e3, add64_eq (by omega)]
  have hnh : HDRP (h.heap_listp + total l1 + c) = h.heap_listp + total l1 + c - 8 := by
    unfold HDRP; rw [WSIZE_val, sub64_eq] <;> omega
  rw [hnx, hnh]
  refine ⟨fun hha => ?_, fun n l2' hl => ?_⟩
  · obtain ⟨hn1, hn2, _⟩ := Chain_head hch2 hha
    rw [GET_ALLOC_eq, hn1, hd_alloc _ _ hn2]; simp
  · subst hl
    obtain ⟨g1, g2, g3, _, _⟩ := hc5
    simp only at g1 g2 g3
    exact ⟨by rw [GET_ALLOC_eq, g3, hd_alloc _ _ g2]; rfl, by rw [GET_SIZE_eq, g3, hd_size _ _ g2]⟩

/-- C7 (coalescing correctness): on a well-formed heap, `mm_free(p)` of an
allocated block `p` leaves a walk without adjacent free blocks that contains
one free block at `p` minus the size of the predecessor if that was free,
whose size is the size of `p` plus the size of the predecessor if it was free
plus the size of the successor if it was free, and whose header and footer
are the same word `PACK(size, 2)`. -/
theorem free_coalesces {h : Heap} {bs : List Blk} (hw : WF h bs) {p : Nat}
    (hp : allocated h p = true) :
    ∃ l, heap_blocks (mm_free h p) = some l ∧ adjacent_free l = false ∧
      (p - pred_free_size h p,
        pred_free_size h p + GET_SIZE h.mem (HDRP p) + succ_free_size h p, 0) ∈ l ∧
      GET (mm_free h p).mem (HDRP (p - pred_free_size h p)) =
        PACK (pred_free_size h p + GET_SIZE h.mem (HDRP p) + succ_free_size h p) 2 ∧
      GET (mm_free h p).mem (FTRP (mm_free h p).mem (p - pred_free_size h p)) =
        GET (mm_free h p).mem (HDRP (p - pred_free_size h p)) := by
  have hU := U64_val
  obtain ⟨l1, c, l2, rfl, rfl⟩ := allocated_split hw hp
  obtain ⟨l1', psz, n, l2', e1, e2, hla, hha, hpz, hnz, hfw, hhl, _, _, _⟩ := mm_free_WF hw
  obtain ⟨hpr1, hpr2⟩ := prev_read hw
  obtain ⟨hnr1, hnr2⟩ := next_read hw
  obtain ⟨_, _, hsz, hc1, hc2, _⟩ := GET_SIZE_block hw
  have hps : pred_free_size h (h.heap_listp + total l1) = psz := by
    unfold pred_free_size
    rcases hpz with h0 | h16
    · subst h0
      rw [fr_zero, List.append_nil] at e1
      rw [if_neg (hpr1 (by rw [e1]; exact hla))]
    · rw [fr_pos h16] at e1
      obtain ⟨g1, g2⟩ := hpr2 _ _ e1
      rw [if_pos g1, g2]
  have hns : succ_free_size h (h.heap_listp + total l1) = n := by
    unfold succ_free_size
    rcases hnz with h0 | h16
    · subst h0
      rw [fr_zero, List.nil_append] at e2
      rw [if_neg (hnr1 (by rw [e2]; exact hha))]
    · rw [fr_pos h16] at e2
      obtain ⟨g1, g2⟩ := hnr2 _ _ e2
      rw [if_pos g1, g2]
  have htot : total l1 = total l1' + psz := by rw [e1, total_append, total_fr]
  have hq : h.heap_listp + total l1 - psz = (mm_free h (h.heap_listp + total l1)).heap_listp
      + total l1' := by rw [hhl]; omega
  rw [hps, hns, hsz, hq]
  obtain ⟨f1, f2, f3, f4, f5, f6⟩ := GET_SIZE_block hfw
  have hseg := hfw.2.1
  rw [Chain_append] at hseg
  obtain ⟨_, ⟨_, _, _, g4, _⟩, _⟩ := hseg
  have hft := (g4 rfl).2
  simp only at hft
  have hl8 := hfw.1
  have hb := hfw.2.2
  refine ⟨_, heap_blocks_of_WF hfw, adjacent_free_concr hfw.2.1.1,
    concr_mem _ l1' (psz + c + n) false l2', ?_, ?_⟩
  · rw [f1, f2, hla, hd_ft, PACK_eq f5 (by omega)]
  · have eF : FTRP (mm_free h (h.heap_listp + total l1)).mem
        ((mm_free h (h.heap_listp + total l1)).heap_listp + total l1') =
        (mm_free h (h.heap_listp + total l1)).heap_listp + total l1' + (psz + c + n) - 16 := by
      unfold FTRP
      rw [f3, DSIZE_val, add64_eq (by omega), sub64_eq (by omega) (by omega)]
    rw [eF, hft, f1, f2, hla]

theorem free_coalesces_witness :
    heap_blocks heapB4 = some [(4112, 64, 1), (4176, 64, 0), (4240, 64, 1), (4304, 3920, 0)] ∧
    heap_blocks (mm_free heapB4 4240) = some [(4112, 64, 1), (4176, 4048, 0)] ∧
    pred_free_size heapB4 4240 = 64 ∧ succ_free_size heapB4 4240 = 3920 ∧
    ∃ l, heap_blocks (mm_free heapB4 4240) = some l ∧ adjacent_free l = false ∧
      (4240 - pred_free_size heapB4 4240,
        pred_free_size heapB4 4240 + GET_SIZE heapB4.mem (HDRP 4240) + succ_free_size heapB4 4240,
        0) ∈ l ∧
      GET (mm_free heapB4 4240).mem (HDRP (4240 - pred_free_size heapB4 4240)) =
        PACK (pred_free_size heapB4 4240 + GET_SIZE heapB4.mem (HDRP 4240) +
          succ_free_size heapB4 4240) 2 ∧
      GET (mm_free heapB4 4240).mem
          (FTRP (mm_free heapB4 4240).mem (4240 - pred_free_size heapB4 4240)) =
        GET (mm_free heapB4 4240).mem (HDRP (4240 - pred_free_size heapB4 4240)) :=
  ⟨by decide, by decide, by decide, by decide,
    @free_coalesces heapB4 [⟨64, true⟩, ⟨64, false⟩, ⟨64, true⟩, ⟨3920, false⟩] (by decide)
      4240 (by decide)⟩

/-! ### First fit -/

theorem concr_sorted {m : Mem} {bs : List Blk} {e : Nat} :
    ∀ {p : Nat} {pa : Bool}, Seg m p pa bs e →
      (concr p bs).Pairwise (fun a b => a.1 < b.1) := by
  induction bs with
  | nil => intro p pa _; exact List.Pairwise.nil
  | cons b l ih =>
    intro p pa h
    obtain ⟨h1, _, _, _, h5⟩ := h
    refine List.Pairwise.cons ?_ (ih h5)
    intro x hx
    obtain ⟨q, sz, a⟩ := x
    have := (mem_concr_bounds hx).1
    show p < q
    omega

theorem first_fit_spec (asize : Nat) (l : List (Nat × Nat × Nat))
    (hnz : ∀ b ∈ l, b.1 ≠ NULL) :
    (first_fit l asize = NULL ↔ ∀ b ∈ l, ¬ (b.2.2 = 0 ∧ asize ≤ b.2.1)) ∧
    (first_fit l asize ≠ NULL → ∃ l1 b l2, l = l1 ++ b :: l2 ∧ b.1 = first_fit l asize ∧
      b.2.2 = 0 ∧ asize ≤ b.2.1 ∧ ∀ x ∈ l1, ¬ (x.2.2 = 0 ∧ asize ≤ x.2.1)) := by
  induction l with
  | nil => exact ⟨by simp [first_fit_nil], fun hc => absurd (first_fit_nil asize) hc⟩
  | cons x l ih =>
    obtain ⟨ih1, ih2⟩ := ih (fun b hb => hnz b (List.mem_cons_of_mem _ hb))
    rw [first_fit_cons]
    by_cases hx : x.2.2 = 0 ∧ asize ≤ x.2.1
    · rw [if_pos hx]
      refine ⟨⟨fun h0 => absurd h0 (hnz x (List.mem_cons_self _ _)), fun hall =>
        absurd hx (hall x (List.mem_cons_self _ _))⟩, fun _ => ?_⟩
      exact ⟨[], x, l, rfl, rfl, hx.1, hx.2, by simp⟩
    · rw [if_neg hx]
      refine ⟨⟨fun h0 b hb => ?_, fun hall => ?_⟩, fun hne => ?_⟩
      · rcases List.mem_cons.1 hb with rfl | hb
        · exact hx
        · exact ih1.1 h0 b hb
      · exact ih1.2 (fun b hb => hall b (List.mem_cons_of_mem _ hb))
      · obtain ⟨l1, b, l2, e1, e2, e3, e4, e5⟩ := ih2 hne
        refine ⟨x :: l1, b, l2, by rw [e1]; rfl, e2, e3, e4, ?_⟩
        intro y hy
        rcases List.mem_cons.1 hy with rfl | hy
        · exact hx
        · exact e5 y hy

/-- C8 (first fit): on a well-formed heap, the walk from the heap start reaches
the epilogue, in increasing address order, and `find_fit(asize)` stops and
returns what first fit specifies on that walk: the first free block of size at
least `asize`, all the blocks before it being allocated or smaller, and `NULL`
exactly when the walk has no such block.  `mm_malloc(s)`, `s ≠ 0`, returns
that block whenever there is one. -/
theorem find_fit_first_fit {h : Heap} {bs : List Blk} (hw : WF h bs) (asize : Nat) :
    ∃ l, heap_blocks h = some l ∧ l.Pairwise (fun a b => a.1 < b.1) ∧
      find_fit h asize = some (first_fit l asize) ∧
      (first_fit l asize = NULL ↔ ∀ b ∈ l, ¬ (b.2.2 = 0 ∧ asize ≤ b.2.1)) ∧
      (first_fit l asize ≠ NULL → ∃ l1 b l2, l = l1 ++ b :: l2 ∧ b.1 = first_fit l asize ∧
        b.2.2 = 0 ∧ asize ≤ b.2.1 ∧ ∀ x ∈ l1, ¬ (x.2.2 = 0 ∧ asize ≤ x.2.1)) ∧
      ∀ s, s ≠ 0 → first_fit l (adjust s) ≠ NULL →
        (mm_malloc h s).map Prod.fst = some (first_fit l (adjust s)) := by
  have hnz : ∀ b ∈ concr h.heap_listp bs, b.1 ≠ NULL := by
    intro b hb
    obtain ⟨q, sz, a⟩ := b
    have := (mem_concr_bounds hb).1
    have := hw.1
    show q ≠ NULL
    unfold NULL; omega
  obtain ⟨g1, g2⟩ := first_fit_spec asize _ hnz
  refine ⟨_, heap_blocks_of_WF hw, concr_sorted hw.2.1.1, find_fit_of_WF hw asize, g1, g2, ?_⟩
  intro s hs hne
  unfold mm_malloc
  rw [if_neg hs]
  simp only [find_fit_of_WF hw]
  rw [if_pos hne]
  rfl

theorem find_fit_first_fit_witness :
    heap_blocks heapA3 = some [(4112, 112, 0), (4224, 208, 1), (4432, 3792, 0)] ∧
    adjust 90 = 112 ∧ find_fit heapA3 (adjust 90) = some 4112 ∧
    (mm_malloc heapA3 90).map Prod.fst = some 4112 ∧
    ∃ l, heap_blocks heapA3 = some l ∧ l.Pairwise (fun a b => a.1 < b.1) ∧
      find_fit heapA3 (adjust 90) = some (first_fit l (adjust 90)) ∧
      (first_fit l (adjust 90) = NULL ↔ ∀ b ∈ l, ¬ (b.2.2 = 0 ∧ adjust 90 ≤ b.2.1)) ∧
      (first_fit l (adjust 90) ≠ NULL → ∃ l1 b l2, l = l1 ++ b :: l2 ∧
        b.1 = first_fit l (adjust 90) ∧
        b.2.2 = 0 ∧ adjust 90 ≤ b.2.1 ∧ ∀ x ∈ l1, ¬ (x.2.2 = 0 ∧ adjust 90 ≤ x.2.1)) ∧
      ∀ s, s ≠ 0 → first_fit l (adjust s) ≠ NULL →
        (mm_malloc heapA3 s).map Prod.fst = some (first_fit l (adjust s)) :=
  ⟨by decide, by decide, by decide, by decide,
    @find_fit_first_fit heapA3 [⟨112, false⟩, ⟨208, true⟩, ⟨3792, false⟩] (by decide)
      (adjust 90)⟩

/-! ## Failure of the growth primitive -/

theorem adjust_mod (s : Nat) : adjust s % 16 = 0 := by
  unfold adjust
  split
  · rename_i h; rw [DSIZE_val] at h; exact h
  · rw [DSIZE_val]; exact mul64_mod _

theorem MAX_adjust_lt (s : Nat) : MAX (adjust s) CHUNKSIZE < U64 := by
  have h1 := adjust_lt s
  have hU := U64_val
  unfold MAX
  split
  · exact h1
  · show 1 <<< 12 < U64
    rw [hU]; decide

theorem mm_malloc_fail (h : Heap) (s : Nat) (hs : s ≠ 0)
    (hf : find_fit h (adjust s) = some NULL)
    (hx : ¬ h.brk + MAX (adjust s) CHUNKSIZE ≤ h.max_addr) :
    mm_malloc h s = some (NULL, h) := by
  obtain ⟨e1, e2, _, _, _⟩ := extend_words (adjust s) (adjust_mod s)
  unfold mm_malloc
  rw [if_neg hs]
  simp only [hf]
  rw [if_neg (by simp)]
  rw [extend_heap_fail h _ e1 (by rw [e2]; exact MAX_adjust_lt s) (by rw [e2]; exact hx)]
  simp

theorem mm_malloc_null {h : Heap} {bs : List Blk} (hw : WF h bs) {s : Nat} {h' : Heap}
    (hs : s ≠ 0) (hm : mm_malloc h s = some (NULL, h')) :
    find_fit h (adjust s) = some NULL ∧ ¬ h.brk + MAX (adjust s) CHUNKSIZE ≤ h.max_addr ∧
      h' = h := by
  obtain ⟨e1, e2, _, e4, _⟩ := extend_words (adjust s) (adjust_mod s)
  have hff := find_fit_of_WF hw (adjust s)
  by_cases hb : first_fit (concr h.heap_listp bs) (adjust s) = NULL
  · rw [hb] at hff
    by_cases hx : h.brk + MAX (adjust s) CHUNKSIZE ≤ h.max_addr
    · exfalso
      obtain ⟨l, psz, g1, _⟩ := @extend_heap_WF h bs (MAX (adjust s) CHUNKSIZE / WSIZE) hw e1
        (by omega) (by omega)
      have h8 := hw.1
      unfold mm_malloc at hm
      rw [if_neg hs] at hm
      simp only [hff] at hm
      rw [if_neg (by simp)] at hm
      have hne : (extend_heap h (MAX (adjust s) CHUNKSIZE / WSIZE)).1 ≠ NULL := by
        rw [g1]; unfold NULL; omega
      rw [if_neg hne] at hm
      simp only [Option.some.injEq, Prod.mk.injEq] at hm
      exact hne hm.1
    · refine ⟨hff, hx, ?_⟩
      rw [mm_malloc_fail h s hs hff hx] at hm
      simp only [Option.some.injEq, Prod.mk.injEq] at hm
      exact hm.2.symm
  · exfalso
    unfold mm_malloc at hm
    rw [if_neg hs] at hm
    simp only [hff] at hm
    rw [if_pos hb] at hm
    simp only [Option.some.injEq, Prod.mk.injEq] at hm
    exact hb hm.1

theorem realloc_move_null {h : Heap} {bs : List Blk} {p s c : Nat} {h' : Heap} (hw : WF h bs)
    (hs0 : s ≠ 0) (hm : realloc_move h p s c = some (NULL, h')) : h' = h := by
  unfold realloc_move at hm
  cases hmal : mm_malloc h s with
  | none => rw [hmal] at hm; simp at hm
  | some r =>
    obtain ⟨np, h1⟩ := r
    rw [hmal] at hm
    simp only at hm
    by_cases hnp : np = NULL
    · rw [if_pos hnp] at hm
      simp only [Option.some.injEq, Prod.mk.injEq] at hm
      rw [hnp] at hmal
      rw [← hm.2]
      exact (mm_malloc_null hw hs0 hmal).2.2
    · rw [if_neg hnp] at hm
      simp only [Option.some.injEq, Prod.mk.injEq] at hm
      exact absurd hm.1 hnp

/-- On a well-formed heap, a call of `mm_realloc` on an allocated block that
does not take the shrinking branch and returns `NULL` leaves the state as it
was. -/
theorem realloc_fail_atomic {h : Heap} {bs : List Blk} {p s : Nat} {h' : Heap} (hw : WF h bs)
    (hp : allocated h p = true) (hs0 : s ≠ 0) (hn : ¬ Shrinks h p s)
    (hm : mm_realloc h p s = some (NULL, h')) : h' = h := by
  have hU := U64_val
  unfold mm_realloc at hm
  rw [if_neg hs0] at hm
  obtain ⟨l1, c, l2, rfl, rfl⟩ := allocated_split hw hp
  have hp0 : h.heap_listp + total l1 ≠ NULL := by
    have := hw.1
    unfold NULL; omega
  rw [if_neg hp0] at hm
  obtain ⟨e1, e2, e3, e4, e5, e6⟩ := GET_SIZE_block hw
  simp only [e3] at hm
  by_cases hc1 : c = adjust s
  · rw [if_pos hc1] at hm
    simp only [Option.some.injEq, Prod.mk.injEq] at hm
    exact absurd hm.1 hp0
  rw [if_neg hc1] at hm
  by_cases hc2 : c > adjust s ∧ sub64 c (adjust s) ≤ MINIMUM
  · rw [if_pos hc2] at hm
    simp only [Option.some.injEq, Prod.mk.injEq] at hm
    exact absurd hm.1 hp0
  rw [if_neg hc2] at hm
  have hlt : ¬ c > adjust s := by
    intro hgt
    apply hn
    refine ⟨hs0, hp0, by rw [e3]; exact hgt, ?_⟩
    rw [e3]
    intro hle
    exact hc2 ⟨hgt, hle⟩
  simp only [if_neg hlt] at hm
  have hmem : ({ h with mem := h.mem } : Heap) = h := rfl
  rw [hmem] at hm
  split at hm
  · simp only [Option.some.injEq, Prod.mk.injEq] at hm
    exact absurd hm.1 hp0
  · exact realloc_move_null hw hs0 hm

/-- C11 (relocation failure is atomic), evaluated.  After `mm_init` the growth
primitive is exhausted.  The block at 4112 is allocated with header
`PACK(112, 3)`, and the caller has stored the word 1 at offset 40 of its
payload.  `mm_realloc(4112, 50)` returns `NULL`, and afterwards the header of
the block is the word 1 and the byte at offset 32 of its payload is 50 instead
of 0. -/
theorem realloc_fail_corrupts :
    (mm_init tight).1 = 0 ∧ heapT1s.brk = heapT1s.max_addr ∧
    allocated heapT1s 4112 = true ∧ GET heapT1s.mem (HDRP 4112) = PACK 112 3 ∧
    load_byte heapT1s.mem (4112 + 32) = 0 ∧
    (mm_realloc heapT1s 4112 50).map
      (fun r => (r.1, GET r.2.mem (HDRP 4112), load_byte r.2.mem (4112 + 32)))
      = some (NULL, 1, 50) := by decide

/-- C12 (allocation exhaustion is atomic): in every heap state, when
`mm_malloc(size)`, `size ≠ 0`, finds no fitting free block and the growth
primitive cannot supply the extension, the call returns `NULL` and the whole
state (every word of memory, the heap start, the break) is the one before the
call. -/
theorem malloc_exhaustion_atomic (h : Heap) (s : Nat) (hs : s ≠ 0)
    (hf : find_fit h (adjust s) = some NULL)
    (hx : ¬ h.brk + MAX (adjust s) CHUNKSIZE ≤ h.max_addr) :
    mm_malloc h s = some (NULL, h) :=
  mm_malloc_fail h s hs hf hx

theorem malloc_exhaustion_atomic_witness :
    heap_blocks heapT0 = some [(4112, 4112, 0)] ∧ adjust 5000 = 5008 ∧
      mm_malloc heapT0 5000 = some (NULL, heapT0) :=
  ⟨by decide, by decide,
    malloc_exhaustion_atomic heapT0 5000 (by decide) (by decide) (by decide)⟩

/-- C13, as stated, fails: after `mm_init` has exhausted the growth primitive,
`mm_malloc(5000)`, a non-zero size, returns `NULL`. -/
theorem malloc_null_on_exhaustion :
    (mm_init tight).1 = 0 ∧ 5000 ≠ 0 ∧ (mm_malloc heapT0 5000).map Prod.fst = some NULL := by
  decide

theorem walk_no_fit {h : Heap} {bs : List Blk} (hw : WF h bs) (a : Nat) :
    find_fit h a = some NULL ↔
      ∃ l, heap_blocks h = some l ∧ ∀ b ∈ l, ¬ (b.2.2 = 0 ∧ a ≤ b.2.1) := by
  have hnz : ∀ b ∈ concr h.heap_listp bs, b.1 ≠ NULL := by
    intro b hb
    obtain ⟨q, sz, al⟩ := b
    have := (mem_concr_bounds hb).1
    have := hw.1
    show q ≠ NULL
    unfold NULL; omega
  obtain ⟨g1, _⟩ := first_fit_spec a _ hnz
  rw [find_fit_of_WF hw, heap_blocks_of_WF hw]
  constructor
  · intro hf
    simp only [Option.some.injEq] at hf
    exact ⟨_, rfl, g1.1 hf⟩
  · rintro ⟨l, hl, hall⟩
    simp only [Option.some.injEq] at hl
    subst hl
    rw [g1.2 hall]

/-- C13, amended: in every heap state `mm_malloc(0)` returns `NULL` and leaves
the state unchanged; on a well-formed heap, for a size `s ≠ 0` whose adjusted
size `asize`, the least multiple of `DSIZE` at or above `s + WSIZE`, is
computed without overflow, `mm_malloc(s)` returns `NULL` exactly when no free
block of the walk has size at least `asize` and the growth primitive cannot
supply `MAX(asize, CHUNKSIZE)` bytes, and the state is then unchanged:
exhaustion is reported by the `NULL` result. -/
theorem malloc_null_iff (h : Heap) :
    mm_malloc h 0 = some (NULL, h) ∧
    ∀ bs, WF h bs → ∀ s h', s ≠ 0 → Fits s →
      adjust s = (s + WSIZE + (DSIZE - 1)) / DSIZE * DSIZE ∧
      (mm_malloc h s = some (NULL, h') ↔
        (∃ l, heap_blocks h = some l ∧ ∀ b ∈ l, ¬ (b.2.2 = 0 ∧ adjust s ≤ b.2.1)) ∧
          ¬ h.brk + MAX (adjust s) CHUNKSIZE ≤ h.max_addr ∧ h' = h) := by
  refine ⟨by unfold mm_malloc; rw [if_pos rfl], ?_⟩
  intro bs hw s h' hs hfit
  refine ⟨by rw [adjust_eq hfit, WSIZE_val, DSIZE_val], ?_⟩
  rw [← walk_no_fit hw]
  constructor
  · exact mm_malloc_null hw hs
  · rintro ⟨hf, hx, rfl⟩
    exact mm_malloc_fail h' s hs hf hx

theorem malloc_null_iff_witness :
    mm_malloc heapT0 0 = some (NULL, heapT0) ∧ WF heapT0 [⟨4112, false⟩] ∧
      heap_blocks heapT0 = some [(4112, 4112, 0)] ∧ adjust 5000 = 5008 ∧
      mm_malloc heapT0 5000 = some (NULL, heapT0) :=
  ⟨(malloc_null_iff heapT0).1, by decide, by decide, by decide,
    ((malloc_null_iff heapT0).2 [⟨4112, false⟩] (by decide) 5000 heapT0 (by decide)
      (by decide)).2.2 ⟨⟨[(4112, 4112, 0)], by decide, by decide⟩, by decide, rfl⟩⟩

/-! ## The header of the placed and of the grown block -/

/-- The allocated and predecessor-allocated bits that the header of a block of
a well-formed heap holds. -/
theorem block_bits {h : Heap} {l1 : List Blk} {c : Nat} {al : Bool} {l2 : List Blk}
    (hw : WF h (l1 ++ ⟨c, al⟩ :: l2)) :
    GET_ALLOC h.mem (HDRP (h.heap_listp + total l1)) = (if al then 1 else 0) ∧
    GET_PREV_ALLOC h.mem (HDRP (h.heap_listp + total l1)) =
      (if lastA true l1 then 2 else 0) := by
  obtain ⟨e1, e2, _, _, e5, _⟩ := GET_SIZE_block hw
  rw [e1, GET_ALLOC_eq, GET_PREV_ALLOC_eq, e2, hd_alloc _ _ e5, hd_prev _ _ e5]
  exact ⟨rfl, rfl⟩

theorem placed_exact {c s : Nat} (hs : s % 16 = 0) (hc : c % 16 = 0) (h : s ≤ c) :
    ∃ rest, placed c s = ⟨s, true⟩ :: rest ∧ (rest = [] ∧ c = s ∨ rest = [⟨c - s, false⟩] ∧ s + 16 ≤ c) := by
  unfold placed
  by_cases h1 : s + 16 ≤ c
  · rw [if_pos h1]; exact ⟨_, rfl, Or.inr ⟨rfl, h1⟩⟩
  · rw [if_neg h1]
    have : c = s := by omega
    subst this
    exact ⟨_, rfl, Or.inl ⟨rfl, rfl⟩⟩

theorem adjust_least {s : Nat} (hs : Fits s) :
    adjust s % DSIZE = 0 ∧ s + WSIZE ≤ adjust s ∧
      ∀ k, k % DSIZE = 0 → s + WSIZE ≤ k → adjust s ≤ k := by
  rw [adjust_eq hs, DSIZE_val, WSIZE_val]
  refine ⟨by omega, by omega, fun k h1 h2 => by omega⟩

/-- The size of the free block that `mm_malloc` places the request in is a
multiple of 16. -/
theorem malloc_block_mod {h : Heap} {bs : List Blk} {s p : Nat} {h' : Heap} (hw : WF h bs)
    (ha1 : 16 ≤ adjust s) (ha2 : adjust s % 16 = 0) (ha3 : adjust s < U64)
    (hm : mm_malloc h s = some (p, h')) (hp : p ≠ NULL) :
    ∃ l1 rest, WF h' (l1 ++ ⟨adjust s, true⟩ :: rest) ∧ p = h'.heap_listp + total l1 := by
  rcases mm_malloc_WF hw ha1 ha2 ha3 hm with ⟨hnull, _⟩ |
    ⟨_, l1, c0, cc, l2, hbs, hc0, hl2, hcc, hnp, hw1, hhl, _, _⟩
  · exact absurd hnull hp
  · have hcm : cc % 16 = 0 := by
      obtain ⟨cn, rest, hpl, hcn1, hcn2⟩ := placed_cons cc (adjust s) hcc
      unfold placed at hw1
      by_cases h1 : adjust s + 16 ≤ cc
      · rw [if_pos h1] at hw1
        have hw2 : WF h' ((l1 ++ [⟨adjust s, true⟩]) ++ ⟨cc - adjust s, false⟩ :: l2) := by
          simpa using hw1
        obtain ⟨_, _, _, _, e5, _⟩ := GET_SIZE_block hw2
        omega
      · rw [if_neg h1] at hw1
        have hw2 : WF h' (l1 ++ ⟨cc, true⟩ :: l2) := by simpa using hw1
        obtain ⟨_, _, _, _, e5, _⟩ := GET_SIZE_block hw2
        exact e5
    obtain ⟨rest, hpl, _⟩ := placed_exact ha2 hcm hcc
    rw [hpl] at hw1
    exact ⟨l1, rest ++ l2, by simpa using hw1, by rw [hhl]; exact hnp⟩

theorem GET_SIZE_lt (m : Mem) (p : Nat) : GET_SIZE m p < U64 := by
  have := GET_lt m p
  rw [GET_SIZE_eq]; omega

theorem HDRP_eq (bp : Nat) : HDRP bp = (bp + (U64 - 8)) % U64 := rfl

theorem NEXT_BLKP_eq (m : Mem) (bp : Nat) :
    NEXT_BLKP m bp = (bp + GET_SIZE m (HDRP bp)) % U64 := rfl

theorem FTRP_eq (m : Mem) (bp : Nat) :
    FTRP m bp = ((bp + GET_SIZE m (HDRP bp)) % U64 + (U64 - 16)) % U64 := rfl

theorem PUT_header_cases (m : Mem) (H g v : Nat) :
    ∃ k, (k = 1 ∨ k = 3) ∧
      (if ¬ g ≠ 0 then PUT m H (PACK v 1) else PUT m H (PACK v 3)) = PUT m H (PACK v k) := by
  by_cases hg : g ≠ 0
  · exact ⟨3, Or.inr rfl, by rw [if_neg (not_not.mpr hg)]⟩
  · exact ⟨1, Or.inl rfl, by rw [if_pos hg]⟩

/-- The header that `place(bp, asize)` leaves on `bp`, in any memory: size
`asize` with the allocated bit set. -/
theorem place_header (m : Mem) (bp a : Nat) (ha1 : 16 ≤ a) (ha2 : a % 16 = 0) (ha3 : a < U64) :
    ∃ k, (k = 1 ∨ k = 3) ∧ GET (place m bp a) (HDRP bp) = a + k := by
  have hU := U64_val
  obtain ⟨c, hc⟩ : ∃ c, GET_SIZE m (HDRP bp) = c := ⟨_, rfl⟩
  have hcm : c % 16 = 0 := by rw [← hc]; exact GET_SIZE_mod _ _
  have hcl : c < U64 := by rw [← hc]; exact GET_SIZE_lt _ _
  obtain ⟨d, hd⟩ : ∃ d, sub64 c a = d := ⟨_, rfl⟩
  have hdm : d % 16 = 0 := by rw [← hd]; exact sub64_mod hcm ha2
  have hdl : d < U64 := by rw [← hd]; exact Nat.mod_lt _ (by omega)
  unfold place
  simp only [hc, hd]
  by_cases hsp : d ≥ 2 * WSIZE
  · rw [if_pos hsp]
    rw [WSIZE_val] at hsp
    obtain ⟨k, hk, hm1⟩ := PUT_header_cases m (HDRP bp) (GET_PREV_ALLOC m (HDRP bp)) a
    rw [hm1]
    refine ⟨k, hk, ?_⟩
    have e1 : GET (PUT m (HDRP bp) (PACK a k)) (HDRP bp) = a + k := by
      rw [GET_PUT_same, PACK_eq ha2 (by omega), Nat.mod_eq_of_lt (by omega)]
    have e2 : NEXT_BLKP (PUT m (HDRP bp) (PACK a k)) bp = (bp + a) % U64 := by
      rw [NEXT_BLKP_eq, GET_SIZE_eq, e1, size_of_word ha2 (by omega)]
    rw [e2]
    have n1 : HDRP bp ≠ HDRP ((bp + a) % U64) := by
      rw [HDRP_eq, HDRP_eq, hU]; omega
    have e3 : GET_SIZE (PUT (PUT m (HDRP bp) (PACK a k)) (HDRP ((bp + a) % U64)) (PACK d 2))
        (HDRP ((bp + a) % U64)) = d := by
      rw [GET_SIZE_eq, GET_PUT_same, PACK_eq hdm (by omega), Nat.mod_eq_of_lt (by omega),
        size_of_word hdm (by omega)]
    have n2 : HDRP bp ≠ FTRP (PUT (PUT m (HDRP bp) (PACK a k)) (HDRP ((bp + a) % U64))
        (PACK d 2)) ((bp + a) % U64) := by
      rw [FTRP_eq, e3, HDRP_eq, hU]; omega
    rw [GET_PUT_ne _ _ n2, GET_PUT_ne _ _ n1, e1]
  · rw [if_neg hsp]
    have hca : c = a := by
      rw [WSIZE_val] at hsp
      have hd0 : d = 0 := by omega
      rw [hd0] at hd
      unfold sub64 at hd
      rw [hU] at hd
      omega
    subst hca
    obtain ⟨k, hk, hm1⟩ := PUT_header_cases m (HDRP bp) (GET_PREV_ALLOC m (HDRP bp)) c
    rw [hm1]
    refine ⟨k, hk, ?_⟩
    have e1 : GET (PUT m (HDRP bp) (PACK c k)) (HDRP bp) = c + k := by
      rw [GET_PUT_same, PACK_eq ha2 (by omega), Nat.mod_eq_of_lt (by omega)]
    have e2 : NEXT_BLKP (PUT m (HDRP bp) (PACK c k)) bp = (bp + c) % U64 := by
      rw [NEXT_BLKP_eq, GET_SIZE_eq, e1, size_of_word ha2 (by omega)]
    rw [e2]
    have n1 : HDRP bp ≠ HDRP ((bp + c) % U64) := by
      rw [HDRP_eq, HDRP_eq, hU]; omega
    obtain ⟨n, hn⟩ : ∃ n, GET_SIZE (PUT m (HDRP bp) (PACK c k)) (HDRP ((bp + c) % U64)) = n :=
      ⟨_, rfl⟩
    have hnm : n % 16 = 0 := by rw [← hn]; exact GET_SIZE_mod _ _
    have hnl : n < U64 := by rw [← hn]; exact GET_SIZE_lt _ _
    rw [hn]
    split
    · have e3 : GET_SIZE (PUT (PUT m (HDRP bp) (PACK c k)) (HDRP ((bp + c) % U64)) (PACK n 2))
          (HDRP ((bp + c) % U64)) = n := by
        rw [GET_SIZE_eq, GET_PUT_same, PACK_eq hnm (by omega), Nat.mod_eq_of_lt (by omega),
          size_of_word hnm (by omega)]
      have n2 : HDRP bp ≠ FTRP (PUT (PUT m (HDRP bp) (PACK c k)) (HDRP ((bp + c) % U64))
          (PACK n 2)) ((bp + c) % U64) := by
        rw [FTRP_eq, e3, HDRP_eq, hU]; omega
      rw [GET_PUT_ne _ _ n2, GET_PUT_ne _ _ n1, e1]
    · rw [GET_PUT_ne _ _ n1, e1]

/-- C17 (exact block size): in every heap state, a successful `mm_malloc(s)`,
with `s > 0` adjusted without overflow, returns a block marked allocated whose
header size is the adjusted size, whether the chosen block was split or
consumed whole, and the adjusted size is the least multiple of `DSIZE` that is
at least `s + WSIZE`. -/
theorem malloc_exact_size (h : Heap) {s p : Nat} {h' : Heap} (hs : Fits s)
    (hs0 : 0 < s) (hm : mm_malloc h s = some (p, h')) (hp : p ≠ NULL) :
    GET_SIZE h'.mem (HDRP p) = adjust s ∧ GET_ALLOC h'.mem (HDRP p) = 1 ∧
    adjust s % DSIZE = 0 ∧ s + WSIZE ≤ adjust s ∧
    ∀ k, k % DSIZE = 0 → s + WSIZE ≤ k → adjust s ≤ k := by
  obtain ⟨ha1, ha2, ha3, _, _⟩ := adjust_fits hs (by omega)
  have key : ∀ (m : Mem) (bp : Nat),
      GET_SIZE (place m bp (adjust s)) (HDRP bp) = adjust s ∧
      GET_ALLOC (place m bp (adjust s)) (HDRP bp) = 1 := by
    intro m bp
    obtain ⟨k, hk, e⟩ := place_header m bp _ ha1 ha2 ha3
    rw [GET_SIZE_eq, GET_ALLOC_eq, e]
    rcases hk with rfl | rfl <;> exact ⟨by omega, by omega⟩
  refine ⟨?_, ?_, adjust_least hs⟩ <;>
  · unfold mm_malloc at hm
    rw [if_neg (by omega)] at hm
    cases hff : find_fit h (adjust s) with
    | none => simp [hff] at hm
    | some bp =>
      simp only [hff] at hm
      by_cases hb : bp ≠ NULL
      · rw [if_pos hb] at hm
        simp only [Option.some.injEq, Prod.mk.injEq] at hm
        obtain ⟨rfl, rfl⟩ := hm
        first
          | exact (key h.mem bp).1
          | exact (key h.mem bp).2
      · rw [if_neg hb] at hm
        by_cases he : (extend_heap h (MAX (adjust s) CHUNKSIZE / WSIZE)).1 = NULL
        · rw [if_pos he] at hm
          simp only [Option.some.injEq, Prod.mk.injEq] at hm
          exact absurd hm.1.symm hp
        · rw [if_neg he] at hm
          simp only [Option.some.injEq, Prod.mk.injEq] at hm
          obtain ⟨rfl, rfl⟩ := hm
          first
            | exact (key _ _).1
            | exact (key _ _).2

theorem malloc_exact_size_witness :
    (run heap0 (mm_malloc heap0 4000)).1 = 4112 ∧ adjust 4000 = 4016 ∧
    (GET_SIZE (run heap0 (mm_malloc heap0 4000)).2.mem (HDRP (run heap0 (mm_malloc heap0 4000)).1)
        = adjust 4000 ∧
      GET_ALLOC (run heap0 (mm_malloc heap0 4000)).2.mem
        (HDRP (run heap0 (mm_malloc heap0 4000)).1) = 1 ∧
      adjust 4000 % DSIZE = 0 ∧ 4000 + WSIZE ≤ adjust 4000 ∧
      ∀ k, k % DSIZE = 0 → 4000 + WSIZE ≤ k → adjust 4000 ≤ k) :=
  ⟨by decide, by decide,
    malloc_exact_size heap0 (by decide) (by decide) (run_eq (by decide)) (by decide)⟩

theorem block_at_split {h : Heap} {bs : List Blk} (hw : WF h bs) {bp c a : Nat}
    (hb : block_at h bp c a = true) :
    ∃ l1 al l2, bs = l1 ++ ⟨c, al⟩ :: l2 ∧ bp = h.heap_listp + total l1 ∧
      a = if al then 1 else 0 := by
  unfold block_at at hb
  rw [heap_blocks_of_WF hw] at hb
  simp only [decide_eq_true_eq] at hb
  exact mem_concr hb

/-- The header of the block that follows a block of a well-formed heap, when
that block is allocated or the epilogue. -/
theorem next_header {h : Heap} {l1 : List Blk} {c : Nat} {al : Bool} {l2 : List Blk}
    (hw : WF h (l1 ++ ⟨c, al⟩ :: l2)) (ha : headA l2 = true) :
    HDRP (h.heap_listp + total l1 + c) = h.heap_listp + total l1 + c - 8 ∧
    GET h.mem (h.heap_listp + total l1 + c - 8) = hd (nsize l2) true al ∧
    nsize l2 % 16 = 0 := by
  have hU := U64_val
  obtain ⟨e1, e2, e3, e4, e5, e6⟩ := GET_SIZE_block hw
  obtain ⟨hl8, hch, hbm, hmax⟩ := hw
  rw [Chain_append] at hch
  obtain ⟨_, ⟨_, _, _, _, hc5⟩, hep⟩ := hch
  simp only [lastA] at hep
  simp only at hc5
  have hch2 : Chain h.mem (h.heap_listp + total l1 + c) al l2 h.brk := ⟨hc5, hep⟩
  obtain ⟨hn1, hn2, _⟩ := Chain_head hch2 ha
  refine ⟨?_, hn1, hn2⟩
  unfold HDRP; rw [WSIZE_val, sub64_eq] <;> omega

/-- The footer position of a block of a well-formed heap, and the footer of a
free block. -/
theorem block_footer {h : Heap} {l1 : List Blk} {c : Nat} {al : Bool} {l2 : List Blk}
    (hw : WF h (l1 ++ ⟨c, al⟩ :: l2)) :
    FTRP h.mem (h.heap_listp + total l1) = h.heap_listp + total l1 + c - 16 ∧
    (al = false → GET h.mem (h.heap_listp + total l1 + c - 16) = c + 2 ∧
      GET h.mem (h.heap_listp + total l1 - 8) = c + 2) := by
  have hU := U64_val
  obtain ⟨e1, e2, e3, e4, e5, e6⟩ := GET_SIZE_block hw
  obtain ⟨hl8, hch, hbm, hmax⟩ := hw
  rw [Chain_append] at hch
  obtain ⟨_, ⟨_, _, hc3, hc4, _⟩, _⟩ := hch
  simp only at hc3 hc4
  refine ⟨?_, fun hal => ?_⟩
  · unfold FTRP
    rw [e3, DSIZE_val, add64_eq (by omega), sub64_eq (by omega) (by omega)]
  · obtain ⟨g1, g2⟩ := hc4 hal
    rw [hd_ft] at g2
    rw [hal, g1, hd_ft] at hc3
    exact ⟨g2, hc3⟩

/-- C14 (postcondition of `place`): on a well-formed heap, for a free block
`bp` of size `c` and `asize` a multiple of `DSIZE` with `DSIZE ≤ asize ≤ c`.
When `c - asize ≥ 2 * WSIZE`, after `place(bp, asize)` the header of `bp` holds
size `asize`, the allocated bit and the predecessor bit it had, and the block
at `bp + asize` has header and footer equal to `PACK(c - asize, 2)`.
Otherwise the header of `bp` holds size `c`, the allocated bit and the
predecessor bit it had, and the header of the block at `bp + c` keeps its size
and allocated bit and has its predecessor bit set. -/
theorem place_post {h : Heap} {bs : List Blk} (hw : WF h bs) {bp c asize : Nat}
    (hb : block_at h bp c 0 = true) (ha1 : asize % DSIZE = 0) (ha2 : DSIZE ≤ asize)
    (ha3 : asize ≤ c) :
    (2 * WSIZE ≤ c - asize →
      GET_SIZE (place h.mem bp asize) (HDRP bp) = asize ∧
      GET_ALLOC (place h.mem bp asize) (HDRP bp) = 1 ∧
      GET_PREV_ALLOC (place h.mem bp asize) (HDRP bp) = GET_PREV_ALLOC h.mem (HDRP bp) ∧
      NEXT_BLKP (place h.mem bp asize) bp = bp + asize ∧
      GET (place h.mem bp asize) (HDRP (bp + asize)) = PACK (c - asize) 2 ∧
      GET (place h.mem bp asize) (FTRP (place h.mem bp asize) (bp + asize)) =
        PACK (c - asize) 2) ∧
    (¬ 2 * WSIZE ≤ c - asize →
      GET_SIZE (place h.mem bp asize) (HDRP bp) = c ∧
      GET_ALLOC (place h.mem bp asize) (HDRP bp) = 1 ∧
      GET_PREV_ALLOC (place h.mem bp asize) (HDRP bp) = GET_PREV_ALLOC h.mem (HDRP bp) ∧
      NEXT_BLKP (place h.mem bp asize) bp = bp + c ∧
      GET_SIZE (place h.mem bp asize) (HDRP (bp + c)) = GET_SIZE h.mem (HDRP (bp + c)) ∧
      GET_ALLOC (place h.mem bp asize) (HDRP (bp + c)) = GET_ALLOC h.mem (HDRP (bp + c)) ∧
      GET_PREV_ALLOC (place h.mem bp asize) (HDRP (bp + c)) = 2) := by
  have hU := U64_val
  rw [DSIZE_val] at ha1 ha2
  rw [WSIZE_val]
  obtain ⟨l1, al, l2, rfl, rfl, hal⟩ := block_at_split hw hb
  have hal' : al = false := by
    cases al with
    | false => rfl
    | true => exact absurd hal (by decide)
  subst hal'
  obtain ⟨_, _, o3, o4, o5, o6⟩ := GET_SIZE_block hw
  have hmx := hw.2.2.2
  have hbk := hw.2.2.1
  have hw' : WF { h with mem := place h.mem (h.heap_listp + total l1) asize }
      (l1 ++ (placed c asize ++ l2)) :=
    ⟨hw.1, (place_Chain hw.2.1 hw.1 (by omega) ha2 ha1 ha3).1, hw.2.2.1, hw.2.2.2⟩
  have hpold := (block_bits hw).2
  refine ⟨fun hsp => ?_, fun hsp => ?_⟩
  · have hsplit : asize + 16 ≤ c := by omega
    simp only [placed, if_pos hsplit, List.cons_append, List.nil_append] at hw'
    obtain ⟨_, _, e3, _, _, _⟩ := GET_SIZE_block hw'
    obtain ⟨b1, b2⟩ := block_bits hw'
    have hw2 : WF { h with mem := place h.mem (h.heap_listp + total l1) asize }
        ((l1 ++ [⟨asize, true⟩]) ++ ⟨c - asize, false⟩ :: l2) := by simpa using hw'
    obtain ⟨f1, f2, f3, _, f5, _⟩ := GET_SIZE_block hw2
    obtain ⟨g1, g2⟩ := block_footer hw2
    have ht : total (l1 ++ [⟨asize, true⟩]) = total l1 + asize := by
      rw [total_append]; simp [total]
    simp only [ht, ← Nat.add_assoc] at f1 f2 f3 g1 g2
    have hnx : NEXT_BLKP (place h.mem (h.heap_listp + total l1) asize)
        (h.heap_listp + total l1) = h.heap_listp + total l1 + asize := by
      show add64 _ (GET_SIZE _ (HDRP _)) = _
      rw [e3, add64_eq (by omega)]
    refine ⟨e3, b1, by rw [b2, hpold], hnx, ?_, ?_⟩
    · rw [f1, (g2 trivial).2, PACK_eq f5 (by omega)]
    · rw [g1, (g2 trivial).1, PACK_eq f5 (by omega)]
  · have hcs : asize = c := by omega
    subst hcs
    have hns : ¬ asize + 16 ≤ asize := by omega
    simp only [placed, if_neg hns, List.cons_append, List.nil_append] at hw'
    obtain ⟨_, _, e3, _, _, _⟩ := GET_SIZE_block hw'
    obtain ⟨b1, b2⟩ := block_bits hw'
    have hha : headA l2 = true := by
      have hch := hw.2.1
      rw [Chain_append] at hch
      exact Seg_head_alloc hch.2.1.2.2.2.2
    obtain ⟨n1, n2, n3⟩ := next_header hw hha
    obtain ⟨n1', n2', _⟩ := next_header hw' hha
    have hnx : NEXT_BLKP (place h.mem (h.heap_listp + total l1) asize)
        (h.heap_listp + total l1) = h.heap_listp + total l1 + asize := by
      show add64 _ (GET_SIZE _ (HDRP _)) = _
      rw [e3, add64_eq (by omega)]
    refine ⟨e3, b1, by rw [b2, hpold], hnx, ?_, ?_, ?_⟩
    · rw [n1] at n1' ⊢
      rw [GET_SIZE_eq, GET_SIZE_eq, n2, n2', hd_size _ _ n3, hd_size _ _ n3]
    · rw [n1] at n1' ⊢
      rw [GET_ALLOC_eq, GET_ALLOC_eq, n2, n2', hd_alloc _ _ n3, hd_alloc _ _ n3]
    · rw [n1] at n1' ⊢
      rw [GET_PREV_ALLOC_eq, n2', hd_prev _ _ n3]; rfl

theorem place_post_witness :
    block_at heap0 4112 4112 0 = true ∧
    GET_SIZE (place heap0.mem 4112 112) (HDRP 4112) = 112 ∧
    GET_ALLOC (place heap0.mem 4112 112) (HDRP 4112) = 1 ∧
    GET (place heap0.mem 4112 112) (HDRP (4112 + 112)) = PACK (4112 - 112) 2 ∧
    GET (place heap0.mem 4112 112) (FTRP (place heap0.mem 4112 112) (4112 + 112)) =
      PACK (4112 - 112) 2 :=
  have t := (@place_post heap0 [⟨4112, false⟩] (by decide) 4112 4112 112 (by decide)
    (by decide) (by decide) (by decide)).1 (by decide)
  ⟨by decide, t.1, t.2.1, t.2.2.2.2.1, t.2.2.2.2.2⟩

/-- The block list around an allocated block whose successor is free. -/
theorem free_successor {h : Heap} {l1 : List Blk} {c : Nat} {l2 : List Blk}
    (hw : WF h (l1 ++ ⟨c, true⟩ :: l2))
    (hfree : GET_ALLOC h.mem (HDRP (NEXT_BLKP h.mem (h.heap_listp + total l1))) = 0) :
    ∃ l2', l2 = ⟨GET_SIZE h.mem (HDRP (NEXT_BLKP h.mem (h.heap_listp + total l1))), false⟩ :: l2' ∧
      headA l2' = true := by
  obtain ⟨hn1, hn2⟩ := next_read hw
  cases l2 with
  | nil => exact absurd hfree (hn1 rfl)
  | cons N l2' =>
    obtain ⟨n, nal⟩ := N
    cases nal with
    | true => exact absurd hfree (hn1 rfl)
    | false =>
      obtain ⟨_, g2⟩ := hn2 n l2' rfl
      rw [g2]
      refine ⟨l2', rfl, ?_⟩
      have hch := hw.2.1
      rw [Chain_append] at hch
      exact Seg_head_alloc hch.2.1.2.2.2.2.2.2.2.2

/-- What `mm_realloc` returns when the request is larger than the block and
the free successor is large enough. -/
theorem mm_realloc_absorb_eq {h : Heap} {l1 : List Blk} {c n : Nat} {l2 : List Blk}
    (hw : WF h (l1 ++ ⟨c, true⟩ :: ⟨n, false⟩ :: l2)) {s : Nat} (hgt : c < adjust s)
    (hfit : adjust s ≤ c + n) :
    mm_realloc h (h.heap_listp + total l1) s = some (h.heap_listp + total l1,
      { h with mem := realloc_absorb h.mem (h.heap_listp + total l1) (c + n) (adjust s) }) := by
  have hU := U64_val
  obtain ⟨e1, e2, e3, e4, e5, e6⟩ := GET_SIZE_block hw
  obtain ⟨hn1, hn2⟩ := next_read hw
  obtain ⟨ga, gs⟩ := hn2 n l2 rfl
  have hs0 : s ≠ 0 := by
    rintro rfl
    have : adjust 0 = 16 := by decide
    omega
  have hp0 : h.heap_listp + total l1 ≠ NULL := by
    have := hw.1
    unfold NULL; omega
  have hend := Seg_end hw.2.1.1
  rw [total_append] at hend
  simp only [total] at hend
  have hbm := hw.2.2.1
  have hmax := hw.2.2.2
  unfold mm_realloc
  rw [if_neg hs0, if_neg hp0]
  simp only [e3]
  rw [if_neg (show ¬ c = adjust s by omega),
    if_neg (show ¬ (c > adjust s ∧ sub64 c (adjust s) ≤ MINIMUM) from fun hc => by omega)]
  simp only [if_neg (show ¬ c > adjust s by omega)]
  rw [ga, gs, add64_eq (by omega), add64_eq (by omega)]
  rw [if_pos ⟨by simp, by omega⟩]

/-- C16 (grow in place by absorption): on a well-formed heap, for an allocated
block `p` of size `old` whose successor is free with size `n`, and a request
with `old < asize ≤ old + n`, `mm_realloc` returns `p`.  When
`old + n - asize ≥ 2 * WSIZE` the header of `p` then holds size `asize`, the
allocated bit and the predecessor bit it had, and the block at `p + asize` has
header and footer equal to `PACK(old + n - asize, 2)`.  Otherwise the header
of `p` holds size `old + n`, the allocated bit and the predecessor bit it had,
and the header of the block at `p + old + n` has its predecessor bit set. -/
theorem realloc_absorbs {h : Heap} {bs : List Blk} (hw : WF h bs) {p s old n : Nat}
    (hp : allocated h p = true) (ho : GET_SIZE h.mem (HDRP p) = old)
    (hfree : GET_ALLOC h.mem (HDRP (NEXT_BLKP h.mem p)) = 0)
    (hn : GET_SIZE h.mem (HDRP (NEXT_BLKP h.mem p)) = n)
    (hgt : old < adjust s) (hfit : adjust s ≤ old + n) :
    ∃ h', mm_realloc h p s = some (p, h') ∧
      (2 * WSIZE ≤ old + n - adjust s →
        GET_SIZE h'.mem (HDRP p) = adjust s ∧ GET_ALLOC h'.mem (HDRP p) = 1 ∧
        GET_PREV_ALLOC h'.mem (HDRP p) = GET_PREV_ALLOC h.mem (HDRP p) ∧
        NEXT_BLKP h'.mem p = p + adjust s ∧
        GET h'.mem (HDRP (p + adjust s)) = PACK (old + n - adjust s) 2 ∧
        GET h'.mem (FTRP h'.mem (p + adjust s)) = PACK (old + n - adjust s) 2) ∧
      (¬ 2 * WSIZE ≤ old + n - adjust s →
        GET_SIZE h'.mem (HDRP p) = old + n ∧ GET_ALLOC h'.mem (HDRP p) = 1 ∧
        GET_PREV_ALLOC h'.mem (HDRP p) = GET_PREV_ALLOC h.mem (HDRP p) ∧
        NEXT_BLKP h'.mem p = p + (old + n) ∧
        GET_PREV_ALLOC h'.mem (HDRP (p + (old + n))) = 2) := by
  have hU := U64_val
  rw [WSIZE_val]
  obtain ⟨l1, c, l2, rfl, rfl⟩ := allocated_split hw hp
  obtain ⟨_, _, o3, o4, o5, o6⟩ := GET_SIZE_block hw
  rw [o3] at ho
  subst ho
  obtain ⟨l2', rfl, hha⟩ := free_successor hw hfree
  rw [hn] at hw
  have ham := adjust_mod s
  have hmx := hw.2.2.2
  have hbk := hw.2.2.1
  have hend := Seg_end hw.2.1.1
  rw [total_append] at hend
  simp only [total] at hend
  have hnm : n % 16 = 0 := by
    have hw2 : WF h ((l1 ++ [⟨c, true⟩]) ++ ⟨n, false⟩ :: l2') := by simpa using hw
    exact (GET_SIZE_block hw2).2.2.2.2.1
  have hpold := (block_bits hw).2
  refine ⟨_, mm_realloc_absorb_eq hw hgt hfit, ?_⟩
  generalize hM : realloc_absorb h.mem (h.heap_listp + total l1) (c + n) (adjust s) = M
  have hw' : WF { h with mem := M } (l1 ++ (placed (c + n) (adjust s) ++ l2')) := by
    rw [← hM]
    exact ⟨hw.1, (absorb_Chain hw.2.1 hw.1 (by omega) ham hgt hfit).1, hw.2.2.1, hw.2.2.2⟩
  show (_ → GET_SIZE M _ = _ ∧ GET_ALLOC M _ = _ ∧ GET_PREV_ALLOC M _ = _ ∧ NEXT_BLKP M _ = _ ∧
    GET M _ = _ ∧ GET M (FTRP M _) = _) ∧ (_ → GET_SIZE M _ = _ ∧ GET_ALLOC M _ = _ ∧
    GET_PREV_ALLOC M _ = _ ∧ NEXT_BLKP M _ = _ ∧ GET_PREV_ALLOC M _ = _)
  refine ⟨fun hsp => ?_, fun hsp => ?_⟩
  · have hsplit : adjust s + 16 ≤ c + n := by omega
    simp only [placed, if_pos hsplit, List.cons_append, List.nil_append] at hw'
    obtain ⟨_, _, e3, _, _, _⟩ := GET_SIZE_block hw'
    obtain ⟨b1, b2⟩ := block_bits hw'
    have hw2 : WF { h with mem := M }
        ((l1 ++ [⟨adjust s, true⟩]) ++ ⟨c + n - adjust s, false⟩ :: l2') := by simpa using hw'
    obtain ⟨f1, f2, f3, _, f5, _⟩ := GET_SIZE_block hw2
    obtain ⟨g1, g2⟩ := block_footer hw2
    have ht : total (l1 ++ [⟨adjust s, true⟩]) = total l1 + adjust s := by
      rw [total_append]; simp [total]
    simp only [ht, ← Nat.add_assoc] at f1 f2 f3 g1 g2
    have hnx : NEXT_BLKP M (h.heap_listp + total l1) = h.heap_listp + total l1 + adjust s := by
      show add64 _ (GET_SIZE _ (HDRP _)) = _
      rw [e3, add64_eq (by omega)]
    refine ⟨e3, b1, by rw [b2, hpold], hnx, ?_, ?_⟩
    · rw [f1, (g2 trivial).2, PACK_eq f5 (by omega)]
    · rw [g1, (g2 trivial).1, PACK_eq f5 (by omega)]
  · have hcs : adjust s = c + n := by omega
    have hns : ¬ adjust s + 16 ≤ c + n := by omega
    simp only [placed, if_neg hns, List.cons_append, List.nil_append] at hw'
    obtain ⟨_, _, e3, _, _, _⟩ := GET_SIZE_block hw'
    obtain ⟨b1, b2⟩ := block_bits hw'
    obtain ⟨n1', n2', n3⟩ := next_header hw' hha
    have hnx : NEXT_BLKP M (h.heap_listp + total l1) = h.heap_listp + total l1 + (c + n) := by
      show add64 _ (GET_SIZE _ (HDRP _)) = _
      rw [e3, add64_eq (by omega)]
    refine ⟨e3, b1, by rw [b2, hpold], hnx, ?_⟩
    rw [n1', GET_PREV_ALLOC_eq, n2', hd_prev _ _ n3]; rfl

theorem realloc_absorbs_witness :
    heap_blocks heap1 = some [(4112, 112, 1), (4224, 4000, 0)] ∧ adjust 200 = 208 ∧
    ∃ h', mm_realloc heap1 4112 200 = some (4112, h') ∧
      (2 * WSIZE ≤ 112 + 4000 - adjust 200 →
        GET_SIZE h'.mem (HDRP 4112) = adjust 200 ∧ GET_ALLOC h'.mem (HDRP 4112) = 1 ∧
        GET_PREV_ALLOC h'.mem (HDRP 4112) = GET_PREV_ALLOC heap1.mem (HDRP 4112) ∧
        NEXT_BLKP h'.mem 4112 = 4112 + adjust 200 ∧
        GET h'.mem (HDRP (4112 + adjust 200)) = PACK (112 + 4000 - adjust 200) 2 ∧
        GET h'.mem (FTRP h'.mem (4112 + adjust 200)) = PACK (112 + 4000 - adjust 200) 2) ∧
      (¬ 2 * WSIZE ≤ 112 + 4000 - adjust 200 →
        GET_SIZE h'.mem (HDRP 4112) = 112 + 4000 ∧ GET_ALLOC h'.mem (HDRP 4112) = 1 ∧
        GET_PREV_ALLOC h'.mem (HDRP 4112) = GET_PREV_ALLOC heap1.mem (HDRP 4112) ∧
        NEXT_BLKP h'.mem 4112 = 4112 + (112 + 4000) ∧
        GET_PREV_ALLOC h'.mem (HDRP (4112 + (112 + 4000))) = 2) :=
  ⟨by decide, by decide,
    @realloc_absorbs heap1 [⟨112, true⟩, ⟨4000, false⟩] (by decide) 4112 200 112 4000
      (by decide) (by decide) (by decide) (by decide) (by decide) (by decide)⟩

/-! ## The predecessor bits -/

theorem walk_bits_of_Chain {m : Mem} {bs : List Blk} {e : Nat} (he : e < U64) :
    ∀ {p : Nat} {pa : Bool} {fuel : Nat}, Chain m p pa bs e → 8 ≤ p → bs.length < fuel →
      walk_bits m fuel p = some (cbits p pa bs) := by
  have hU := U64_val
  induction bs with
  | nil =>
    intro p pa fuel h hp hfuel
    obtain ⟨h1, h2⟩ := h
    simp only [Seg] at h1
    subst h1
    obtain ⟨f, rfl⟩ : ∃ f, fuel = f + 1 := ⟨fuel - 1, by simp at hfuel; omega⟩
    have e1 : HDRP p = p - 8 := by unfold HDRP; rw [WSIZE_val, sub64_eq] <;> omega
    have e2 : GET_SIZE m (p - 8) = 0 := by
      rw [GET_SIZE_eq, h2, hd_size _ _ (by rfl)]
    have e3 : GET_ALLOC m (p - 8) = 1 := by
      rw [GET_ALLOC_eq, h2, hd_alloc _ _ (by rfl)]; rfl
    have e5 : GET_PREV_ALLOC m (p - 8) = if pa then 2 else 0 := by
      rw [GET_PREV_ALLOC_eq, h2, hd_prev _ _ (by rfl)]; rfl
    simp [walk_bits, e1, e2, e3, e5, cbits]
  | cons b l ih =>
    intro p pa fuel h hp hfuel
    obtain ⟨⟨h1, h2, h3, h4, h5⟩, h6⟩ := h
    have hend := Seg_end h5
    obtain ⟨f, rfl⟩ : ∃ f, fuel = f + 1 := ⟨fuel - 1, by simp at hfuel; omega⟩
    have e1 : HDRP p = p - 8 := by unfold HDRP; rw [WSIZE_val, sub64_eq] <;> omega
    have e2 : GET_SIZE m (p - 8) = b.size := by
      rw [GET_SIZE_eq, h3, hd_size _ _ h2]
    have e3 : GET_ALLOC m (p - 8) = if b.alloc then 1 else 0 := by
      rw [GET_ALLOC_eq, h3, hd_alloc _ _ h2]
    have e5 : GET_PREV_ALLOC m (p - 8) = if pa then 2 else 0 := by
      rw [GET_PREV_ALLOC_eq, h3, hd_prev _ _ h2]
    have e4 : NEXT_BLKP m p = p + b.size := by
      unfold NEXT_BLKP; rw [WSIZE_val, sub64_eq (by omega) (by omega), e2, add64_eq]; omega
    have hrec := @ih (p + b.size) b.alloc f ⟨h5, h6⟩ (by omega)
      (by simp at hfuel; omega)
    simp [walk_bits, e1, e2, e3, e4, e5, hrec, cbits]
    omega

theorem heap_bits_of_WF {h : Heap} {bs : List Blk} (hw : WF h bs) :
    heap_bits h = some (cbits h.heap_listp true bs) := by
  obtain ⟨h1, h2, h3, h4⟩ := hw
  have hU := U64_val
  have hl := Seg_length h2.1
  have he := Seg_end h2.1
  exact walk_bits_of_Chain (by omega) h2 h1 (by unfold FUEL; omega)

theorem prev_bits_ok_cbits (bs : List Blk) : ∀ (p : Nat) (pa : Bool),
    prev_bits_ok (cbits p pa bs) = true := by
  induction bs with
  | nil => intro p pa; rfl
  | cons b l ih =>
    intro p pa
    have h1 := ih (p + b.size) b.alloc
    cases l with
    | nil => cases hb : b.alloc <;> simp [cbits, prev_bits_ok, hb]
    | cons c l' =>
      simp only [cbits] at h1 ⊢
      simp only [prev_bits_ok, h1, Bool.and_true]
      cases hb : b.alloc <;> simp

/-- C15 (predecessor flag invariant I4): in a state reached from a successful
`mm_init` by well-formed calls, the walk from the heap start stops on the
epilogue header, and in the headers met, the epilogue header included, the
predecessor-allocated bit of each header but the first is set exactly when the
allocated bit of the header before it is set. -/
theorem prev_flag_invariant {h : Heap} (hr : Reachable h) :
    ∃ l, heap_bits h = some l ∧ prev_bits_ok l = true := by
  obtain ⟨bs, hw⟩ := Reachable_WF hr
  exact ⟨_, heap_bits_of_WF hw, prev_bits_ok_cbits bs _ _⟩

theorem prev_flag_invariant_witness :
    heap_bits heap1 = some [(4112, 1, 2), (4224, 0, 2), (8224, 1, 0)] ∧
      ∃ l, heap_bits heap1 = some l ∧ prev_bits_ok l = true :=
  ⟨by decide, prev_flag_invariant Reachable_heap1⟩

/-! ## The consistency checker on a well-formed heap -/

/-- C18 (validator compares tags only on free blocks), evaluated.  After
`mm_init` and `mm_malloc(100)` the heap holds the allocated block at 4112 and
the free block at 4224, whose header and footer are the same word.
`checkheap(false)` prints "header does not match footer" twice, for the
allocated block at 4112 (once before the loop and once in it), and "Bad
prologue header". -/
theorem checkheap_compares_allocated :
    heap_blocks heap1 = some [(4112, 112, 1), (4224, 4000, 0)] ∧
    GET heap1.mem (HDRP 4224) = GET heap1.mem (FTRP heap1.mem 4224) ∧
    checkblock heap1.mem 4112 = [Msg.mismatch] ∧ checkblock heap1.mem 4224 = [] ∧
    checkheap heap1 false = some [Msg.bad_prologue, Msg.mismatch, Msg.mismatch] := by decide

/-! ## Frame and conservation -/

/-- The allocated blocks other than the freed one are blocks of the list after
`mm_free`, and lie outside the merged free block. -/
theorem free_keeps {hl : Nat} {l1' : List Blk} {psz c n : Nat} {l2' : List Blk} {q sz : Nat}
    (hm : (q, sz, 1) ∈ concr hl ((l1' ++ fr psz) ++ ⟨c, true⟩ :: (fr n ++ l2')))
    (hne : q ≠ hl + total (l1' ++ fr psz)) :
    (q, sz, 1) ∈ concr hl (l1' ++ ⟨psz + c + n, false⟩ :: l2') ∧
      (q + sz ≤ hl + total l1' ∨ hl + total l1' + psz + c + n ≤ q) := by
  have ht : total (l1' ++ fr psz) = total l1' + psz := by rw [total_append, total_fr]
  rw [concr_append, concr_append, List.mem_append, List.mem_append] at hm
  rw [concr_append, List.mem_append]
  rcases hm with (hm | hm) | hm
  · exact ⟨Or.inl hm, Or.inl (mem_concr_bounds hm).2⟩
  · exact absurd hm not_mem_fr
  · simp only [concr, List.mem_cons, Prod.mk.injEq] at hm
    rcases hm with ⟨h1, _⟩ | hm
    · exact absurd h1 hne
    · rw [concr_append, List.mem_append] at hm
      rcases hm with hm | hm
      · exact absurd hm not_mem_fr
      · rw [total_fr, ht] at hm
        have e : hl + (total l1' + psz) + c + n = hl + total l1' + (psz + c + n) := by omega
        rw [e] at hm
        refine ⟨Or.inr ?_, Or.inr ?_⟩
        · simp only [concr, List.mem_cons]
          exact Or.inr hm
        · have := (mem_concr_bounds hm).1
          omega

theorem load_byte_congr {m m' : Mem} {x : Nat} (h : GET m' (x - x % 8) = GET m (x - x % 8)) :
    load_byte m' x = load_byte m x := by
  unfold load_byte; rw [h]

/-- The size field of an allocated block of the walk. -/
theorem allocated_size {h : Heap} {bs : List Blk} (hw : WF h bs) {q sz : Nat}
    (hm : (q, sz, 1) ∈ concr h.heap_listp bs) :
    GET_SIZE h.mem (HDRP q) = sz ∧ 16 ≤ sz ∧ sz % 16 = 0 := by
  obtain ⟨k1, al, k2, hk, hkq, _⟩ := mem_concr hm
  subst hk hkq
  obtain ⟨_, _, f3, f4, f5, _⟩ := GET_SIZE_block hw
  exact ⟨f3, f4, f5⟩

/-- C19 (frame of allocate and free), evaluated.  After `mm_init`,
`a = mm_malloc(100) = 4112`, `q0 = mm_malloc(2^64 - 8) = 4224` (the adjusted
size wraps to 0 and the block stays marked free), `mm_free(a)`,
`b = mm_malloc(304) = 4112`, `c = mm_malloc(100) = 4432` and `mm_free(q0)`, the
block `c` has never been freed and its header is `PACK(112, 3)`.  The call
`mm_malloc(400)`, whose adjusted size does not overflow, returns 4112, leaves
the header of `c` as it was, and changes the byte at offset 88 of the payload
of `c` from 0 to 66. -/
theorem malloc_writes_live_payload :
    (mm_init boot).1 = 0 ∧ (mm_malloc heap0 100).map Prod.fst = some 4112 ∧
    (mm_malloc heap1 (U64 - 8)).map Prod.fst = some 4224 ∧
    (mm_malloc heapS 304).map Prod.fst = some 4112 ∧
    (mm_malloc heapW1 100).map Prod.fst = some 4432 ∧
    GET heapW3.mem (HDRP 4432) = PACK 112 3 ∧ load_byte heapW3.mem (4432 + 88) = 0 ∧
    Fits 400 ∧ 88 < 112 - WSIZE ∧
    (mm_malloc heapW3 400).map
      (fun r => (r.1, GET r.2.mem (HDRP 4432), load_byte r.2.mem (4432 + 88)))
      = some (4112, PACK 112 3, 66) := by decide

/-- Frame of `mm_malloc` and `mm_free` after well-formed calls: in a state
reached from a successful
`mm_init` by well-formed calls, for an allocated block `q` at a word-aligned
address.  A call `mm_malloc(s)`, `s` adjusted without overflow, leaves `q`
allocated and leaves every byte of its payload `[q, q + size(q) - WSIZE)`
unchanged; so does a call `mm_free(p)` of an allocated block `p ≠ q`. -/
theorem malloc_free_frame {h : Heap} (hr : Reachable h) {q : Nat} (hq : allocated h q = true)
    (hq8 : q % WSIZE = 0) :
    (∀ s p h', Fits s → mm_malloc h s = some (p, h') →
      allocated h' q = true ∧
      ∀ x, q ≤ x → x < q + GET_SIZE h.mem (HDRP q) - WSIZE →
        load_byte h'.mem x = load_byte h.mem x) ∧
    (∀ p, allocated h p = true → p ≠ q →
      allocated (mm_free h p) q = true ∧
      ∀ x, q ≤ x → x < q + GET_SIZE h.mem (HDRP q) - WSIZE →
        load_byte (mm_free h p).mem x = load_byte h.mem x) := by
  obtain ⟨bs, hw⟩ := Reachable_WF hr
  obtain ⟨sz, hsz⟩ := (allocated_iff hw q).1 hq
  obtain ⟨f3, f4, f5⟩ := allocated_size hw hsz
  rw [f3]
  rw [WSIZE_val] at hq8 ⊢
  refine ⟨fun s p h' hs hm => ?_, fun p hp hne => ?_⟩
  · by_cases hs0 : s = 0
    · subst hs0
      simp only [mm_malloc, reduceIte, Option.some.injEq, Prod.mk.injEq] at hm
      rw [← hm.2]; exact ⟨hq, fun x _ _ => rfl⟩
    · obtain ⟨ha1, ha2, ha3, _, _⟩ := adjust_fits hs hs0
      rcases mm_malloc_WF hw ha1 ha2 ha3 hm with ⟨_, hh⟩ |
        ⟨_, l1, c0, cc, l2, hbs, hc0, hl2, hcc, hnp, hw1, hhl, _, hfr⟩
      · rw [hh]; exact ⟨hq, fun x _ _ => rfl⟩
      · rw [hbs] at hsz
        obtain ⟨hk1, hk2⟩ := malloc_keeps (c := cc) (a := adjust s) hl2 hsz
        refine ⟨(allocated_iff hw1 q).2 ⟨sz, by rw [hhl]; exact hk1⟩, fun x hx1 hx2 => ?_⟩
        apply load_byte_congr
        apply hfr
        omega
  · obtain ⟨l1, c, l2, rfl, rfl⟩ := allocated_split hw hp
    obtain ⟨l1', psz, n, l2', e1, e2, _, _, _, _, hfw, hhl, _, _, hfr⟩ := mm_free_WF hw
    have ht : total l1 = total l1' + psz := by rw [e1, total_append, total_fr]
    rw [e1, e2] at hsz
    obtain ⟨hk1, hk2⟩ := free_keeps hsz (by rw [← e1]; exact fun hc => hne hc.symm)
    refine ⟨(allocated_iff hfw q).2 ⟨sz, by rw [hhl]; exact hk1⟩, fun x hx1 hx2 => ?_⟩
    apply load_byte_congr
    apply hfr
    omega

theorem malloc_free_frame_witness :
    heap_blocks heapB3 = some [(4112, 64, 1), (4176, 64, 1), (4240, 64, 1), (4304, 3920, 0)] ∧
    (allocated (run heapB3 (mm_malloc heapB3 50)).2 4176 = true ∧
      ∀ x, 4176 ≤ x → x < 4176 + GET_SIZE heapB3.mem (HDRP 4176) - WSIZE →
        load_byte (run heapB3 (mm_malloc heapB3 50)).2.mem x = load_byte heapB3.mem x) ∧
    (allocated (mm_free heapB3 4112) 4176 = true ∧
      ∀ x, 4176 ≤ x → x < 4176 + GET_SIZE heapB3.mem (HDRP 4176) - WSIZE →
        load_byte (mm_free heapB3 4112).mem x = load_byte heapB3.mem x) :=
  have hr : Reachable heapB3 :=
    Reachable.malloc 50 _ _ (Reachable.malloc 50 _ _ (Reachable.malloc 50 _ _
      (Reachable.init boot (by decide) (by decide)) (by decide) (run_eq (by decide)))
      (by decide) (run_eq (by decide))) (by decide) (run_eq (by decide))
  have t := @malloc_free_frame heapB3 hr 4176 (by decide) (by decide)
  ⟨by decide, t.1 50 _ _ (by decide) (run_eq (by decide)), t.2 4112 (by decide) (by decide)⟩

theorem adjust_cases (s : Nat) : adjust s = 0 ∨ 16 ≤ adjust s := by
  have := adjust_mod s
  omega

/-- The call `place(bp, 0)` on a free block rewrites its header and footer with
the words they hold. -/
theorem place_zero (m : Mem) (bp c z : Nat) (hz : z = 0) (hB : GET m (bp - 8) = c + 2)
    (hF : GET m (bp + c - 16) = c + 2) (hc : c % 16 = 0) (h1 : 16 ≤ c) (h0 : 8 ≤ bp)
    (h3 : bp + c < U64) (x : Nat) : GET (place m bp z) x = GET m x := by
  have hU := U64_val
  rw [place_split m bp c z hB hc (by omega) (by omega) h0 h3]
  have e1 : bp + z - 8 = bp - 8 := by omega
  have e2 : c - z + 2 = c + 2 := by omega
  rw [e1, e2]
  by_cases hx1 : x = bp + c - 16
  · rw [hx1, GET_PUT_same, hF, Nat.mod_eq_of_lt (by omega)]
  · rw [GET_PUT_ne _ _ hx1]
    by_cases hx2 : x = bp - 8
    · rw [hx2, GET_PUT_same, hB, Nat.mod_eq_of_lt (by omega)]
    · rw [GET_PUT_ne _ _ hx2, GET_PUT_ne _ _ hx2]

theorem place_zero_WF {h : Heap} {l1 : List Blk} {c : Nat} {l2 : List Blk} {z : Nat}
    (hz : z = 0) (hw : WF h (l1 ++ ⟨c, false⟩ :: l2)) :
    WF { h with mem := place h.mem (h.heap_listp + total l1) z } (l1 ++ ⟨c, false⟩ :: l2) := by
  have hU := U64_val
  obtain ⟨_, _, _, e4, e5, e6⟩ := GET_SIZE_block hw
  obtain ⟨g1, g2⟩ := (block_footer hw).2 rfl
  have h8 := hw.1
  have hb := hw.2.2.1
  have hmx := hw.2.2.2
  have a1 : 8 ≤ h.heap_listp + total l1 := by omega
  have a2 : h.heap_listp + total l1 + c < U64 := by omega
  have hf := place_zero h.mem (h.heap_listp + total l1) c z hz g2 g1 e5 e4 a1 a2
  exact ⟨hw.1, Chain_frame hw.2.1 hw.1 (fun x _ _ => hf x), hw.2.2.1, hw.2.2.2⟩

/-- The call `mm_malloc` with an adjusted size that wrapped to 0 keeps the heap
well-formed. -/
theorem mm_malloc_zero_WF {h : Heap} {bs : List Blk} {s p : Nat} {h' : Heap} (hw : WF h bs)
    (ha : adjust s = 0) (hm : mm_malloc h s = some (p, h')) :
    ∃ bs', WF h' bs' ∧ h'.heap_listp = h.heap_listp := by
  have hU := U64_val
  unfold mm_malloc at hm
  by_cases hs0 : s = 0
  · rw [if_pos hs0] at hm
    simp only [Option.some.injEq, Prod.mk.injEq] at hm
    rw [← hm.2]; exact ⟨bs, hw, rfl⟩
  rw [if_neg hs0] at hm
  simp only [find_fit_of_WF hw] at hm
  have hl8 := hw.1
  rcases first_fit_concr (adjust s) bs h.heap_listp hl8 with
    ⟨hnull, _⟩ | ⟨l1, c, l2, hbs, hc, hff, _⟩
  · rw [hnull] at hm
    simp only [ne_eq, not_true_eq_false, reduceIte] at hm
    obtain ⟨hw1, hw2, hw3, hw4, hw5⟩ := extend_words (adjust s) (adjust_mod s)
    by_cases hfit : h.brk + MAX (adjust s) CHUNKSIZE / WSIZE * 8 ≤ h.max_addr
    · obtain ⟨l, psz, he1, he2, he3, he4, he5, he6, he7, he8⟩ :=
        @extend_heap_WF h bs (MAX (adjust s) CHUNKSIZE / WSIZE) hw hw1 (by omega) hfit
      generalize extend_heap h (MAX (adjust s) CHUNKSIZE / WSIZE) = E at *
      have hne : ¬ E.1 = NULL := by
        rw [he1]; unfold NULL; omega
      rw [if_neg hne] at hm
      simp only [Option.some.injEq, Prod.mk.injEq] at hm
      obtain ⟨hp, hh'⟩ := hm
      have hz := place_zero_WF ha he4
      have he1' : E.2.heap_listp + total l = E.1 := by rw [he5, he1]
      rw [he1'] at hz
      rw [← hh']
      exact ⟨_, hz, he5⟩
    · have hmx := hw.2.2.2
      rw [extend_heap_fail h _ hw1 (by omega) hfit] at hm
      simp only [reduceIte, Option.some.injEq, Prod.mk.injEq] at hm
      rw [← hm.2]; exact ⟨bs, hw, rfl⟩
  · rw [hff] at hm
    have hne : h.heap_listp + total l1 ≠ NULL := by unfold NULL; omega
    rw [if_pos hne] at hm
    simp only [Option.some.injEq, Prod.mk.injEq] at hm
    obtain ⟨hp, hh'⟩ := hm
    subst hbs
    rw [← hh']
    exact ⟨_, place_zero_WF ha hw, rfl⟩

/-- The call `mm_malloc`, of any size, keeps the heap well-formed and the heap
start in place. -/
theorem mm_malloc_any_WF {h : Heap} {bs : List Blk} {s p : Nat} {h' : Heap} (hw : WF h bs)
    (hm : mm_malloc h s = some (p, h')) : ∃ bs', WF h' bs' ∧ h'.heap_listp = h.heap_listp := by
  rcases adjust_cases s with ha | ha
  · exact mm_malloc_zero_WF hw ha hm
  · rcases mm_malloc_WF hw ha (adjust_mod s) (adjust_lt s) hm with ⟨_, hh⟩ |
      ⟨_, _, _, _, _, _, _, _, _, _, hw1, hhl, _⟩
    · rw [hh]; exact ⟨bs, hw, rfl⟩
    · exact ⟨_, hw1, hhl⟩

theorem Served_WF {h0 h : Heap} (hs : Served h0 h) :
    ∃ bs, WF h bs ∧ h.heap_listp = h0.brk + 16 := by
  induction hs with
  | init hmax hok =>
    refine ⟨_, mm_init_WF h0 hmax hok, ?_⟩
    by_cases hfit : h0.brk + 4128 ≤ h0.max_addr
    · rw [mm_init_eq h0 hmax hfit]
    · rw [mm_init_fail h0 hmax hfit] at hok
      exact absurd hok (by decide)
  | malloc s p h' _ hm ih =>
    obtain ⟨bs, hw, hl⟩ := ih
    obtain ⟨bs', hw', hl'⟩ := mm_malloc_any_WF hw hm
    exact ⟨bs', hw', by rw [hl', hl]⟩
  | free p _ hp ih =>
    obtain ⟨bs, hw, hl⟩ := ih
    rcases hp with rfl | hp
    · rw [mm_free_NULL]; exact ⟨bs, hw, hl⟩
    · obtain ⟨l1, c, l2, rfl, rfl⟩ := allocated_split hw hp
      obtain ⟨_, _, _, _, _, _, _, _, _, _, hfw, hhl, _⟩ := mm_free_WF hw
      exact ⟨_, hfw, by rw [hhl, hl]⟩

theorem concr_sizes (bs : List Blk) : ∀ (p : Nat),
    ((concr p bs).map (fun b => b.2.1)).sum = total bs := by
  induction bs with
  | nil => intro p; rfl
  | cons b l ih => intro p; simp [concr, total, ih]

/-- C20 (conservation of heap bytes), evaluated.  After `mm_init`,
`a = mm_malloc(100) = 4112`, `q0 = mm_malloc(2^64 - 8) = 4224` (the adjusted
size wraps to 0 and the block stays marked free), `mm_free(a)` and
`mm_free(q0)`, the walk from the heap start is one block of size 8112, while
4128 bytes have been obtained from the growth primitive. -/
theorem free_of_wrapped_block_inflates :
    (mm_init boot).1 = 0 ∧ (mm_malloc heap0 100).map Prod.fst = some 4112 ∧
    (mm_malloc heap1 (U64 - 8)).map Prod.fst = some 4224 ∧
    heap_blocks heapS2 = some [(4112, 8112, 0)] ∧ heapS2.brk - boot.brk = 4128 ∧
    ([(4112, 8112, 0)].map (fun b : Nat × Nat × Nat => b.2.1)).sum + 2 * WSIZE ≠
      heapS2.brk - boot.brk := by decide

/-- Conservation of heap bytes when only allocated blocks are freed: after a
successful `mm_init` and any sequence of calls of `mm_malloc`, of any size, and of `mm_free`, of `NULL` or
an allocated block, the walk from the heap start reaches the epilogue and the
sizes of its blocks sum to the number of bytes obtained from the growth
primitive (the advance of the break since before `mm_init`) minus
`2 * WSIZE`. -/
theorem heap_bytes_conserved {h0 h : Heap} (hs : Served h0 h) :
    ∃ l, heap_blocks h = some l ∧
      (l.map (fun b => b.2.1)).sum + 2 * WSIZE = h.brk - h0.brk := by
  obtain ⟨bs, hw, hl⟩ := Served_WF hs
  refine ⟨_, heap_blocks_of_WF hw, ?_⟩
  have hend := Seg_end hw.2.1.1
  rw [concr_sizes, WSIZE_val]
  omega

theorem heap_bytes_conserved_witness :
    (mm_malloc heap1 (U64 - 8)).map Prod.fst = some 4224 ∧
    heap_blocks heapS = some [(4112, 4112, 0)] ∧ heapS.brk - boot.brk = 4128 ∧
    ∃ l, heap_blocks heapS = some l ∧
      (l.map (fun b => b.2.1)).sum + 2 * WSIZE = heapS.brk - boot.brk :=
  ⟨by decide, by decide, by decide,
    heap_bytes_conserved (Served.free 4112 (Served.malloc (U64 - 8) _ _
      (Served.malloc 100 _ _ (Served.init (by decide) (by decide)) (run_eq (by decide)))
      (run_eq (by decide))) (Or.inr (by decide)))⟩

end MM
